import Mathlib

/-!
Verification of the Toon language core: a shallow embedding in Lean 4 of the
AST model, position/range utilities, line classifier + block parser, tree
walker, diagnostic validator, position-query providers (hover/definition) and
serializer from `packages/core/src` and the AST-based LSP layer, together with
proofs of the specified properties.

Strings are modelled as `List Char` (`Str`).  JavaScript string primitives used
by the source (`trim`, `split`, `indexOf`, `substring`, `includes`, template
literals, `parseInt`, `toString`, `replace`) are modelled by the `js*`
functions below.  `Position.line`/`Position.character` are `Int`, matching the
JS number arithmetic of the source (where an `indexOf` miss would produce
`-1`-based coordinates).
-/

namespace Toon

abbrev Str := List Char

/-- Model of the JavaScript whitespace class `\s` (and of the characters
removed by `String.trim`), restricted to the ASCII whitespace characters;
a line never contains `'\n'` after splitting. -/
def jsIsSpace (c : Char) : Bool :=
  c = ' ' || c = '\t' || c = '\n' || c = '\r' || c = '\x0b' || c = '\x0c'

/-- Model of JS `String.trim`: drop leading and trailing whitespace. -/
def jsTrim (s : Str) : Str :=
  ((s.dropWhile jsIsSpace).reverse.dropWhile jsIsSpace).reverse

/-- Offset of the first occurrence of `needle` in `suffix` (left-to-right
scan; an occurrence at the very end — possible only for the empty needle —
is found as well, matching JS `indexOf`). -/
def findOccur : Str → Str → Option Nat
  | suffix, needle =>
    if needle.isPrefixOf suffix then some 0
    else
      match suffix with
      | [] => none
      | _ :: rest => (findOccur rest needle).map (· + 1)

/-- Model of JS `String.indexOf(needle, start)`: the first occurrence at or
after `start` (clamped into `[0, hay.length]`), or `-1` when there is none. -/
def jsIndexOfFrom (hay needle : Str) (start : Int) : Int :=
  let s := min start.toNat hay.length
  match findOccur (hay.drop s) needle with
  | some i => ((s + i : Nat) : Int)
  | none => -1

/-- Model of JS `String.indexOf(needle)`. -/
def jsIndexOf (hay needle : Str) : Int :=
  jsIndexOfFrom hay needle 0

/-- Model of JS `String.split(sep)` for a single-character separator
(`'\n'` in `parse`, `','` for value and field lists). -/
def jsSplitAux (sep : Char) : Str → Str → List Str
  | [], acc => [acc.reverse]
  | c :: cs, acc =>
    if c = sep then acc.reverse :: jsSplitAux sep cs []
    else jsSplitAux sep cs (c :: acc)

/-- Model of JS `String.split(sep)` (single-character separator). -/
def jsSplit (sep : Char) (s : Str) : List Str :=
  jsSplitAux sep s []

/-- Model of JS `String.includes(c)` for a single character. -/
def jsIncludes (s : Str) (c : Char) : Bool :=
  s.contains c

/-- Decimal digit character for `n < 10` (`'0'`–`'9'`). -/
def digitCharOf (n : Nat) : Char :=
  Char.ofNat (48 + n)

/-- Fuelled accumulator for `natToChars` (fuel keeps the recursion
structural so that the kernel can evaluate it). -/
def natToCharsAux : Nat → Nat → Str → Str
  | 0, _, acc => acc
  | fuel + 1, n, acc =>
    let acc' := digitCharOf (n % 10) :: acc
    if n < 10 then acc' else natToCharsAux fuel (n / 10) acc'

/-- Model of JS `Number.prototype.toString()` for a natural number
(decimal digits). -/
def natToChars (n : Nat) : Str :=
  natToCharsAux (n + 1) n []

/-- Model of JS `String.replace(pattern, replacement)` with a string pattern:
replace the first occurrence only. -/
def jsReplace (s pat rep : Str) : Str :=
  if pat.isPrefixOf s then rep ++ s.drop pat.length
  else
    match s with
    | [] => []
    | c :: s' => c :: jsReplace s' pat rep

/-- Join a list of chunks with a separator character (model of
`Array.prototype.join(lineEnding)` for the default `'\n'`). -/
def joinWith (sep : Char) : List Str → Str
  | [] => []
  | [s] => s
  | s :: rest => s ++ sep :: joinWith sep rest

/-! ## AST node model (`packages/core/src/ast/types.ts`) -/

/-- Source position, 0-based line and character (`Position`). -/
structure Position where
  line : Int
  character : Int
deriving DecidableEq, Repr

/-- Source range; `stop` models the source field `end` (exclusive on the
character axis). -/
structure Range where
  start : Position
  stop : Position
deriving DecidableEq, Repr

/-- Model of `createPosition`. -/
def createPosition (line character : Int) : Position :=
  ⟨line, character⟩

/-- Model of `createRange`. -/
def createRange (startLine startCharacter endLine endCharacter : Int) : Range :=
  ⟨createPosition startLine startCharacter, createPosition endLine endCharacter⟩

/-- Model of `isPositionInRange` from `ast/types.ts`. -/
def isPositionInRange (position : Position) (range : Range) : Bool :=
  if position.line < range.start.line then false
  else if position.line = range.start.line && position.character < range.start.character then false
  else if position.line > range.stop.line then false
  else if position.line = range.stop.line && position.character ≥ range.stop.character then false
  else true

/-- ValueNode: an individual value (simple-array element or data-row cell). -/
structure ValueNode where
  value : Str
  range : Range
deriving DecidableEq, Repr

/-- FieldNode: a field declaration of a structured array. -/
structure FieldNode where
  name : Str
  range : Range
deriving DecidableEq, Repr

/-- DataRowNode: one data row of a structured array. -/
structure DataRowNode where
  values : List ValueNode
  range : Range
deriving DecidableEq, Repr

/-- SimpleArrayNode payload: `name[size]: v1,v2,…`. -/
structure SimpleArrayData where
  name : Str
  nameRange : Range
  declaredSize : Nat
  sizeRange : Range
  values : List ValueNode
  range : Range
deriving DecidableEq, Repr

/-- StructuredArrayNode payload: `name[size]{f1,f2}:` plus data rows. -/
structure StructuredArrayData where
  name : Str
  nameRange : Range
  declaredSize : Nat
  sizeRange : Range
  fields : List FieldNode
  dataRows : List DataRowNode
  range : Range
deriving DecidableEq, Repr

/-- Tagged-union AST node (the `parent` back-reference of the source is a
non-owning lookup aid and is not modelled; the tree shape is identical). -/
inductive ASTNode where
  | document (children : List ASTNode) (range : Range)
  | keyValuePair (key : Str) (keyRange : Range) (value : Str) (valueRange : Range)
      (colonPosition : Int) (range : Range)
  | block (key : Str) (keyRange : Range) (colonPosition : Int)
      (children : List ASTNode) (range : Range)
  | simpleArray (d : SimpleArrayData)
  | structuredArray (d : StructuredArrayData)
  | field (f : FieldNode)
  | dataRow (r : DataRowNode)
  | value (v : ValueNode)
  | empty (range : Range)
deriving Repr

/-- The `type` discriminant of a node. -/
inductive NodeType where
  | document | keyValuePair | block | simpleArray | structuredArray
  | field | dataRow | value | empty
deriving DecidableEq, Repr

/-- Discriminant of an `ASTNode` (the `type` field of the source). -/
def ASTNode.nodeType : ASTNode → NodeType
  | .document .. => .document
  | .keyValuePair .. => .keyValuePair
  | .block .. => .block
  | .simpleArray _ => .simpleArray
  | .structuredArray _ => .structuredArray
  | .field _ => .field
  | .dataRow _ => .dataRow
  | .value _ => .value
  | .empty _ => .empty

/-- The source `range` of a node. -/
def ASTNode.range : ASTNode → Range
  | .document _ r => r
  | .keyValuePair _ _ _ _ _ r => r
  | .block _ _ _ _ r => r
  | .simpleArray d => d.range
  | .structuredArray d => d.range
  | .field f => f.range
  | .dataRow r => r.range
  | .value v => v.range
  | .empty r => r

/-! ## Line classifier + block parser (`Toon`, `packages/core/src/parser`)

The while loops of the source walk a line cursor over `allLines`; the mutual
recursion between block parsing and child classification is made structural
with a `fuel` parameter.  `parse` supplies fuel strictly larger than the
number of call-graph steps any input can take (each step either advances the
cursor or descends one nesting level, both bounded by the line count), so the
fuel-exhaustion branches are unreachable from `parse`. -/

/-- First character class of `[a-zA-Z_]`. -/
def isIdentStart (c : Char) : Bool := c.isAlpha || c = '_'

/-- Character class `[a-zA-Z0-9_]`. -/
def isIdentChar (c : Char) : Bool := c.isAlpha || c.isDigit || c = '_'

/-- Greedy match of `[a-zA-Z_][a-zA-Z0-9_]*` at the head of `s` (the regex
cannot backtrack to a shorter match: an identifier character never equals the
`[` that must follow). -/
def matchIdent (s : Str) : Option Str :=
  match s with
  | [] => none
  | c :: cs => if isIdentStart c then some (c :: cs.takeWhile isIdentChar) else none

/-- Captures of `/^(\s*)([a-zA-Z_][a-zA-Z0-9_]*)\[(\d+)\]\{([^}]+)\}:\s*$/`. -/
structure StructuredHeaderMatch where
  indent : Str
  name : Str
  sizeStr : Str
  fieldsStr : Str
deriving DecidableEq, Repr

/-- Deterministic model of the structured-array header regex (greedy matching
is exact here because every boundary character is outside the preceding
character class). -/
def matchStructuredHeader (line : Str) : Option StructuredHeaderMatch :=
  let indent := line.takeWhile jsIsSpace
  let r1 := line.drop indent.length
  match matchIdent r1 with
  | none => none
  | some name =>
    match r1.drop name.length with
    | '[' :: r3 =>
      let sizeStr := r3.takeWhile Char.isDigit
      if sizeStr = [] then none else
      match r3.drop sizeStr.length with
      | ']' :: '{' :: r4 =>
        let fieldsStr := r4.takeWhile (fun c => c ≠ '}')
        if fieldsStr = [] then none else
        match r4.drop fieldsStr.length with
        | '}' :: ':' :: r5 =>
          if r5.all jsIsSpace then some ⟨indent, name, sizeStr, fieldsStr⟩ else none
        | _ => none
      | _ => none
    | _ => none

/-- Captures of `/^(\s*)([a-zA-Z_][a-zA-Z0-9_]*)\[(\d+)\]:\s*(.*)$/`
(`valuesStr` is the remainder after the colon with leading whitespace
consumed by the greedy `\s*`). -/
structure SimpleHeaderMatch where
  indent : Str
  name : Str
  sizeStr : Str
  valuesStr : Str
deriving DecidableEq, Repr

/-- Deterministic model of the simple-array header regex. -/
def matchSimpleHeader (line : Str) : Option SimpleHeaderMatch :=
  let indent := line.takeWhile jsIsSpace
  let r1 := line.drop indent.length
  match matchIdent r1 with
  | none => none
  | some name =>
    match r1.drop name.length with
    | '[' :: r3 =>
      let sizeStr := r3.takeWhile Char.isDigit
      if sizeStr = [] then none else
      match r3.drop sizeStr.length with
      | ']' :: ':' :: r5 => some ⟨indent, name, sizeStr, r5.dropWhile jsIsSpace⟩
      | _ => none
    | _ => none

/-- Model of `parseInt(s, 10)` on a non-empty digit string. -/
def parseIntDec (s : Str) : Nat :=
  s.foldl (fun acc c => acc * 10 + (c.toNat - 48)) 0

/-- Model of `getIndentLevel`: number of leading whitespace characters. -/
def getIndentLevel (line : Str) : Nat :=
  (line.takeWhile jsIsSpace).length

/-- Model of `createEmptyNode`. -/
def createEmptyNode (lineNumber : Nat) (lineLength : Nat) : ASTNode :=
  .empty (createRange lineNumber 0 lineNumber lineLength)

/-- The value loop shared verbatim by `parseDataRow` and `tryParseSimpleArray`:
split parts are trimmed and given ranges from a running cursor
(`currentPos += valuePart.length + 1`). -/
def valuesLoop (lineNumber : Nat) : List Str → Int → List ValueNode
  | [], _ => []
  | valuePart :: rest, currentPos =>
    let trimmedValue := jsTrim valuePart
    let valueStartInPart := jsIndexOf valuePart trimmedValue
    let valueStartChar := currentPos + valueStartInPart
    ⟨trimmedValue,
      createRange lineNumber valueStartChar lineNumber (valueStartChar + trimmedValue.length)⟩
      :: valuesLoop lineNumber rest (currentPos + valuePart.length + 1)

/-- Model of `Toon.parseDataRow` (the `_expectedFieldCount` parameter of the
source is unused and omitted). -/
def parseDataRow (line : Str) (lineNumber : Nat) : Option DataRowNode :=
  let trimmedLine := jsTrim line
  if trimmedLine = [] then none
  else
    let valueParts := jsSplit ',' trimmedLine
    let values := valuesLoop lineNumber valueParts (jsIndexOf line trimmedLine)
    some ⟨values,
      createRange lineNumber (jsIndexOf line trimmedLine) lineNumber
        (jsIndexOf line trimmedLine + trimmedLine.length)⟩

/-- Does the line match `/^\s+/` (begin with whitespace)? -/
def startsWithSpace : Str → Bool
  | [] => false
  | c :: _ => jsIsSpace c

/-- The data-row while loop of `tryParseStructuredArray`: consume following
lines until a blank or non-indented line (`rest` is `allLines` from index
`dataLineIndex` on, so the recursion is structural). -/
def collectDataRows : List Str → Nat → List DataRowNode
  | [], _ => []
  | dataLine :: rest, dataLineIndex =>
    if jsTrim dataLine = [] || !startsWithSpace dataLine then []
    else
      match parseDataRow dataLine dataLineIndex with
      | some row => row :: collectDataRows rest (dataLineIndex + 1)
      | none => collectDataRows rest (dataLineIndex + 1)

/-- The field loop of `tryParseStructuredArray`, re-locating each trimmed
field name inside the field-list substring from a moving search start. -/
def fieldsLoop (lineNumber : Nat) (braceStartChar : Int) (fieldsStr : Str) :
    List Str → Int → List FieldNode
  | [], _ => []
  | fieldName :: rest, fieldSearchStart =>
    let fieldStartInStr := jsIndexOfFrom fieldsStr fieldName fieldSearchStart
    let fieldStartChar := braceStartChar + 1 + fieldStartInStr
    ⟨fieldName,
      createRange lineNumber fieldStartChar lineNumber (fieldStartChar + fieldName.length)⟩
      :: fieldsLoop lineNumber braceStartChar fieldsStr rest (fieldStartInStr + fieldName.length)

/-- Model of `Toon.tryParseStructuredArray`. -/
def tryParseStructuredArray (line : Str) (lineNumber : Nat) (allLines : List Str) :
    Option (ASTNode × Nat) :=
  match matchStructuredHeader line with
  | none => none
  | some m =>
    let declaredSize := parseIntDec m.sizeStr
    let nameStartChar := m.indent.length
    let bracketStartChar := nameStartChar + m.name.length
    let braceStartChar := jsIndexOfFrom line ['{'] bracketStartChar
    let fieldNames := (jsSplit ',' m.fieldsStr).map jsTrim
    let fields := fieldsLoop lineNumber braceStartChar m.fieldsStr fieldNames 0
    let dataRows := collectDataRows (allLines.drop (lineNumber + 1)) (lineNumber + 1)
    let linesConsumed := 1 + dataRows.length
    let endLine := lineNumber + linesConsumed - 1
    let endChar : Int :=
      if dataRows.length > 0 then ((allLines.get? endLine).getD []).length else line.length
    some (.structuredArray ⟨m.name,
      createRange lineNumber nameStartChar lineNumber (nameStartChar + m.name.length),
      declaredSize,
      createRange lineNumber (bracketStartChar + 1) lineNumber
        (bracketStartChar + 1 + m.sizeStr.length),
      fields, dataRows,
      createRange lineNumber 0 endLine endChar⟩, linesConsumed)

/-- Model of `Toon.tryParseSimpleArray`. -/
def tryParseSimpleArray (line : Str) (lineNumber : Nat) : Option (ASTNode × Nat) :=
  match matchSimpleHeader line with
  | none => none
  | some m =>
    if jsIncludes line '{' && jsIncludes line '}' then none
    else
      let declaredSize := parseIntDec m.sizeStr
      let nameStartChar := m.indent.length
      let bracketStartChar := nameStartChar + m.name.length
      let colonChar := jsIndexOfFrom line [':'] bracketStartChar
      let values :=
        if (jsTrim m.valuesStr).length > 0 then
          let valuesStartPos := jsIndexOfFrom line m.valuesStr (colonChar + 1)
          valuesLoop lineNumber (jsSplit ',' m.valuesStr) valuesStartPos
        else []
      some (.simpleArray ⟨m.name,
        createRange lineNumber nameStartChar lineNumber (nameStartChar + m.name.length),
        declaredSize,
        createRange lineNumber (bracketStartChar + 1) lineNumber
          (bracketStartChar + 1 + m.sizeStr.length),
        values,
        createRange lineNumber 0 lineNumber line.length⟩, 1)

/-- Model of `Toon.tryParseKeyValuePair`. -/
def tryParseKeyValuePair (line : Str) (lineNumber : Nat) : Option (ASTNode × Nat) :=
  let colonIndex := jsIndexOf line [':']
  if colonIndex = -1 then none
  else
    let bracketIndex := jsIndexOf line ['[']
    if bracketIndex ≠ -1 && bracketIndex < colonIndex then none
    else
      let key := jsTrim (line.take colonIndex.toNat)
      let value := jsTrim (line.drop (colonIndex.toNat + 1))
      let keyStartChar := jsIndexOf line key
      let valueStartChar :=
        if value.length > 0 then jsIndexOfFrom line value colonIndex else colonIndex + 1
      some (.keyValuePair key
        (createRange lineNumber keyStartChar lineNumber (keyStartChar + key.length))
        value
        (createRange lineNumber valueStartChar lineNumber (valueStartChar + value.length))
        colonIndex
        (createRange lineNumber 0 lineNumber line.length), 1)

mutual

/-- Model of the child-collection while loop shared verbatim by
`tryParseBlockStructure` and `tryParseNestedBlockStructure`: skip blank lines,
stop at the first line whose indentation drops below the first child's level,
classify each other line via `parseBlockChild`, dropping `empty` results; the
returned index is the loop's final `childLineIndex`. -/
def blockChildrenLoopF : Nat → List Str → Nat → Nat → List ASTNode × Nat
  | 0, _, childLineIndex, _ => ([], childLineIndex)
  | fuel + 1, allLines, childLineIndex, childIndentLevel =>
    match allLines.get? childLineIndex with
    | none => ([], childLineIndex)
    | some childLine =>
      if jsTrim childLine = [] then
        blockChildrenLoopF fuel allLines (childLineIndex + 1) childIndentLevel
      else if getIndentLevel childLine < childIndentLevel then
        ([], childLineIndex)
      else
        let res := parseBlockChildF fuel childLine childLineIndex allLines childIndentLevel
        let rest := blockChildrenLoopF fuel allLines (childLineIndex + res.2) childIndentLevel
        (match res.1 with
         | some node => if node.nodeType ≠ .empty then node :: rest.1 else rest.1
         | none => rest.1,
         rest.2)
termination_by structural fuel => fuel

/-- Model of `Toon.parseBlockChild`: nested block, then key-value pair, else
empty (the fuel-0 branch mirrors the unreachable-from-`parse` fallback). -/
def parseBlockChildF : Nat → Str → Nat → List Str → Nat → Option ASTNode × Nat
  | 0, line, lineNumber, _, _ => (some (createEmptyNode lineNumber line.length), 1)
  | fuel + 1, line, lineNumber, allLines, blockIndentLevel =>
    let trimmedLine := jsTrim line
    if trimmedLine = [] then (some (createEmptyNode lineNumber line.length), 1)
    else
      match tryParseNestedBlockStructureF fuel line lineNumber allLines blockIndentLevel with
      | some r => (some r.1, r.2)
      | none =>
        match tryParseKeyValuePair line lineNumber with
        | some r => (some r.1, r.2)
        | none => (some (createEmptyNode lineNumber line.length), 1)
termination_by structural fuel => fuel

/-- Model of `Toon.tryParseNestedBlockStructure` (the `_parentIndentLevel`
parameter of the source is unused). -/
def tryParseNestedBlockStructureF : Nat → Str → Nat → List Str → Nat → Option (ASTNode × Nat)
  | 0, _, _, _, _ => none
  | fuel + 1, line, lineNumber, allLines, _parentIndentLevel =>
    let colonIndex := jsIndexOf line [':']
    if colonIndex = -1 then none
    else
      let bracketIndex := jsIndexOf line ['[']
      if bracketIndex ≠ -1 && bracketIndex < colonIndex then none
      else
        let key := jsTrim (line.take colonIndex.toNat)
        let valueAfterColon := jsTrim (line.drop (colonIndex.toNat + 1))
        if valueAfterColon.length > 0 then none
        else
          match allLines.get? (lineNumber + 1) with
          | none => none
          | some nextLine =>
            let currentIndent := getIndentLevel line
            let nextIndent := getIndentLevel nextLine
            if jsTrim nextLine = [] || nextIndent ≤ currentIndent then none
            else
              let lp := blockChildrenLoopF fuel allLines (lineNumber + 1) nextIndent
              match lp.1.getLast? with
              | none => none
              | some lastChild =>
                let keyStartChar := jsIndexOf line key
                some (.block key
                  (createRange lineNumber keyStartChar lineNumber (keyStartChar + key.length))
                  colonIndex lp.1
                  (createRange lineNumber 0 lastChild.range.stop.line lastChild.range.stop.character),
                  lp.2 - lineNumber)
termination_by structural fuel => fuel

end

/-- Model of `Toon.tryParseBlockStructure` (textually the same algorithm as
`tryParseNestedBlockStructure`; the source duplicates the body). -/
def tryParseBlockStructureF (fuel : Nat) (line : Str) (lineNumber : Nat)
    (allLines : List Str) : Option (ASTNode × Nat) :=
  let colonIndex := jsIndexOf line [':']
  if colonIndex = -1 then none
  else
    let bracketIndex := jsIndexOf line ['[']
    if bracketIndex ≠ -1 && bracketIndex < colonIndex then none
    else
      let key := jsTrim (line.take colonIndex.toNat)
      let valueAfterColon := jsTrim (line.drop (colonIndex.toNat + 1))
      if valueAfterColon.length > 0 then none
      else
        match allLines.get? (lineNumber + 1) with
        | none => none
        | some nextLine =>
          let currentIndent := getIndentLevel line
          let nextIndent := getIndentLevel nextLine
          if jsTrim nextLine = [] || nextIndent ≤ currentIndent then none
          else
            let lp := blockChildrenLoopF fuel allLines (lineNumber + 1) nextIndent
            match lp.1.getLast? with
            | none => none
            | some lastChild =>
              let keyStartChar := jsIndexOf line key
              some (.block key
                (createRange lineNumber keyStartChar lineNumber (keyStartChar + key.length))
                colonIndex lp.1
                (createRange lineNumber 0 lastChild.range.stop.line lastChild.range.stop.character),
                lp.2 - lineNumber)

/-- Model of `Toon.parseLine`: classification in source priority order. -/
def parseLineF (fuel : Nat) (line : Str) (lineNumber : Nat) (allLines : List Str) :
    Option ASTNode × Nat :=
  if jsTrim line = [] then (some (createEmptyNode lineNumber line.length), 1)
  else
    match tryParseStructuredArray line lineNumber allLines with
    | some r => (some r.1, r.2)
    | none =>
      match tryParseSimpleArray line lineNumber with
      | some r => (some r.1, r.2)
      | none =>
        match tryParseBlockStructureF fuel line lineNumber allLines with
        | some r => (some r.1, r.2)
        | none =>
          match tryParseKeyValuePair line lineNumber with
          | some r => (some r.1, r.2)
          | none => (some (createEmptyNode lineNumber line.length), 1)

/-- The top-level while loop of `Toon.parse`. -/
def parseTopLoopF : Nat → List Str → Nat → List ASTNode
  | 0, _, _ => []
  | fuel + 1, allLines, lineIndex =>
    match allLines.get? lineIndex with
    | none => []
    | some line =>
      let res := parseLineF fuel line lineIndex allLines
      let rest := parseTopLoopF fuel allLines (lineIndex + res.2)
      match res.1 with
      | some node => node :: rest
      | none => rest

/-- Model of `Toon.parse`: split on `'\n'`, classify lines, wrap in a
document node. -/
def parse (text : Str) : ASTNode :=
  let lines := jsSplit '\n' text
  .document (parseTopLoopF (4 * lines.length + 4) lines 0)
    (createRange 0 0 (lines.length - 1) (((lines.get? (lines.length - 1)).getD []).length))

/-! ## Tree walker (`ASTWalker`, `packages/core/src/visitor/index.ts`)

`walkNode` first fires the `onNodeVisit` callback with `(node, depth)`, then
switches on `node.type` to dispatch the visitor method and recurse into the
per-type children.  The switch has cases for `document`, `key-value-pair`,
`simple-array`, `structured-array`, `field`, `data-row`, `value` and `empty`
— and none for `block`, so for a block node the switch falls through after
the callback: no visitor method is dispatched and the children are not
walked.  Leaf recursions (`value`, `field`, `data-row` children) are inlined
below; each contributes exactly its own `(tag, depth)` entry as in the
source. -/

mutual

/-- Callback trace of `ASTWalker.walkNode`: the ordered `(node, depth)`
instrumentation invocations, abstracted to the node's type tag. -/
def walkNodeTrace : ASTNode → Nat → List (NodeType × Nat)
  | .document children _, depth => (.document, depth) :: walkListTrace children (depth + 1)
  | .keyValuePair _ _ _ _ _ _, depth => [(.keyValuePair, depth)]
  | .block _ _ _ _ _, depth => [(.block, depth)]
  | .simpleArray d, depth =>
    (.simpleArray, depth) :: d.values.map (fun _ => (.value, depth + 1))
  | .structuredArray d, depth =>
    (.structuredArray, depth) :: (d.fields.map (fun _ => (.field, depth + 1)) ++
      d.dataRows.flatMap (fun r => (.dataRow, depth + 1) :: r.values.map (fun _ => (.value, depth + 2))))
  | .field _, depth => [(.field, depth)]
  | .dataRow r, depth => (.dataRow, depth) :: r.values.map (fun _ => (.value, depth + 1))
  | .value _, depth => [(.value, depth)]
  | .empty _, depth => [(.empty, depth)]

/-- Trace of walking a child list at one depth. -/
def walkListTrace : List ASTNode → Nat → List (NodeType × Nat)
  | [], _ => []
  | n :: ns, depth => walkNodeTrace n depth ++ walkListTrace ns depth

end

mutual

/-- The nodes reached by `ASTWalker.walkNode`, in visit order (block children
are absent, as in the source switch). -/
def walkNodes : ASTNode → List ASTNode
  | .document children r => .document children r :: walkNodesList children
  | .keyValuePair k kr v vr c r => [.keyValuePair k kr v vr c r]
  | .block k kr c cs r => [.block k kr c cs r]
  | .simpleArray d => .simpleArray d :: d.values.map .value
  | .structuredArray d =>
    .structuredArray d :: (d.fields.map .field ++
      d.dataRows.flatMap (fun r => .dataRow r :: r.values.map .value))
  | .field f => [.field f]
  | .dataRow r => .dataRow r :: r.values.map .value
  | .value v => [.value v]
  | .empty r => [.empty r]

/-- Walk order of a node list. -/
def walkNodesList : List ASTNode → List ASTNode
  | [] => []
  | n :: ns => walkNodes n ++ walkNodesList ns

end

mutual

/-- Number of nodes actually contained in a subtree according to the data
model's per-type child enumeration of §3 of the spec (Document→children,
Block→children, SimpleArray→values, StructuredArray→fields then dataRows,
DataRow→values, leaves→none).  This counts the tree itself, independently of
what the walker reaches. -/
def treeNodeCount : ASTNode → Nat
  | .document children _ => 1 + treeNodeCountList children
  | .block _ _ _ children _ => 1 + treeNodeCountList children
  | .simpleArray d => 1 + d.values.length
  | .structuredArray d =>
    1 + d.fields.length + (d.dataRows.map (fun r => 1 + r.values.length)).sum
  | .dataRow r => 1 + r.values.length
  | _ => 1

/-- Node count of a child list. -/
def treeNodeCountList : List ASTNode → Nat
  | [] => 0
  | n :: ns => treeNodeCount n + treeNodeCountList ns

end

/-! ## Serializer (`ToonSerializer`, `packages/core/src/serializer/index.ts`)

Default options: two-space indent unit, `'\n'` line ending. -/

/-- The indentation prefix `options.indent.repeat(indentLevel)`. -/
def indentOf (indentLevel : Nat) : Str :=
  List.replicate (2 * indentLevel) ' '

mutual

/-- Model of `ToonSerializer.serializeNode` (default options): returns the
serialized chunk, or `none` for node types outside the switch (`document`,
`field`, `data-row`, `value`). -/
def serializeNodeF : ASTNode → Nat → Option Str
  | .keyValuePair key _ value _ _ _, indentLevel =>
    if value.length > 0 then some (indentOf indentLevel ++ key ++ ':' :: ' ' :: value)
    else some (indentOf indentLevel ++ key ++ [':'])
  | .block key _ _ children _, indentLevel =>
    some (joinWith '\n'
      ((indentOf indentLevel ++ key ++ [':']) :: serializeListF children (indentLevel + 1)))
  | .simpleArray d, indentLevel =>
    some (indentOf indentLevel ++ d.name ++ '[' :: natToChars d.declaredSize ++
      ']' :: ':' :: ' ' :: joinWith ',' (d.values.map (·.value)))
  | .structuredArray d, indentLevel =>
    some (joinWith '\n'
      ((indentOf indentLevel ++ d.name ++ '[' :: natToChars d.declaredSize ++
          ']' :: '{' :: joinWith ',' (d.fields.map (·.name)) ++ '}' :: [':']) ::
        d.dataRows.map (fun r =>
          indentOf indentLevel ++ ' ' :: ' ' :: joinWith ',' (r.values.map (·.value)))))
  | .empty _, _ => some []
  | .document _ _, _ => none
  | .field _, _ => none
  | .dataRow _, _ => none
  | .value _, _ => none

/-- Model of the child loop of `serializeBlock`: serialize each child at
`indentLevel`, keeping non-null chunks. -/
def serializeListF : List ASTNode → Nat → List Str
  | [], _ => []
  | n :: ns, indentLevel =>
    match serializeNodeF n indentLevel with
    | some s => s :: serializeListF ns indentLevel
    | none => serializeListF ns indentLevel

end

/-- Model of `ToonSerializer.serialize` (default options): serialize each
document child at level 0 and join with the line ending.  (On a non-document
node the source method is not applicable; this model returns `[]`.) -/
def serialize : ASTNode → Str
  | .document children _ => joinWith '\n' (serializeListF children 0)
  | _ => []

/-! ## Diagnostic validator (`ASTDiagnosticValidator`, LSP server)

Message catalog (`DiagnosticMessages`); the `{declared}`/`{actual}`/
`{expected}` parameters are substituted by first-occurrence `replace`. -/

namespace DiagnosticMessages

/-- Array size insufficient message template. -/
def ARRAY_SIZE_INSUFFICIENT : Str :=
  "配列の要素数が不足しています（宣言: \x7bdeclared\x7d, 実際: \x7bactual\x7d）".toList

/-- Array size exceeded message template. -/
def ARRAY_SIZE_EXCEEDED : Str :=
  "配列の要素数が超過しています（宣言: \x7bdeclared\x7d, 実際: \x7bactual\x7d）".toList

/-- Row count mismatch message template. -/
def ARRAY_ROWS_MISMATCH : Str :=
  "配列の行数が宣言と一致しません（宣言: \x7bdeclared\x7d, 実際: \x7bactual\x7d）".toList

/-- Field count insufficient message template. -/
def FIELD_COUNT_INSUFFICIENT : Str :=
  "フィールド数が不足しています（期待: \x7bexpected\x7d, 実際: \x7bactual\x7d）".toList

/-- Field count exceeded message template. -/
def FIELD_COUNT_EXCEEDED : Str :=
  "フィールド数が超過しています（期待: \x7bexpected\x7d, 実際: \x7bactual\x7d）".toList

/-- Missing value message. -/
def MISSING_VALUE : Str := "値が指定されていません".toList

/-- Missing key message. -/
def MISSING_KEY : Str := "キーが指定されていません".toList

end DiagnosticMessages

/-- Diagnostic severity (LSP). -/
inductive DiagnosticSeverity where
  | error
  | warning
deriving DecidableEq, Repr

/-- LSP diagnostic produced by the validator (`toRange` is the identity on
this model's ranges). -/
structure Diagnostic where
  severity : DiagnosticSeverity
  range : Range
  message : Str
  source : Str
deriving DecidableEq, Repr

/-- Instantiate a `{declared}`/`{actual}` template, as in
`template.replace('{declared}', declared.toString()).replace('{actual}', actual.toString())`. -/
def declaredActualMessage (template : Str) (declared actual : Nat) : Str :=
  jsReplace (jsReplace template "\x7bdeclared\x7d".toList (natToChars declared))
    "\x7bactual\x7d".toList (natToChars actual)

/-- Instantiate an `{expected}`/`{actual}` template. -/
def expectedActualMessage (template : Str) (expected actual : Nat) : Str :=
  jsReplace (jsReplace template "\x7bexpected\x7d".toList (natToChars expected))
    "\x7bactual\x7d".toList (natToChars actual)

/-- Model of `ASTDiagnosticValidator.visitKeyValuePair`: the two pushes, in
source order. -/
def visitKeyValuePairDiags (key : Str) (keyRange : Range) (value : Str)
    (valueRange : Range) : List Diagnostic :=
  (if (jsTrim key).length = 0 then
    [⟨.error, keyRange, DiagnosticMessages.MISSING_KEY, "toon".toList⟩] else []) ++
  (if (jsTrim value).length = 0 then
    [⟨.error, valueRange, DiagnosticMessages.MISSING_VALUE, "toon".toList⟩] else [])

/-- Model of `ASTDiagnosticValidator.visitSimpleArray`. -/
def visitSimpleArrayDiags (d : SimpleArrayData) : List Diagnostic :=
  let actualCount := d.values.length
  let declaredSize := d.declaredSize
  if actualCount ≠ declaredSize then
    let message :=
      if actualCount < declaredSize then
        declaredActualMessage DiagnosticMessages.ARRAY_SIZE_INSUFFICIENT declaredSize actualCount
      else
        declaredActualMessage DiagnosticMessages.ARRAY_SIZE_EXCEEDED declaredSize actualCount
    [⟨.error, d.range, message, "toon".toList⟩]
  else []

/-- Model of `ASTDiagnosticValidator.validateDataRow`. -/
def validateDataRowDiags (row : DataRowNode) (parentArray : StructuredArrayData) :
    List Diagnostic :=
  let expectedFieldCount := parentArray.fields.length
  let actualFieldCount := row.values.length
  if actualFieldCount ≠ expectedFieldCount then
    let message :=
      if actualFieldCount < expectedFieldCount then
        expectedActualMessage DiagnosticMessages.FIELD_COUNT_INSUFFICIENT
          expectedFieldCount actualFieldCount
      else
        expectedActualMessage DiagnosticMessages.FIELD_COUNT_EXCEEDED
          expectedFieldCount actualFieldCount
    [⟨.error, row.range, message, "toon".toList⟩]
  else []

/-- Model of `ASTDiagnosticValidator.visitStructuredArray`: the row-count
check (anchored at `sizeRange`) followed by the per-row field-count checks
(each anchored at the row's own range), in traversal order. -/
def visitStructuredArrayDiags (d : StructuredArrayData) : List Diagnostic :=
  (if d.dataRows.length ≠ d.declaredSize then
    [⟨.error, d.sizeRange,
      declaredActualMessage DiagnosticMessages.ARRAY_ROWS_MISMATCH
        d.declaredSize d.dataRows.length, "toon".toList⟩]
  else []) ++
  d.dataRows.flatMap (fun row => validateDataRowDiags row d)

/-- Diagnostics contributed by one walked node when the validator is
dispatched on it by the walker (the validator implements no
`visitField`/`visitDataRow`/`visitValue`/`visitEmpty`; `visitDocument` emits
nothing; `visitBlock` is implemented but, the walker switch having no
`block` case, is never dispatched). -/
def validatorDispatch : ASTNode → List Diagnostic
  | .keyValuePair k kr v vr _ _ => visitKeyValuePairDiags k kr v vr
  | .simpleArray d => visitSimpleArrayDiags d
  | .structuredArray d => visitStructuredArrayDiags d
  | _ => []

/-- Diagnostics of a whole document: the validator visitor run through the
walker, collecting in traversal order. -/
def runValidator (doc : ASTNode) : List Diagnostic :=
  (walkNodes doc).flatMap validatorDispatch

/-! ## Position-query providers (hover / definition, LSP server)

The hover markdown assembly is abstracted to the data it interpolates (the
claims under verification concern which result is produced, not the markdown
text). -/

/-- The information a hover result carries. -/
inductive HoverInfo where
  | kvKey (key value : Str)
  | kvValue (value key : Str)
  | arrayName (name : Str) (declaredSize : Nat) (valueCount : Nat)
  | arrayValue (value : Str) (index1 : Nat) (count : Nat) (name : Str)
  | structName (name : Str) (declaredSize : Nat) (fieldNames : List Str)
  | fieldInfo (name : Str) (position1 : Nat) (count : Nat)
  | dataValue (fieldName : Str) (value : Str)
deriving DecidableEq, Repr

/-- An LSP hover result. -/
structure Hover where
  contents : HoverInfo
  range : Range
deriving DecidableEq, Repr

/-- An LSP location result (definition provider). -/
structure Location where
  uri : Str
  range : Range
deriving DecidableEq, Repr

/-- Model of `ASTHoverProvider.visitKeyValuePair`. -/
def visitKeyValuePairHover (pos : Position) (key : Str) (keyRange : Range)
    (value : Str) (valueRange : Range) : Option Hover :=
  if isPositionInRange pos keyRange then some ⟨.kvKey key value, keyRange⟩
  else if isPositionInRange pos valueRange then some ⟨.kvValue value key, valueRange⟩
  else none

/-- The value loop of `ASTHoverProvider.visitSimpleArray`. -/
def simpleValuesHoverScan (pos : Position) (name : Str) (count : Nat) :
    List ValueNode → Nat → Option Hover
  | [], _ => none
  | v :: vs, i =>
    if isPositionInRange pos v.range then
      some ⟨.arrayValue v.value (i + 1) count name, v.range⟩
    else simpleValuesHoverScan pos name count vs (i + 1)

/-- Model of `ASTHoverProvider.visitSimpleArray`. -/
def visitSimpleArrayHover (pos : Position) (d : SimpleArrayData) : Option Hover :=
  if isPositionInRange pos d.nameRange then
    some ⟨.arrayName d.name d.declaredSize d.values.length, d.nameRange⟩
  else simpleValuesHoverScan pos d.name d.values.length d.values 0

/-- The field loop of `ASTHoverProvider.visitStructuredArray`. -/
def fieldsHoverScan (pos : Position) (count : Nat) :
    List FieldNode → Nat → Option Hover
  | [], _ => none
  | f :: fs, i =>
    if isPositionInRange pos f.range then some ⟨.fieldInfo f.name (i + 1) count, f.range⟩
    else fieldsHoverScan pos count fs (i + 1)

/-- The inner data-row value loop of `ASTHoverProvider.visitStructuredArray`:
on a positional hit the hover is produced only when `fields[i]` exists
(`if (field)`); otherwise the loop continues scanning. -/
def rowValuesHoverScan (pos : Position) (fields : List FieldNode) :
    List ValueNode → Nat → Option Hover
  | [], _ => none
  | v :: vs, i =>
    if isPositionInRange pos v.range then
      match fields[i]? with
      | some f => some ⟨.dataValue f.name v.value, v.range⟩
      | none => rowValuesHoverScan pos fields vs (i + 1)
    else rowValuesHoverScan pos fields vs (i + 1)

/-- The outer data-row loop of `ASTHoverProvider.visitStructuredArray`. -/
def rowsHoverScan (pos : Position) (fields : List FieldNode) :
    List DataRowNode → Option Hover
  | [] => none
  | r :: rs =>
    match rowValuesHoverScan pos fields r.values 0 with
    | some h => some h
    | none => rowsHoverScan pos fields rs

/-- Model of `ASTHoverProvider.visitStructuredArray`: array name, then field
declarations, then data-row values. -/
def visitStructuredArrayHover (pos : Position) (d : StructuredArrayData) : Option Hover :=
  if isPositionInRange pos d.nameRange then
    some ⟨.structName d.name d.declaredSize (d.fields.map (·.name)), d.nameRange⟩
  else
    match fieldsHoverScan pos d.fields.length d.fields 0 with
    | some h => some h
    | none => rowsHoverScan pos d.fields d.dataRows

/-- The inner data-row value loop of
`ASTDefinitionProvider.visitStructuredArray` (same shape and the same
`if (field)` out-of-range guard as the hover scan). -/
def rowValuesDefScan (pos : Position) (uri : Str) (fields : List FieldNode) :
    List ValueNode → Nat → Option Location
  | [], _ => none
  | v :: vs, i =>
    if isPositionInRange pos v.range then
      match fields[i]? with
      | some f => some ⟨uri, f.range⟩
      | none => rowValuesDefScan pos uri fields vs (i + 1)
    else rowValuesDefScan pos uri fields vs (i + 1)

/-- The outer data-row loop of `ASTDefinitionProvider.visitStructuredArray`. -/
def rowsDefScan (pos : Position) (uri : Str) (fields : List FieldNode) :
    List DataRowNode → Option Location
  | [] => none
  | r :: rs =>
    match rowValuesDefScan pos uri fields r.values 0 with
    | some l => some l
    | none => rowsDefScan pos uri fields rs

/-- Model of `ASTDefinitionProvider.visitStructuredArray`. -/
def visitStructuredArrayDef (pos : Position) (uri : Str)
    (d : StructuredArrayData) : Option Location :=
  rowsDefScan pos uri d.fields d.dataRows

/-- State update contributed by one walked node to the definition provider's
`result` field: only `visitStructuredArray` can set it (and only on a hit);
every other implemented visitor method
(`visitDocument`/`visitKeyValuePair`/`visitSimpleArray`/`visitField`/
`visitDataRow`/`visitValue`) leaves it untouched. -/
def definitionStep (pos : Position) (uri : Str) (state : Option Location) :
    ASTNode → Option Location
  | .structuredArray d =>
    match visitStructuredArrayDef pos uri d with
    | some l => some l
    | none => state
  | _ => state

/-- The definition provider run through the walker over a document. -/
def runDefinition (pos : Position) (uri : Str) (doc : ASTNode) : Option Location :=
  (walkNodes doc).foldl (definitionStep pos uri) none


/-! ## Block well-formedness (P3) -/

mutual

/-- Every Block node contained in the subtree has at least one child and a
range whose end equals its last child's range end (spec P3); child
containment follows the data model (arrays and leaves contain no Block
nodes). -/
def blocksWF : ASTNode → Bool
  | .document cs _ => blocksWFList cs
  | .block _ _ _ cs r =>
    !cs.isEmpty &&
    (match cs.getLast? with
     | some lastChild => decide (r.stop = lastChild.range.stop)
     | none => false) &&
    blocksWFList cs
  | _ => true

/-- Block well-formedness of every node of a list. -/
def blocksWFList : List ASTNode → Bool
  | [] => true
  | n :: ns => blocksWF n && blocksWFList ns

end


/-! ## Round-trip apparatus (P6)

`Shape` erases ranges and positions from nodes, keeping the key/value/name
content and the structural nesting — exactly what the round-trip guarantee
preserves.  `onlyKVBlocks` is the claim's hypothesis (only
KeyValuePair/Block/Empty nodes, keys and values free of the structural
characters `:[]{}` and newline); `canonical` is an invariant of parse
output (trimmed strings, non-empty block children of key-value/block kind)
proved below.  `serNodeLinesOpt` is the line-list view of the serializer
(its chunks joined by the line ending), used to reason about re-parsing. -/

/-- Range-free skeleton of a node: content and nesting only. -/
inductive Shape where
  | kv (key value : Str)
  | blk (key : Str) (children : List Shape)
  | sarr (name : Str) (declaredSize : Nat) (values : List Str)
  | tarr (name : Str) (declaredSize : Nat) (fields : List Str) (rows : List (List Str))
  | leaf

mutual

/-- Shape of a node; `none` for Empty (which carries no content). -/
def shapeOf : ASTNode → Option Shape
  | .keyValuePair k _ v _ _ _ => some (.kv k v)
  | .block k _ _ cs _ => some (.blk k (shapeList cs))
  | .simpleArray d => some (.sarr d.name d.declaredSize (d.values.map (·.value)))
  | .structuredArray d =>
    some (.tarr d.name d.declaredSize (d.fields.map (·.name))
      (d.dataRows.map (fun r => r.values.map (·.value))))
  | .empty _ => none
  | .document _ _ => some .leaf
  | .field _ => some .leaf
  | .dataRow _ => some .leaf
  | .value _ => some .leaf

/-- Shapes of a node list, dropping Empty nodes. -/
def shapeList : List ASTNode → List Shape
  | [] => []
  | n :: ns =>
    match shapeOf n with
    | some s => s :: shapeList ns
    | none => shapeList ns

end

/-- Shape of a document's children. -/
def docShape : ASTNode → List Shape
  | .document cs _ => shapeList cs
  | _ => []

/-- Is the string free of the structural characters `:[]{}` and newline? -/
def cleanStr (s : Str) : Bool :=
  s.all fun c => !(c = ':' || c = '[' || c = ']' || c = '{' || c = '}' || c = '\n')

mutual

/-- The claim's hypothesis: the tree contains only KeyValuePair, Block and
Empty nodes, and every key and value is free of structural characters. -/
def onlyKVBlocks : ASTNode → Bool
  | .keyValuePair k _ v _ _ _ => cleanStr k && cleanStr v
  | .block k _ _ cs _ => cleanStr k && onlyKVBlocksList cs
  | .empty _ => true
  | _ => false

/-- `onlyKVBlocks` over a node list. -/
def onlyKVBlocksList : List ASTNode → Bool
  | [] => true
  | n :: ns => onlyKVBlocks n && onlyKVBlocksList ns

end

/-- The claim's hypothesis at the root: a Document whose tree contains only
KeyValuePair, Block and Empty nodes with structurally clean keys and values. -/
def docOnlyKVBlocks : ASTNode → Bool
  | .document cs _ => onlyKVBlocksList cs
  | _ => false

/-- Is the node a KeyValuePair or a Block? -/
def isKVOrBlock : ASTNode → Bool
  | .keyValuePair _ _ _ _ _ _ => true
  | .block _ _ _ _ _ => true
  | _ => false

mutual

/-- Canonicity invariant of parse output: keys and values are trimmed, and
every Block has a non-empty child list whose members are KeyValuePair or
Block nodes. -/
def canonical : ASTNode → Bool
  | .document cs _ => canonicalList cs
  | .keyValuePair k _ v _ _ _ => decide (jsTrim k = k) && decide (jsTrim v = v)
  | .block k _ _ cs _ =>
    decide (jsTrim k = k) && !cs.isEmpty && cs.all isKVOrBlock && canonicalList cs
  | _ => true

/-- Canonicity over a node list. -/
def canonicalList : List ASTNode → Bool
  | [] => true
  | n :: ns => canonical n && canonicalList ns

end

/-- Is the line blank (empty after trimming)? -/
def isBlankLine (l : Str) : Bool :=
  decide (jsTrim l = [])

/-- Stop condition for the block-children loop relative to an indentation
width `w`: the first non-blank line of the remaining input (if any) is
indented strictly less than `w`. -/
def stopCond (rest : List Str) (w : Nat) : Prop :=
  match rest.dropWhile isBlankLine with
  | [] => True
  | l :: _ => getIndentLevel l < w

/-- The single line the serializer emits for a KeyValuePair at a level. -/
def serKVLine (key value : Str) (lvl : Nat) : Str :=
  if value.length > 0 then indentOf lvl ++ key ++ ':' :: ' ' :: value
  else indentOf lvl ++ key ++ [':']

/-- The header line the serializer emits for a Block at a level. -/
def serHeaderLine (key : Str) (lvl : Nat) : Str :=
  indentOf lvl ++ key ++ [':']

mutual

/-- The serializer's output viewed as a list of source lines (`none` for the
node kinds the serializer switch does not handle). -/
def serNodeLinesOpt : ASTNode → Nat → Option (List Str)
  | .keyValuePair k _ v _ _ _, lvl => some [serKVLine k v lvl]
  | .block k _ _ cs _, lvl => some (serHeaderLine k lvl :: serLinesList cs (lvl + 1))
  | .simpleArray d, lvl =>
    some [indentOf lvl ++ d.name ++ '[' :: natToChars d.declaredSize ++
      ']' :: ':' :: ' ' :: joinWith ',' (d.values.map (·.value))]
  | .structuredArray d, lvl =>
    some ((indentOf lvl ++ d.name ++ '[' :: natToChars d.declaredSize ++
        ']' :: '{' :: joinWith ',' (d.fields.map (·.name)) ++ '}' :: [':']) ::
      d.dataRows.map (fun r =>
        indentOf lvl ++ ' ' :: ' ' :: joinWith ',' (r.values.map (·.value))))
  | .empty _, _ => some [[]]
  | .document _ _, _ => none
  | .field _, _ => none
  | .dataRow _, _ => none
  | .value _, _ => none

/-- Serialized lines of a node list at one level (nodes the serializer drops
contribute nothing). -/
def serLinesList : List ASTNode → Nat → List Str
  | [], _ => []
  | n :: ns, lvl =>
    (match serNodeLinesOpt n lvl with
     | some ls => ls
     | none => []) ++ serLinesList ns lvl

end

/-! ## Helper lemmas -/

theorem identStart_not_space {c : Char} (h : isIdentStart c = true) : jsIsSpace c = false := by
  by_contra hc
  rw [Bool.not_eq_false] at hc
  simp only [jsIsSpace, Bool.or_eq_true, decide_eq_true_eq] at hc
  rcases hc with ((((rfl | rfl) | rfl) | rfl) | rfl) | rfl <;> exact absurd h (by decide)

theorem findOccur_single_append {pre suf : Str} {c : Char} (h : ∀ x ∈ pre, x ≠ c) :
    findOccur (pre ++ c :: suf) [c] = some pre.length := by
  induction pre with
  | nil => simp [findOccur, List.isPrefixOf]
  | cons a t ih =>
    have ha : a ≠ c := h a (by simp)
    unfold findOccur
    rw [if_neg]
    · simp only [List.cons_append]
      rw [ih (fun x hx => h x (by simp [hx]))]
      simp
    · rw [List.isPrefixOf_iff_prefix]
      simp only [List.cons_append, List.cons_prefix_cons]
      rintro ⟨h1, -⟩
      exact ha h1.symm

theorem jsIndexOf_single_append {pre suf : Str} {c : Char} (h : ∀ x ∈ pre, x ≠ c) :
    jsIndexOf (pre ++ c :: suf) [c] = (pre.length : Int) := by
  unfold jsIndexOf jsIndexOfFrom
  simp only [Int.toNat_zero, Nat.zero_min, List.drop_zero, findOccur_single_append h,
    Nat.zero_add]

theorem jsReplace_head {pat suf rep : Str} :
    jsReplace (pat ++ suf) pat rep = rep ++ suf := by
  unfold jsReplace
  rw [if_pos (List.isPrefixOf_iff_prefix.mpr (List.prefix_append pat suf))]
  simp [List.drop_left]

theorem jsReplace_append_left {s₁ s₂ rep : Str} {p₀ : Char} {pr : Str}
    (h : ∀ x ∈ s₁, x ≠ p₀) :
    jsReplace (s₁ ++ s₂) (p₀ :: pr) rep = s₁ ++ jsReplace s₂ (p₀ :: pr) rep := by
  induction s₁ with
  | nil => simp
  | cons a t ih =>
    have ha : a ≠ p₀ := h a (by simp)
    conv_lhs => unfold jsReplace
    rw [if_neg]
    · simp only [List.cons_append]
      rw [ih (fun x hx => h x (by simp [hx]))]
    · rw [List.isPrefixOf_iff_prefix]
      simp only [List.cons_append, List.cons_prefix_cons]
      rintro ⟨h1, -⟩
      exact ha h1.symm

theorem natToCharsAux_mem {c : Char} :
    ∀ {fuel n : Nat} {acc : Str}, c ∈ natToCharsAux fuel n acc →
      c ∈ acc ∨ ∃ k, k < 10 ∧ c = digitCharOf k := by
  intro fuel
  induction fuel with
  | zero => intro n acc h; exact .inl h
  | succ f ih =>
    intro n acc h
    unfold natToCharsAux at h
    by_cases hn : n < 10
    · rw [if_pos hn] at h
      rcases List.mem_cons.mp h with rfl | h'
      · exact .inr ⟨n % 10, Nat.mod_lt _ (by omega), rfl⟩
      · exact .inl h'
    · rw [if_neg hn] at h
      rcases ih h with h' | h'
      · rcases List.mem_cons.mp h' with rfl | h''
        · exact .inr ⟨n % 10, Nat.mod_lt _ (by omega), rfl⟩
        · exact .inl h''
      · exact .inr h'

theorem natToChars_no_brace {n : Nat} : ∀ x ∈ natToChars n, x ≠ '{' := by
  intro x hx
  rcases natToCharsAux_mem hx with h | ⟨k, hk, rfl⟩
  · simp at h
  · interval_cases k <;> decide

theorem jsReplace_two_params {pre mid suf d a : Str} {pr1 pr2 : Str}
    (hpre : ∀ x ∈ pre, x ≠ '{') (hmid : ∀ x ∈ mid, x ≠ '{') (hd : ∀ x ∈ d, x ≠ '{') :
    jsReplace (jsReplace (pre ++ ('{' :: pr1) ++ mid ++ ('{' :: pr2) ++ suf) ('{' :: pr1) d)
        ('{' :: pr2) a =
      pre ++ d ++ mid ++ a ++ suf := by
  have h1 : jsReplace (pre ++ ('{' :: pr1) ++ mid ++ ('{' :: pr2) ++ suf) ('{' :: pr1) d =
      pre ++ (d ++ (mid ++ ('{' :: pr2) ++ suf)) := by
    rw [show pre ++ ('{' :: pr1) ++ mid ++ ('{' :: pr2) ++ suf =
        pre ++ (('{' :: pr1) ++ (mid ++ ('{' :: pr2) ++ suf)) by simp [List.append_assoc]]
    rw [jsReplace_append_left hpre, jsReplace_head]
  rw [h1]
  have hcomb : ∀ x ∈ pre ++ d ++ mid, x ≠ '{' := by
    intro x hx
    rcases List.mem_append.mp hx with hx' | hx'
    · rcases List.mem_append.mp hx' with hx'' | hx''
      · exact hpre x hx''
      · exact hd x hx''
    · exact hmid x hx'
  calc jsReplace (pre ++ (d ++ (mid ++ ('{' :: pr2) ++ suf))) ('{' :: pr2) a
      = jsReplace ((pre ++ d ++ mid) ++ (('{' :: pr2) ++ suf)) ('{' :: pr2) a := by
        simp [List.append_assoc]
    _ = (pre ++ d ++ mid) ++ jsReplace (('{' :: pr2) ++ suf) ('{' :: pr2) a := by
        rw [jsReplace_append_left hcomb]
    _ = pre ++ d ++ mid ++ a ++ suf := by rw [jsReplace_head]; simp [List.append_assoc]


theorem matchIdent_inv {s name : Str} (h : matchIdent s = some name) :
    ∃ c cs, s = c :: cs ∧ isIdentStart c = true ∧ name = c :: cs.takeWhile isIdentChar := by
  cases s with
  | nil => simp [matchIdent] at h
  | cons c cs =>
    simp only [matchIdent] at h
    by_cases hc : isIdentStart c = true
    · rw [if_pos hc] at h
      exact ⟨c, cs, rfl, hc, (Option.some_inj.mp h).symm⟩
    · rw [if_neg hc] at h
      simp at h

theorem matchSimpleHeader_inv {line : Str} {m : SimpleHeaderMatch}
    (h : matchSimpleHeader line = some m) :
    ∃ r : Str,
      line = m.indent ++ (m.name ++ '[' :: (m.sizeStr ++ ']' :: ':' :: r)) ∧
      (∀ c ∈ m.indent, jsIsSpace c = true) ∧
      (∃ c₀ cs, m.name = c₀ :: cs ∧ isIdentStart c₀ = true ∧
        (∀ c ∈ cs, isIdentChar c = true)) ∧
      m.sizeStr ≠ [] ∧ (∀ c ∈ m.sizeStr, c.isDigit = true) ∧
      m.valuesStr = r.dropWhile jsIsSpace := by
  simp only [matchSimpleHeader] at h
  split at h
  · simp at h
  · rename_i name hmi
    split at h
    · rename_i r3 hdrop
      split at h
      · simp at h
      · rename_i hsizeStr
        split at h
        · rename_i r5 hdrop2
          obtain rfl := (Option.some_inj.mp h).symm
          simp only
          obtain ⟨c, cs, hcs, hstart, hnameEq⟩ := matchIdent_inv hmi
          refine ⟨r5, ?_, ?_, ?_, hsizeStr, ?_, rfl⟩
          · obtain ⟨t1, ht1⟩ := List.takeWhile_prefix (p := jsIsSpace) (l := line)
            have hdropline : line.drop (line.takeWhile jsIsSpace).length = t1 := by
              nth_rewrite 2 [← ht1]
              exact List.drop_left _ _
            rw [hdropline] at hcs hdrop
            obtain ⟨t2, ht2⟩ := List.takeWhile_prefix (p := isIdentChar) (l := cs)
            have hdropcs : cs.drop (cs.takeWhile isIdentChar).length = t2 := by
              nth_rewrite 2 [← ht2]
              exact List.drop_left _ _
            have ht2' : t2 = '[' :: r3 := by
              rw [hcs, hnameEq] at hdrop
              simp only [List.length_cons, List.drop_succ_cons] at hdrop
              rw [hdropcs] at hdrop
              exact hdrop
            obtain ⟨t3, ht3⟩ := List.takeWhile_prefix (p := Char.isDigit) (l := r3)
            have hdropr3 : r3.drop (r3.takeWhile Char.isDigit).length = t3 := by
              nth_rewrite 2 [← ht3]
              exact List.drop_left _ _
            have ht3' : t3 = ']' :: ':' :: r5 := by rw [← hdropr3]; exact hdrop2
            nth_rewrite 1 [← ht1]
            congr 1
            rw [hcs, hnameEq]
            simp only [List.cons_append, List.cons.injEq, true_and]
            nth_rewrite 1 [← ht2]
            rw [ht2']
            nth_rewrite 1 [← ht3]
            rw [ht3']
          · intro x hx
            exact List.mem_takeWhile_imp hx
          · exact ⟨c, cs.takeWhile isIdentChar, hnameEq, hstart,
              fun x hx => List.mem_takeWhile_imp hx⟩
          · intro x hx
            exact List.mem_takeWhile_imp hx
        · simp at h
    · simp at h
theorem jsTrim_eq_nil_all {l : Str} (h : jsTrim l = []) : ∀ x ∈ l, jsIsSpace x = true := by
  unfold jsTrim at h
  rw [List.reverse_eq_nil_iff, List.dropWhile_eq_nil_iff] at h
  have h2 : ∀ x ∈ l.dropWhile jsIsSpace, jsIsSpace x = true := by
    intro x hx
    exact h x (List.mem_reverse.mpr hx)
  intro x hx
  rw [← List.takeWhile_append_dropWhile (p := jsIsSpace) (l := l)] at hx
  rcases List.mem_append.mp hx with hx' | hx'
  · exact List.mem_takeWhile_imp hx'
  · exact h2 x hx'

theorem jsTrim_ne_nil_of_mem {l : Str} {x : Char} (hx : x ∈ l) (hns : jsIsSpace x = false) :
    jsTrim l ≠ [] := by
  intro hnil
  rw [jsTrim_eq_nil_all hnil x hx] at hns
  simp at hns

theorem identStart_identChar {c : Char} (h : isIdentStart c = true) : isIdentChar c = true := by
  simp only [isIdentStart, Bool.or_eq_true] at h
  simp only [isIdentChar, Bool.or_eq_true]
  tauto

theorem takeWhile_append_all {P : Char → Bool} {l₁ l₂ : Str} (h : ∀ x ∈ l₁, P x = true) :
    List.takeWhile P (l₁ ++ l₂) = l₁ ++ List.takeWhile P l₂ := by
  induction l₁ with
  | nil => simp
  | cons a t ih =>
    have ha : P a = true := h a (by simp)
    rw [List.cons_append, List.takeWhile_cons_of_pos ha,
      ih (fun x hx => h x (by simp [hx])), List.cons_append]

theorem takeWhile_cons_false {P : Char → Bool} {c : Char} {l : Str} (h : P c = false) :
    List.takeWhile P (c :: l) = [] :=
  List.takeWhile_cons_of_neg (by simp [h])

theorem matchSimpleHeader_trim_ne_nil {line : Str} {m : SimpleHeaderMatch}
    (h : matchSimpleHeader line = some m) : jsTrim line ≠ [] := by
  obtain ⟨r, hline, hws, ⟨c₀, cs, hname, hstart, hcs⟩, hsz, hdig, hv⟩ := matchSimpleHeader_inv h
  have hmem : c₀ ∈ line := by
    rw [hline, hname]
    simp
  exact jsTrim_ne_nil_of_mem hmem (identStart_not_space hstart)

theorem matchSimpleHeader_indexes {line : Str} {m : SimpleHeaderMatch}
    (h : matchSimpleHeader line = some m) :
    jsIndexOf line ['['] = ((m.indent.length + m.name.length : Nat) : Int) ∧
    jsIndexOf line [':'] =
      ((m.indent.length + m.name.length + m.sizeStr.length + 2 : Nat) : Int) := by
  obtain ⟨r, hline, hws, ⟨c₀, cs, hname, hstart, hcs⟩, hsz, hdig, hv⟩ := matchSimpleHeader_inv h
  have hnamec : ∀ x ∈ m.name, isIdentChar x = true := by
    intro x hx
    rw [hname] at hx
    rcases List.mem_cons.mp hx with rfl | hx'
    · exact identStart_identChar hstart
    · exact hcs x hx'
  constructor
  · have hline' : line = (m.indent ++ m.name) ++ '[' :: (m.sizeStr ++ ']' :: ':' :: r) := by
      rw [hline]
      simp [List.append_assoc]
    have hpre : ∀ x ∈ m.indent ++ m.name, x ≠ '[' := by
      intro x hx
      rcases List.mem_append.mp hx with hx' | hx'
      · have := hws x hx'
        rintro rfl
        exact absurd this (by decide)
      · have := hnamec x hx'
        rintro rfl
        exact absurd this (by decide)
    rw [hline', jsIndexOf_single_append hpre]
    simp
  · have hline' : line = ((m.indent ++ m.name) ++ ('[' :: (m.sizeStr ++ [']']))) ++ ':' :: r := by
      rw [hline]
      simp [List.append_assoc]
    have hpre : ∀ x ∈ (m.indent ++ m.name) ++ ('[' :: (m.sizeStr ++ [']'])), x ≠ ':' := by
      intro x hx
      rcases List.mem_append.mp hx with hx' | hx'
      · rcases List.mem_append.mp hx' with hx'' | hx''
        · have := hws x hx''
          rintro rfl
          exact absurd this (by decide)
        · have := hnamec x hx''
          rintro rfl
          exact absurd this (by decide)
      · rcases List.mem_cons.mp hx' with rfl | hx''
        · decide
        · rcases List.mem_append.mp hx'' with h3 | h3
          · have := hdig x h3
            rintro rfl
            exact absurd this (by decide)
          · rcases List.mem_singleton.mp h3 with rfl
            decide
    rw [hline', jsIndexOf_single_append hpre]
    have : ((m.indent ++ m.name) ++ ('[' :: (m.sizeStr ++ [']']))).length =
        m.indent.length + m.name.length + m.sizeStr.length + 2 := by
      simp [List.length_append]
      omega
    rw [this]

theorem matchSimpleHeader_structured_none {line : Str} {m : SimpleHeaderMatch}
    (h : matchSimpleHeader line = some m) : matchStructuredHeader line = none := by
  obtain ⟨r, hline, hws, ⟨c₀, cs, hname, hstart, hcs⟩, hsz, hdig, hv⟩ := matchSimpleHeader_inv h
  have htw : line.takeWhile jsIsSpace = m.indent := by
    rw [hline, takeWhile_append_all hws, hname, List.cons_append,
      takeWhile_cons_false (identStart_not_space hstart)]
    simp
  have hdrop : line.drop (line.takeWhile jsIsSpace).length = m.name ++ '[' ::
      (m.sizeStr ++ ']' :: ':' :: r) := by
    rw [htw, hline]
    exact List.drop_left _ _
  have hident : matchIdent (m.name ++ '[' :: (m.sizeStr ++ ']' :: ':' :: r)) = some m.name := by
    rw [hname]
    simp only [List.cons_append, matchIdent, if_pos hstart]
    rw [takeWhile_append_all hcs, takeWhile_cons_false (by decide)]
    simp
  simp only [matchStructuredHeader]
  rw [hdrop, hident]
  simp only
  have hdropname : (m.name ++ '[' :: (m.sizeStr ++ ']' :: ':' :: r)).drop m.name.length =
      '[' :: (m.sizeStr ++ ']' :: ':' :: r) := List.drop_left _ _
  rw [hdropname]
  have htwd : List.takeWhile Char.isDigit (m.sizeStr ++ ']' :: ':' :: r) = m.sizeStr := by
    rw [takeWhile_append_all hdig, takeWhile_cons_false (by decide)]
    simp
  split
  · rename_i r3 heq
    injection heq with h1 h2
    subst h2
    rw [htwd]
    rw [if_neg (by simpa using hsz)]
    have hdropsz : (m.sizeStr ++ ']' :: ':' :: r).drop m.sizeStr.length = ']' :: ':' :: r :=
      List.drop_left _ _
    rw [hdropsz]
    split
    · rename_i r4 heq2
      injection heq2 with h3 h4
      injection h4 with h5 h6
      exact absurd h5 (by decide)
    · rfl
  · rfl

theorem matchSimpleHeader_kvp_none {line : Str} {m : SimpleHeaderMatch}
    (h : matchSimpleHeader line = some m) (n : Nat) :
    tryParseKeyValuePair line n = none := by
  obtain ⟨hbr, hco⟩ := matchSimpleHeader_indexes h
  simp only [tryParseKeyValuePair]
  rw [hco, hbr]
  rw [if_neg (by omega)]
  rw [if_pos]
  simp only [Bool.and_eq_true, decide_eq_true_eq]
  constructor
  · omega
  · push_cast
    omega

theorem matchSimpleHeader_nested_none {line : Str} {m : SimpleHeaderMatch}
    (h : matchSimpleHeader line = some m) (fuel n : Nat) (allLines : List Str) (lvl : Nat) :
    tryParseNestedBlockStructureF fuel line n allLines lvl = none := by
  obtain ⟨hbr, hco⟩ := matchSimpleHeader_indexes h
  cases fuel with
  | zero => rfl
  | succ f =>
    simp only [tryParseNestedBlockStructureF]
    rw [hco, hbr]
    rw [if_neg (by omega)]
    rw [if_pos]
    simp only [Bool.and_eq_true, decide_eq_true_eq]
    constructor
    · omega
    · push_cast
      omega

theorem matchSimpleHeader_blockChild_empty {line : Str} {m : SimpleHeaderMatch}
    (h : matchSimpleHeader line = some m) (fuel n : Nat) (allLines : List Str) (lvl : Nat) :
    parseBlockChildF fuel line n allLines lvl = (some (createEmptyNode n line.length), 1) := by
  cases fuel with
  | zero => rfl
  | succ f =>
    simp only [parseBlockChildF]
    rw [if_neg (matchSimpleHeader_trim_ne_nil h)]
    rw [matchSimpleHeader_nested_none h f n allLines lvl]
    rw [matchSimpleHeader_kvp_none h n]

theorem contains_eq_false_of_not_mem {l : Str} {a : Char} (h : a ∉ l) :
    l.contains a = false := by
  rw [← Bool.not_eq_true, List.contains_iff_exists_mem_beq]
  rintro ⟨x, hx, hbeq⟩
  rw [beq_iff_eq] at hbeq
  exact h (hbeq ▸ hx)

theorem matchSimpleHeader_no_left_brace {line : Str} {m : SimpleHeaderMatch}
    (h : matchSimpleHeader line = some m) (hempty : jsTrim m.valuesStr = []) :
    jsIncludes line '{' = false := by
  obtain ⟨r, hline, hws, ⟨c₀, cs, hname, hstart, hcs⟩, hsz, hdig, hv⟩ := matchSimpleHeader_inv h
  have hrws : ∀ x ∈ r, jsIsSpace x = true := by
    intro x hx
    rw [← List.takeWhile_append_dropWhile (p := jsIsSpace) (l := r)] at hx
    rcases List.mem_append.mp hx with hx' | hx'
    · exact List.mem_takeWhile_imp hx'
    · exact jsTrim_eq_nil_all (hv ▸ hempty) x hx'
  apply contains_eq_false_of_not_mem
  rw [hline]
  intro hmem
  simp only [List.mem_append, List.mem_cons] at hmem
  rcases hmem with hx | hx | heq | hx | heq | heq | hx
  · exact absurd (hws _ hx) (by decide)
  · rw [hname] at hx
    rcases List.mem_cons.mp hx with heq | hx
    · rw [← heq] at hstart
      exact absurd hstart (by decide)
    · exact absurd (hcs _ hx) (by decide)
  · exact absurd heq (by decide)
  · exact absurd (hdig _ hx) (by decide)
  · exact absurd heq (by decide)
  · exact absurd heq (by decide)
  · exact absurd (hrws _ hx) (by decide)

theorem matchSimpleHeader_parseLine {line : Str} {m : SimpleHeaderMatch}
    (h : matchSimpleHeader line = some m) (hempty : jsTrim m.valuesStr = [])
    (fuel n : Nat) (allLines : List Str) :
    parseLineF fuel line n allLines = (some (.simpleArray
      ⟨m.name,
       createRange n m.indent.length n (m.indent.length + m.name.length),
       parseIntDec m.sizeStr,
       createRange n (m.indent.length + m.name.length + 1) n
         (m.indent.length + m.name.length + 1 + m.sizeStr.length),
       [],
       createRange n 0 n line.length⟩), 1) := by
  have hstruct : tryParseStructuredArray line n allLines = none := by
    simp only [tryParseStructuredArray]
    rw [matchSimpleHeader_structured_none h]
  have hsimple : tryParseSimpleArray line n = some (.simpleArray
      ⟨m.name,
       createRange n m.indent.length n (m.indent.length + m.name.length),
       parseIntDec m.sizeStr,
       createRange n (m.indent.length + m.name.length + 1) n
         (m.indent.length + m.name.length + 1 + m.sizeStr.length),
       [],
       createRange n 0 n line.length⟩, 1) := by
    simp only [tryParseSimpleArray, h]
    rw [if_neg (by rw [matchSimpleHeader_no_left_brace h hempty]; simp)]
    rw [if_neg (by rw [hempty]; simp)]
    push_cast
    ring_nf
  simp only [parseLineF, hstruct, hsimple, if_neg (matchSimpleHeader_trim_ne_nil h)]


/-! ## Lemmas about diagnostic messages -/

theorem flatMap_ite_singleton {α β : Type} (l : List α) (P : α → Prop) [DecidablePred P]
    (g : α → β) :
    (l.flatMap fun a => if P a then [g a] else []) =
      (l.filter fun a => decide (P a)).map g := by
  induction l with
  | nil => rfl
  | cons a t ih =>
    by_cases h : P a <;> simp [h, ih]

theorem declaredActualMessage_decomp {t pre mid suf : Str}
    (ht : t = pre ++ "\x7bdeclared\x7d".toList ++ mid ++ "\x7bactual\x7d".toList ++ suf)
    (hpre : ∀ x ∈ pre, x ≠ '{') (hmid : ∀ x ∈ mid, x ≠ '{') (d a : Nat) :
    declaredActualMessage t d a =
      pre ++ natToChars d ++ mid ++ natToChars a ++ suf := by
  unfold declaredActualMessage
  rw [ht]
  rw [show ("\x7bdeclared\x7d".toList : Str) = '{' :: "declared\x7d".toList from rfl]
  rw [show ("\x7bactual\x7d".toList : Str) = '{' :: "actual\x7d".toList from rfl]
  exact jsReplace_two_params hpre hmid natToChars_no_brace

theorem expectedActualMessage_decomp {t pre mid suf : Str}
    (ht : t = pre ++ "\x7bexpected\x7d".toList ++ mid ++ "\x7bactual\x7d".toList ++ suf)
    (hpre : ∀ x ∈ pre, x ≠ '{') (hmid : ∀ x ∈ mid, x ≠ '{') (e a : Nat) :
    expectedActualMessage t e a =
      pre ++ natToChars e ++ mid ++ natToChars a ++ suf := by
  unfold expectedActualMessage
  rw [ht]
  rw [show ("\x7bexpected\x7d".toList : Str) = '{' :: "expected\x7d".toList from rfl]
  rw [show ("\x7bactual\x7d".toList : Str) = '{' :: "actual\x7d".toList from rfl]
  exact jsReplace_two_params hpre hmid natToChars_no_brace

theorem arrayRowsMismatch_msg (d a : Nat) :
    declaredActualMessage DiagnosticMessages.ARRAY_ROWS_MISMATCH d a =
      "配列の行数が宣言と一致しません（宣言: ".toList ++ natToChars d ++
        ", 実際: ".toList ++ natToChars a ++ "）".toList :=
  declaredActualMessage_decomp (by decide) (by decide) (by decide) d a

theorem arraySizeInsufficient_msg (d a : Nat) :
    declaredActualMessage DiagnosticMessages.ARRAY_SIZE_INSUFFICIENT d a =
      "配列の要素数が不足しています（宣言: ".toList ++ natToChars d ++
        ", 実際: ".toList ++ natToChars a ++ "）".toList :=
  declaredActualMessage_decomp (by decide) (by decide) (by decide) d a

theorem arraySizeExceeded_msg (d a : Nat) :
    declaredActualMessage DiagnosticMessages.ARRAY_SIZE_EXCEEDED d a =
      "配列の要素数が超過しています（宣言: ".toList ++ natToChars d ++
        ", 実際: ".toList ++ natToChars a ++ "）".toList :=
  declaredActualMessage_decomp (by decide) (by decide) (by decide) d a

theorem fieldCountInsufficient_msg (e a : Nat) :
    expectedActualMessage DiagnosticMessages.FIELD_COUNT_INSUFFICIENT e a =
      "フィールド数が不足しています（期待: ".toList ++ natToChars e ++
        ", 実際: ".toList ++ natToChars a ++ "）".toList :=
  expectedActualMessage_decomp (by decide) (by decide) (by decide) e a

theorem fieldCountExceeded_msg (e a : Nat) :
    expectedActualMessage DiagnosticMessages.FIELD_COUNT_EXCEEDED e a =
      "フィールド数が超過しています（期待: ".toList ++ natToChars e ++
        ", 実際: ".toList ++ natToChars a ++ "）".toList :=
  expectedActualMessage_decomp (by decide) (by decide) (by decide) e a

/-! ## Claim theorems -/

/-- C1: the claim states that `walk` performs a depth-first pre-order
traversal visiting every node exactly once, in particular the children of
every Block node.  The code violates this: the `walkNode` switch has no
`block` case, so block children are never visited.  On the failing input
`"k:\n  a: 1"` the tree has 3 nodes (document, block, key-value pair), but
the walker's callback trace stops at the block: the key-value child is
never reached. -/
theorem C1_walker_block_children_not_visited :
    walkNodeTrace (parse "k:\n  a: 1".toList) 0 =
      [(NodeType.document, 0), (NodeType.block, 1)] ∧
    treeNodeCount (parse "k:\n  a: 1".toList) = 3 :=
  ⟨rfl, rfl⟩

/-- C2 counterexample: the claim states that a Block child line matching the
simple-array header form `name[digits]: v1,v2` produces a SimpleArray child
of the Block.  At the concrete input `"k:\n  arr[2]: a,b\n  x: 1"` the
second line matches the simple-array form, yet the parsed Block contains
only the key-value pair `x: 1` — no SimpleArray node at all. -/
theorem C2_counterexample :
    matchSimpleHeader "  arr[2]: a,b".toList =
      some ⟨"  ".toList, "arr".toList, "2".toList, "a,b".toList⟩ ∧
    parse "k:\n  arr[2]: a,b\n  x: 1".toList =
      .document
        [.block "k".toList (createRange 0 0 0 1) 1
          [.keyValuePair "x".toList (createRange 2 2 2 3) "1".toList (createRange 2 5 2 6) 3
            (createRange 2 0 2 6)]
          (createRange 0 0 2 6)]
        (createRange 0 0 2 6) :=
  ⟨rfl, rfl⟩

/-- C2 (amended): when parsing the children of a Block, each child line is
classified by re-applying only the nested-block and key-value rules (the
simple-array rule is not re-applied); a child line matching the simple-array
header form `name[digits]: v1,v2` fails both (its bracket precedes its
colon), degrades to an Empty node consuming one line, and Empty nodes are
omitted from the Block's children — so no SimpleArray child is produced for
such a line. -/
theorem C2_block_child_simple_array_line_yields_no_child {line : Str}
    {m : SimpleHeaderMatch} (h : matchSimpleHeader line = some m)
    (fuel n : Nat) (allLines : List Str) (lvl : Nat) :
    parseBlockChildF fuel line n allLines lvl =
      (some (createEmptyNode n line.length), 1) :=
  matchSimpleHeader_blockChild_empty h fuel n allLines lvl

/-- C2 witness: the amended theorem applied at the concrete block child line
`"  arr[2]: a,b"`. -/
theorem C2_witness :
    matchSimpleHeader "  arr[2]: a,b".toList =
      some ⟨"  ".toList, "arr".toList, "2".toList, "a,b".toList⟩ ∧
    parseBlockChildF 5 "  arr[2]: a,b".toList 1
        ["k:".toList, "  arr[2]: a,b".toList, "  x: 1".toList] 2 =
      (some (createEmptyNode 1 13), 1) :=
  ⟨by decide,
    C2_block_child_simple_array_line_yields_no_child
      (m := ⟨"  ".toList, "arr".toList, "2".toList, "a,b".toList⟩) (by decide) 5 1
      ["k:".toList, "  arr[2]: a,b".toList, "  x: 1".toList] 2⟩

/-- C4: for every StructuredArray node visited by the diagnostic validator,
the emitted diagnostics are: exactly one error anchored at the
size-declaration range embedding the declared and actual numbers when
`dataRows.length ≠ declaredSize` (none otherwise), followed by exactly one
error per data row whose value count differs from the field count —
insufficient when below, exceeded when above, embedding expected and actual
numbers — anchored at that row's own range, so multiple offending rows yield
multiple independent diagnostics and matching counts yield none. -/
theorem C4_structured_array_diagnostics (d : StructuredArrayData) :
    visitStructuredArrayDiags d =
      (if d.dataRows.length = d.declaredSize then []
       else [⟨.error, d.sizeRange,
        "配列の行数が宣言と一致しません（宣言: ".toList ++ natToChars d.declaredSize ++
          ", 実際: ".toList ++ natToChars d.dataRows.length ++ "）".toList, "toon".toList⟩]) ++
      (d.dataRows.filter fun row => decide (row.values.length ≠ d.fields.length)).map
        (fun row => ⟨.error, row.range,
          (if row.values.length < d.fields.length then
            "フィールド数が不足しています（期待: ".toList ++ natToChars d.fields.length ++
              ", 実際: ".toList ++ natToChars row.values.length ++ "）".toList
           else
            "フィールド数が超過しています（期待: ".toList ++ natToChars d.fields.length ++
              ", 実際: ".toList ++ natToChars row.values.length ++ "）".toList),
          "toon".toList⟩) := by
  unfold visitStructuredArrayDiags
  congr 1
  · by_cases h : d.dataRows.length = d.declaredSize
    · rw [if_neg (by omega), if_pos h]
    · rw [if_pos h, if_neg h, arrayRowsMismatch_msg]
  · rw [show (fun row => validateDataRowDiags row d) = fun row =>
        if row.values.length ≠ d.fields.length then
          [(⟨.error, row.range,
            (if row.values.length < d.fields.length then
              "フィールド数が不足しています（期待: ".toList ++ natToChars d.fields.length ++
                ", 実際: ".toList ++ natToChars row.values.length ++ "）".toList
             else
              "フィールド数が超過しています（期待: ".toList ++ natToChars d.fields.length ++
                ", 実際: ".toList ++ natToChars row.values.length ++ "）".toList),
            "toon".toList⟩ : Diagnostic)]
        else [] from ?_]
    · exact flatMap_ite_singleton _ _ _
    · funext row
      unfold validateDataRowDiags
      by_cases h : row.values.length = d.fields.length
      · rw [if_neg (by omega), if_neg (by omega)]
      · rw [if_pos h, if_pos h]
        by_cases hlt : row.values.length < d.fields.length
        · rw [if_pos hlt, if_pos hlt, fieldCountInsufficient_msg]
        · rw [if_neg hlt, if_neg hlt, fieldCountExceeded_msg]

/-- C5: for every SimpleArray node visited by the diagnostic validator: no
diagnostic is emitted iff `values.length = declaredSize`; otherwise exactly
one error is emitted whose message is the insufficient variant when the
actual count is below the declared size and the exceeded variant when above,
embedding both numbers.  The three literal cases of spec property P4 are
included: `friends[3]: ana,luis,sam` yields no diagnostics, `friends[2]: …`
one exceeded error mentioning 2 and 3, `friends[4]: …` one insufficient
error mentioning 4 and 3. -/
theorem C5_simple_array_size_diagnostics :
    (∀ d : SimpleArrayData,
      (visitSimpleArrayDiags d = [] ↔ d.values.length = d.declaredSize) ∧
      visitSimpleArrayDiags d =
        (if d.values.length = d.declaredSize then []
         else [⟨.error, d.range,
          (if d.values.length < d.declaredSize then
            "配列の要素数が不足しています（宣言: ".toList ++ natToChars d.declaredSize ++
              ", 実際: ".toList ++ natToChars d.values.length ++ "）".toList
           else
            "配列の要素数が超過しています（宣言: ".toList ++ natToChars d.declaredSize ++
              ", 実際: ".toList ++ natToChars d.values.length ++ "）".toList),
          "toon".toList⟩])) ∧
    runValidator (parse "friends[3]: ana,luis,sam".toList) = [] ∧
    (runValidator (parse "friends[2]: ana,luis,sam".toList)).map (fun dg => dg.message) =
      ["配列の要素数が超過しています（宣言: 2, 実際: 3）".toList] ∧
    (runValidator (parse "friends[4]: ana,luis,sam".toList)).map (fun dg => dg.message) =
      ["配列の要素数が不足しています（宣言: 4, 実際: 3）".toList] := by
  refine ⟨?_, rfl, rfl, rfl⟩
  intro d
  constructor
  · unfold visitSimpleArrayDiags
    by_cases h : d.values.length = d.declaredSize
    · simp [h]
    · simp only [if_pos h, ne_eq, h, not_false_eq_true, if_true]
      constructor
      · intro hcontra
        simp at hcontra
      · intro hcontra
        exact hcontra.elim
  · unfold visitSimpleArrayDiags
    by_cases h : d.values.length = d.declaredSize
    · simp [h]
    · rw [if_neg h, if_pos h]
      by_cases hlt : d.values.length < d.declaredSize
      · rw [if_pos hlt, if_pos hlt, arraySizeInsufficient_msg]
      · rw [if_neg hlt, if_neg hlt, arraySizeExceeded_msg]

/-- C7: for every KeyValuePair node visited by the diagnostic validator, a
missing-key error anchored at the key range is emitted iff the trimmed key
is empty and a missing-value error anchored at the value range iff the
trimmed value is empty, and the number of diagnostics is the sum of the two
conditions (both can fire, giving two).  Concretely, `": v"` parses to a
KeyValuePair with empty key and yields exactly one missing-key diagnostic,
and `"k:"` with no indented follower parses to a KeyValuePair (not a Block)
and yields exactly one missing-value diagnostic. -/
theorem C7_key_value_diagnostics :
    (∀ (k v : Str) (kr vr : Range),
      (visitKeyValuePairDiags k kr v vr).length =
        (if jsTrim k = [] then 1 else 0) + (if jsTrim v = [] then 1 else 0) ∧
      ((⟨.error, kr, DiagnosticMessages.MISSING_KEY, "toon".toList⟩ : Diagnostic) ∈
          visitKeyValuePairDiags k kr v vr ↔ jsTrim k = []) ∧
      ((⟨.error, vr, DiagnosticMessages.MISSING_VALUE, "toon".toList⟩ : Diagnostic) ∈
          visitKeyValuePairDiags k kr v vr ↔ jsTrim v = [])) ∧
    parse ": v".toList =
      .document [.keyValuePair [] (createRange 0 0 0 0) "v".toList (createRange 0 2 0 3) 0
        (createRange 0 0 0 3)] (createRange 0 0 0 3) ∧
    runValidator (parse ": v".toList) =
      [⟨.error, createRange 0 0 0 0, DiagnosticMessages.MISSING_KEY, "toon".toList⟩] ∧
    parse "k:".toList =
      .document [.keyValuePair "k".toList (createRange 0 0 0 1) [] (createRange 0 2 0 2) 1
        (createRange 0 0 0 2)] (createRange 0 0 0 2) ∧
    runValidator (parse "k:".toList) =
      [⟨.error, createRange 0 2 0 2, DiagnosticMessages.MISSING_VALUE, "toon".toList⟩] := by
  refine ⟨?_, rfl, rfl, rfl, rfl⟩
  intro k v kr vr
  unfold visitKeyValuePairDiags
  by_cases hk : jsTrim k = [] <;> by_cases hv : jsTrim v = [] <;>
    simp [hk, hv, List.length_eq_zero, Diagnostic.mk.injEq] <;>
    exact fun _ => by decide

/-- C9: `isPositionInRange p r` returns true iff `p` is not before `r.start`
(strictly later line, or same line with character at or past the start) and
strictly before `r.end` on the terminating line — the containment test is
half-open on the end bound. -/
theorem C9_isPositionInRange_halfopen (p : Position) (r : Range) :
    isPositionInRange p r = true ↔
      ((r.start.line < p.line ∨ (p.line = r.start.line ∧ r.start.character ≤ p.character)) ∧
       (p.line < r.stop.line ∨ (p.line = r.stop.line ∧ p.character < r.stop.character))) := by
  simp only [isPositionInRange]
  split_ifs with h1 h2 h3 h4 <;>
    simp only [Bool.and_eq_true, decide_eq_true_eq, ge_iff_le, Bool.false_eq_true, false_iff,
      true_iff, not_and, not_lt, not_le, not_or] at * <;> omega

/-- C10: every line matching the simple-array header pattern whose remainder
after the colon is empty or whitespace-only is classified by `parseLine` as
a SimpleArray node with an empty values sequence (not a single empty-string
value), and when its declared size is 0 the validator emits no size
diagnostic for it. -/
theorem C10_empty_simple_array_values {line : Str} {m : SimpleHeaderMatch}
    (h : matchSimpleHeader line = some m) (hempty : jsTrim m.valuesStr = [])
    (fuel n : Nat) (allLines : List Str) :
    parseLineF fuel line n allLines = (some (.simpleArray
      ⟨m.name, createRange n m.indent.length n (m.indent.length + m.name.length),
       parseIntDec m.sizeStr,
       createRange n (m.indent.length + m.name.length + 1) n
         (m.indent.length + m.name.length + 1 + m.sizeStr.length),
       [], createRange n 0 n line.length⟩), 1) ∧
    (parseIntDec m.sizeStr = 0 → visitSimpleArrayDiags
      ⟨m.name, createRange n m.indent.length n (m.indent.length + m.name.length),
       parseIntDec m.sizeStr,
       createRange n (m.indent.length + m.name.length + 1) n
         (m.indent.length + m.name.length + 1 + m.sizeStr.length),
       [], createRange n 0 n line.length⟩ = []) := by
  refine ⟨matchSimpleHeader_parseLine h hempty fuel n allLines, ?_⟩
  intro h0
  unfold visitSimpleArrayDiags
  simp [h0]

/-- C10 witness: the theorem applied at the concrete line `"arr[0]:"`. -/
theorem C10_witness :
    parseLineF 5 "arr[0]:".toList 0 ["arr[0]:".toList] = (some (.simpleArray
      ⟨"arr".toList, createRange 0 0 0 3, 0, createRange 0 4 0 5, [],
        createRange 0 0 0 7⟩), 1) ∧
    visitSimpleArrayDiags
      ⟨"arr".toList, createRange 0 0 0 3, 0, createRange 0 4 0 5, [],
        createRange 0 0 0 7⟩ = [] := by
  have h := @C10_empty_simple_array_values ("arr[0]:".toList)
    ⟨[], "arr".toList, "0".toList, []⟩ (by decide) (by decide) 5 0 ["arr[0]:".toList]
  exact ⟨h.1, h.2 rfl⟩

theorem rowValuesHoverScan_none {pos : Position} {fields : List FieldNode} {vs : List ValueNode}
    (h : ∀ v ∈ vs, isPositionInRange pos v.range = false) :
    ∀ i₀, rowValuesHoverScan pos fields vs i₀ = none := by
  induction vs with
  | nil => intro i₀; rfl
  | cons v₀ vs' ih =>
    intro i₀
    unfold rowValuesHoverScan
    rw [if_neg (by simp [h v₀ (by simp)])]
    exact ih (fun v hv => h v (by simp [hv])) (i₀ + 1)

theorem rowValuesHoverScan_hit {pos : Position} {fields : List FieldNode}
    {vs : List ValueNode} {j : Nat} {v : ValueNode}
    (hv : vs[j]? = some v) (hhit : isPositionInRange pos v.range = true)
    (huniq : ∀ j' v', vs[j']? = some v' → isPositionInRange pos v'.range = true → j' = j) :
    ∀ i₀, rowValuesHoverScan pos fields vs i₀ =
      match fields[i₀ + j]? with
      | some f => some ⟨.dataValue f.name v.value, v.range⟩
      | none => none := by
  induction vs generalizing j with
  | nil => simp at hv
  | cons v₀ vs' ih =>
    intro i₀
    cases j with
    | zero =>
      simp only [List.getElem?_cons_zero, Option.some_inj] at hv
      subst hv
      unfold rowValuesHoverScan
      rw [if_pos hhit]
      cases hf : fields[i₀ + 0]? with
      | some f => simp [Nat.add_zero] at hf ⊢; rw [hf]
      | none =>
        simp only [Nat.add_zero] at hf
        rw [hf]
        exact rowValuesHoverScan_none
          (fun v' hv' => by
            by_contra hcontra
            rw [Bool.not_eq_false] at hcontra
            obtain ⟨j', hj'⟩ := List.getElem?_of_mem hv'
            have := huniq (j' + 1) v' (by simpa using hj') hcontra
            omega) (i₀ + 1)
    | succ j' =>
      simp only [List.getElem?_cons_succ] at hv
      have hnohit : isPositionInRange pos v₀.range = false := by
        by_contra hcontra
        rw [Bool.not_eq_false] at hcontra
        have := huniq 0 v₀ (by simp) hcontra
        omega
      unfold rowValuesHoverScan
      rw [if_neg (by simp [hnohit])]
      have := ih hv (fun j'' v'' hj'' hh'' => by
        have := huniq (j'' + 1) v'' (by simpa using hj'') hh''
        omega) (i₀ + 1)
      rw [this]
      have harith : i₀ + 1 + j' = i₀ + (j' + 1) := by omega
      rw [harith]

theorem rowsHoverScan_none {pos : Position} {fields : List FieldNode}
    {rows : List DataRowNode}
    (h : ∀ r ∈ rows, ∀ v ∈ r.values, isPositionInRange pos v.range = false) :
    rowsHoverScan pos fields rows = none := by
  induction rows with
  | nil => rfl
  | cons r₀ rest ih =>
    unfold rowsHoverScan
    rw [rowValuesHoverScan_none (fun v hv => h r₀ (by simp) v hv) 0]
    exact ih (fun r hr => h r (by simp [hr]))

theorem rowsHoverScan_eq {pos : Position} {fields : List FieldNode}
    {rows : List DataRowNode} {ri i : Nat} {row : DataRowNode} {v : ValueNode}
    (hrow : rows[ri]? = some row)
    (hv : row.values[i]? = some v) (hhit : isPositionInRange pos v.range = true)
    (huniq : ∀ rj row', rows[rj]? = some row' → ∀ j v', row'.values[j]? = some v' →
      isPositionInRange pos v'.range = true → rj = ri ∧ j = i) :
    rowsHoverScan pos fields rows =
      match fields[i]? with
      | some f => some ⟨.dataValue f.name v.value, v.range⟩
      | none => none := by
  induction rows generalizing ri with
  | nil => simp at hrow
  | cons row₀ rest ih =>
    cases ri with
    | zero =>
      simp only [List.getElem?_cons_zero, Option.some_inj] at hrow
      subst hrow
      unfold rowsHoverScan
      rw [rowValuesHoverScan_hit hv hhit (fun j' v' hj' hh' =>
        (huniq 0 row₀ (by simp) j' v' hj' hh').2) 0]
      simp only [Nat.zero_add]
      cases hf : fields[i]? with
      | some f => rfl
      | none =>
        exact rowsHoverScan_none (fun r' hr' v' hv' => by
          by_contra hc
          rw [Bool.not_eq_false] at hc
          obtain ⟨rj, hrj⟩ := List.getElem?_of_mem hr'
          obtain ⟨j', hj'⟩ := List.getElem?_of_mem hv'
          have := (huniq (rj + 1) r' (by simpa using hrj) j' v' hj' hc).1
          omega)
    | succ ri' =>
      simp only [List.getElem?_cons_succ] at hrow
      have hnone : ∀ v' ∈ row₀.values, isPositionInRange pos v'.range = false := by
        intro v' hv'
        by_contra hc
        rw [Bool.not_eq_false] at hc
        obtain ⟨j', hj'⟩ := List.getElem?_of_mem hv'
        have := (huniq 0 row₀ (by simp) j' v' hj' hc).1
        omega
      unfold rowsHoverScan
      rw [rowValuesHoverScan_none hnone 0]
      exact ih hrow (fun rj row' hrj j v' hj hh =>
        have h2 := huniq (rj + 1) row' (by simpa using hrj) j v' hj hh
        ⟨by omega, h2.2⟩)

theorem fieldsHoverScan_none {pos : Position} {count : Nat} {fs : List FieldNode}
    (h : ∀ f ∈ fs, isPositionInRange pos f.range = false) :
    ∀ i₀, fieldsHoverScan pos count fs i₀ = none := by
  induction fs with
  | nil => intro i₀; rfl
  | cons f₀ fs' ih =>
    intro i₀
    unfold fieldsHoverScan
    rw [if_neg (by simp [h f₀ (by simp)])]
    exact ih (fun f hf => h f (by simp [hf])) (i₀ + 1)

theorem rowValuesDefScan_none {pos : Position} {uri : Str} {fields : List FieldNode}
    {vs : List ValueNode}
    (h : ∀ v ∈ vs, isPositionInRange pos v.range = false) :
    ∀ i₀, rowValuesDefScan pos uri fields vs i₀ = none := by
  induction vs with
  | nil => intro i₀; rfl
  | cons v₀ vs' ih =>
    intro i₀
    unfold rowValuesDefScan
    rw [if_neg (by simp [h v₀ (by simp)])]
    exact ih (fun v hv => h v (by simp [hv])) (i₀ + 1)

theorem rowValuesDefScan_hit {pos : Position} {uri : Str} {fields : List FieldNode}
    {vs : List ValueNode} {j : Nat} {v : ValueNode}
    (hv : vs[j]? = some v) (hhit : isPositionInRange pos v.range = true)
    (huniq : ∀ j' v', vs[j']? = some v' → isPositionInRange pos v'.range = true → j' = j) :
    ∀ i₀, rowValuesDefScan pos uri fields vs i₀ =
      match fields[i₀ + j]? with
      | some f => some ⟨uri, f.range⟩
      | none => none := by
  induction vs generalizing j with
  | nil => simp at hv
  | cons v₀ vs' ih =>
    intro i₀
    cases j with
    | zero =>
      simp only [List.getElem?_cons_zero, Option.some_inj] at hv
      subst hv
      unfold rowValuesDefScan
      rw [if_pos hhit]
      cases hf : fields[i₀ + 0]? with
      | some f => simp [Nat.add_zero] at hf ⊢; rw [hf]
      | none =>
        simp only [Nat.add_zero] at hf
        rw [hf]
        exact rowValuesDefScan_none
          (fun v' hv' => by
            by_contra hcontra
            rw [Bool.not_eq_false] at hcontra
            obtain ⟨j', hj'⟩ := List.getElem?_of_mem hv'
            have := huniq (j' + 1) v' (by simpa using hj') hcontra
            omega) (i₀ + 1)
    | succ j' =>
      simp only [List.getElem?_cons_succ] at hv
      have hnohit : isPositionInRange pos v₀.range = false := by
        by_contra hcontra
        rw [Bool.not_eq_false] at hcontra
        have := huniq 0 v₀ (by simp) hcontra
        omega
      unfold rowValuesDefScan
      rw [if_neg (by simp [hnohit])]
      have := ih hv (fun j'' v'' hj'' hh'' => by
        have := huniq (j'' + 1) v'' (by simpa using hj'') hh''
        omega) (i₀ + 1)
      rw [this]
      have harith : i₀ + 1 + j' = i₀ + (j' + 1) := by omega
      rw [harith]

theorem rowsDefScan_none {pos : Position} {uri : Str} {fields : List FieldNode}
    {rows : List DataRowNode}
    (h : ∀ r ∈ rows, ∀ v ∈ r.values, isPositionInRange pos v.range = false) :
    rowsDefScan pos uri fields rows = none := by
  induction rows with
  | nil => rfl
  | cons r₀ rest ih =>
    unfold rowsDefScan
    rw [rowValuesDefScan_none (fun v hv => h r₀ (by simp) v hv) 0]
    exact ih (fun r hr => h r (by simp [hr]))

theorem rowsDefScan_eq {pos : Position} {uri : Str} {fields : List FieldNode}
    {rows : List DataRowNode} {ri i : Nat} {row : DataRowNode} {v : ValueNode}
    (hrow : rows[ri]? = some row)
    (hv : row.values[i]? = some v) (hhit : isPositionInRange pos v.range = true)
    (huniq : ∀ rj row', rows[rj]? = some row' → ∀ j v', row'.values[j]? = some v' →
      isPositionInRange pos v'.range = true → rj = ri ∧ j = i) :
    rowsDefScan pos uri fields rows =
      match fields[i]? with
      | some f => some ⟨uri, f.range⟩
      | none => none := by
  induction rows generalizing ri with
  | nil => simp at hrow
  | cons row₀ rest ih =>
    cases ri with
    | zero =>
      simp only [List.getElem?_cons_zero, Option.some_inj] at hrow
      subst hrow
      unfold rowsDefScan
      rw [rowValuesDefScan_hit hv hhit (fun j' v' hj' hh' =>
        (huniq 0 row₀ (by simp) j' v' hj' hh').2) 0]
      simp only [Nat.zero_add]
      cases hf : fields[i]? with
      | some f => rfl
      | none =>
        exact rowsDefScan_none (fun r' hr' v' hv' => by
          by_contra hc
          rw [Bool.not_eq_false] at hc
          obtain ⟨rj, hrj⟩ := List.getElem?_of_mem hr'
          obtain ⟨j', hj'⟩ := List.getElem?_of_mem hv'
          have := (huniq (rj + 1) r' (by simpa using hrj) j' v' hj' hc).1
          omega)
    | succ ri' =>
      simp only [List.getElem?_cons_succ] at hrow
      have hnone : ∀ v' ∈ row₀.values, isPositionInRange pos v'.range = false := by
        intro v' hv'
        by_contra hc
        rw [Bool.not_eq_false] at hc
        obtain ⟨j', hj'⟩ := List.getElem?_of_mem hv'
        have := (huniq 0 row₀ (by simp) j' v' hj' hc).1
        omega
      unfold rowsDefScan
      rw [rowValuesDefScan_none hnone 0]
      exact ih hrow (fun rj row' hrj j v' hj hh =>
        have h2 := huniq (rj + 1) row' (by simpa using hrj) j v' hj hh
        ⟨by omega, h2.2⟩)

/-- C6: for every StructuredArray and every position lying inside the range
of exactly one data-row value, at cell index `i` (and outside the array-name
and field-declaration ranges the hover provider checks first): the hover
provider returns the field at index `i` iff `i < fields.length` and no
result when `i ≥ fields.length`; the definition provider returns the
location of the field at the same index under the same out-of-range guard;
and the definition provider's result state is left untouched by every node
kind other than StructuredArray (simple arrays, key-value pairs, etc.). -/
theorem C6_positional_field_lookup {pos : Position} {uri : Str} {d : StructuredArrayData}
    {ri i : Nat} {row : DataRowNode} {v : ValueNode}
    (hrow : d.dataRows[ri]? = some row)
    (hv : row.values[i]? = some v)
    (hhit : isPositionInRange pos v.range = true)
    (hname : isPositionInRange pos d.nameRange = false)
    (hfields : ∀ f ∈ d.fields, isPositionInRange pos f.range = false)
    (huniq : ∀ rj row', d.dataRows[rj]? = some row' → ∀ j v',
      row'.values[j]? = some v' → isPositionInRange pos v'.range = true → rj = ri ∧ j = i) :
    (∀ f, d.fields[i]? = some f →
      visitStructuredArrayHover pos d = some ⟨.dataValue f.name v.value, v.range⟩ ∧
      visitStructuredArrayDef pos uri d = some ⟨uri, f.range⟩) ∧
    (d.fields.length ≤ i →
      visitStructuredArrayHover pos d = none ∧ visitStructuredArrayDef pos uri d = none) ∧
    (∀ (st : Option Location) (n : ASTNode), n.nodeType ≠ .structuredArray →
      definitionStep pos uri st n = st) := by
  have hhover : visitStructuredArrayHover pos d =
      match d.fields[i]? with
      | some f => some ⟨.dataValue f.name v.value, v.range⟩
      | none => none := by
    unfold visitStructuredArrayHover
    rw [if_neg (by simp [hname])]
    rw [fieldsHoverScan_none hfields 0]
    exact rowsHoverScan_eq hrow hv hhit huniq
  have hdef : visitStructuredArrayDef pos uri d =
      match d.fields[i]? with
      | some f => some ⟨uri, f.range⟩
      | none => none := by
    unfold visitStructuredArrayDef
    exact rowsDefScan_eq hrow hv hhit huniq
  refine ⟨?_, ?_, ?_⟩
  · intro f hf
    rw [hhover, hdef, hf]
    exact ⟨rfl, rfl⟩
  · intro hlen
    have hf : d.fields[i]? = none := by
      rw [List.getElem?_eq_none_iff]
      exact hlen
    rw [hhover, hdef, hf]
    exact ⟨rfl, rfl⟩
  · intro st n hn
    cases n <;> first
      | rfl
      | exact absurd rfl hn

/-- C6 witness: the theorem applied to a concrete one-field, one-row
structured array with the position inside the single data value. -/
theorem C6_witness :
    visitStructuredArrayHover ⟨1, 0⟩
      ⟨"h".toList, createRange 0 0 0 1, 1, createRange 0 2 0 3,
        [⟨"f".toList, createRange 0 4 0 5⟩],
        [⟨[⟨"x".toList, createRange 1 0 1 1⟩], createRange 1 0 1 1⟩],
        createRange 0 0 1 1⟩ =
      some ⟨.dataValue "f".toList "x".toList, createRange 1 0 1 1⟩ ∧
    visitStructuredArrayDef ⟨1, 0⟩ "file".toList
      ⟨"h".toList, createRange 0 0 0 1, 1, createRange 0 2 0 3,
        [⟨"f".toList, createRange 0 4 0 5⟩],
        [⟨[⟨"x".toList, createRange 1 0 1 1⟩], createRange 1 0 1 1⟩],
        createRange 0 0 1 1⟩ =
      some ⟨"file".toList, createRange 0 4 0 5⟩ := by
  have h := @C6_positional_field_lookup ⟨1, 0⟩ ("file".toList)
    ⟨"h".toList, createRange 0 0 0 1, 1, createRange 0 2 0 3,
      [⟨"f".toList, createRange 0 4 0 5⟩],
      [⟨[⟨"x".toList, createRange 1 0 1 1⟩], createRange 1 0 1 1⟩],
      createRange 0 0 1 1⟩
    0 0
    ⟨[⟨"x".toList, createRange 1 0 1 1⟩], createRange 1 0 1 1⟩
    ⟨"x".toList, createRange 1 0 1 1⟩
    (by decide) (by decide) (by decide) (by decide) (by decide)
    (fun rj row' hrj j v' hj hh => by
      have hrj0 : rj = 0 := by
        rcases rj with _ | rj'
        · rfl
        · simp at hrj
      subst hrj0
      simp at hrj
      subst hrj
      have hj0 : j = 0 := by
        rcases j with _ | j'
        · rfl
        · simp at hj
      exact ⟨rfl, hj0⟩)
  exact (h.1 ⟨"f".toList, createRange 0 4 0 5⟩ rfl)

theorem tryParseKeyValuePair_blocksWF {line : Str} {n : Nat} {r : ASTNode × Nat}
    (h : tryParseKeyValuePair line n = some r) : blocksWF r.1 = true := by
  simp only [tryParseKeyValuePair] at h
  split at h
  · simp at h
  · split at h
    · simp at h
    · obtain rfl := (Option.some_inj.mp h).symm
      rfl

theorem tryParseStructuredArray_blocksWF {line : Str} {n : Nat} {allLines : List Str}
    {r : ASTNode × Nat} (h : tryParseStructuredArray line n allLines = some r) :
    blocksWF r.1 = true := by
  simp only [tryParseStructuredArray] at h
  split at h
  · simp at h
  · obtain rfl := (Option.some_inj.mp h).symm
    rfl

theorem tryParseSimpleArray_blocksWF {line : Str} {n : Nat} {r : ASTNode × Nat}
    (h : tryParseSimpleArray line n = some r) : blocksWF r.1 = true := by
  simp only [tryParseSimpleArray] at h
  split at h
  · simp at h
  · split at h
    · simp at h
    · obtain rfl := (Option.some_inj.mp h).symm
      rfl

theorem isEmpty_eq_false_of_getLast {l : List ASTNode} {x : ASTNode}
    (h : l.getLast? = some x) : l.isEmpty = false := by
  cases l with
  | nil => simp at h
  | cons a t => rfl

theorem blockParse_blocksWF : ∀ fuel : Nat,
    (∀ allLines idx lvl, blocksWFList (blockChildrenLoopF fuel allLines idx lvl).1 = true) ∧
    (∀ line n allLines lvl node,
      (parseBlockChildF fuel line n allLines lvl).1 = some node → blocksWF node = true) ∧
    (∀ line n allLines lvl r,
      tryParseNestedBlockStructureF fuel line n allLines lvl = some r →
        blocksWF r.1 = true) := by
  intro fuel
  induction fuel with
  | zero =>
    refine ⟨fun _ _ _ => rfl, ?_, ?_⟩
    · intro line n allLines lvl node h
      simp only [parseBlockChildF] at h
      obtain rfl := Option.some_inj.mp h
      rfl
    · intro _ _ _ _ _ h
      simp [tryParseNestedBlockStructureF] at h
  | succ f ih =>
    obtain ⟨ih1, ih2, ih3⟩ := ih
    have hnested : ∀ line n allLines lvl r,
        tryParseNestedBlockStructureF (f + 1) line n allLines lvl = some r →
          blocksWF r.1 = true := by
      intro line n allLines lvl r h
      simp only [tryParseNestedBlockStructureF] at h
      split at h
      · simp at h
      · split at h
        · simp at h
        · split at h
          · simp at h
          · split at h
            · simp at h
            · split at h
              · simp at h
              · split at h
                · simp at h
                · rename_i lastChild hlast
                  obtain rfl := (Option.some_inj.mp h).symm
                  simp only [blocksWF, hlast, Bool.and_eq_true, Bool.not_eq_true',
                    decide_eq_true_eq]
                  exact ⟨⟨isEmpty_eq_false_of_getLast hlast, rfl⟩, ih1 allLines (n + 1) _⟩
    have hchild : ∀ line n allLines lvl node,
        (parseBlockChildF (f + 1) line n allLines lvl).1 = some node →
          blocksWF node = true := by
      intro line n allLines lvl node h
      simp only [parseBlockChildF] at h
      split at h
      · obtain rfl := Option.some_inj.mp h
        rfl
      · split at h
        · rename_i r hr
          obtain rfl := Option.some_inj.mp h
          exact ih3 _ _ _ _ _ hr
        · split at h
          · rename_i r hr
            obtain rfl := Option.some_inj.mp h
            exact tryParseKeyValuePair_blocksWF hr
          · obtain rfl := Option.some_inj.mp h
            rfl
    have hloop : ∀ allLines idx lvl,
        blocksWFList (blockChildrenLoopF (f + 1) allLines idx lvl).1 = true := by
      intro allLines idx lvl
      unfold blockChildrenLoopF
      cases hget : allLines.get? idx with
      | none => rfl
      | some childLine =>
        dsimp only
        by_cases hblank : jsTrim childLine = []
        · rw [if_pos hblank]
          exact ih1 allLines (idx + 1) lvl
        · rw [if_neg hblank]
          by_cases hind : getIndentLevel childLine < lvl
          · rw [if_pos hind]
            rfl
          · rw [if_neg hind]
            simp only
            cases hres : (parseBlockChildF f childLine idx allLines lvl).1 with
            | none =>
              simp only [hres]
              exact ih1 allLines _ lvl
            | some node =>
              simp only [hres]
              by_cases hemp : node.nodeType = NodeType.empty
              · rw [if_neg (by simp [hemp])]
                exact ih1 allLines _ lvl
              · rw [if_pos (by simp [hemp])]
                simp only [blocksWFList, Bool.and_eq_true]
                exact ⟨ih2 _ _ _ _ _ hres, ih1 allLines _ lvl⟩
    exact ⟨hloop, hchild, hnested⟩

theorem tryParseBlockStructureF_blocksWF {fuel : Nat} {line : Str} {n : Nat}
    {allLines : List Str} {r : ASTNode × Nat}
    (h : tryParseBlockStructureF fuel line n allLines = some r) : blocksWF r.1 = true := by
  simp only [tryParseBlockStructureF] at h
  split at h
  · simp at h
  · split at h
    · simp at h
    · split at h
      · simp at h
      · split at h
        · simp at h
        · split at h
          · simp at h
          · split at h
            · simp at h
            · rename_i lastChild hlast
              obtain rfl := (Option.some_inj.mp h).symm
              simp only [blocksWF, hlast, Bool.and_eq_true, Bool.not_eq_true',
                decide_eq_true_eq]
              exact ⟨⟨isEmpty_eq_false_of_getLast hlast, rfl⟩,
                (blockParse_blocksWF fuel).1 allLines (n + 1) _⟩

theorem parseLineF_blocksWF {fuel : Nat} {line : Str} {n : Nat} {allLines : List Str}
    {node : ASTNode} (h : (parseLineF fuel line n allLines).1 = some node) :
    blocksWF node = true := by
  simp only [parseLineF] at h
  split at h
  · obtain rfl := Option.some_inj.mp h
    rfl
  · split at h
    · rename_i r hr
      obtain rfl := Option.some_inj.mp h
      exact tryParseStructuredArray_blocksWF hr
    · split at h
      · rename_i r hr
        obtain rfl := Option.some_inj.mp h
        exact tryParseSimpleArray_blocksWF hr
      · split at h
        · rename_i r hr
          obtain rfl := Option.some_inj.mp h
          exact tryParseBlockStructureF_blocksWF hr
        · split at h
          · rename_i r hr
            obtain rfl := Option.some_inj.mp h
            exact tryParseKeyValuePair_blocksWF hr
          · obtain rfl := Option.some_inj.mp h
            rfl

theorem parseTopLoopF_blocksWF : ∀ (fuel : Nat) (allLines : List Str) (idx : Nat),
    blocksWFList (parseTopLoopF fuel allLines idx) = true := by
  intro fuel
  induction fuel with
  | zero => intro _ _; rfl
  | succ f ih =>
    intro allLines idx
    unfold parseTopLoopF
    cases hget : allLines.get? idx with
    | none => rfl
    | some line =>
      dsimp only
      cases hres : (parseLineF f line idx allLines).1 with
      | none =>
        simp only [hres]
        exact ih allLines _
      | some node =>
        simp only [hres, blocksWFList, Bool.and_eq_true]
        exact ⟨parseLineF_blocksWF hres, ih allLines _⟩

/-- C8: every Block node anywhere in a tree produced by `parse` has at least
one child, and its range end (line and character) equals the range end of
its last child. -/
theorem C8_block_range_closure (text : Str) : blocksWF (parse text) = true :=
  parseTopLoopF_blocksWF _ _ 0

theorem dropWhile_idem {P : Char → Bool} : ∀ l : Str, (l.dropWhile P).dropWhile P = l.dropWhile P := by
  intro l
  induction l with
  | nil => rfl
  | cons c l ih =>
    by_cases h : P c = true
    · rw [List.dropWhile_cons_of_pos h]; exact ih
    · rw [List.dropWhile_cons_of_neg (by simp [h]), List.dropWhile_cons_of_neg (by simp [h])]

theorem dropWhile_append_all {P : Char → Bool} {l₁ l₂ : Str} (h : ∀ x ∈ l₁, P x = true) :
    (l₁ ++ l₂).dropWhile P = l₂.dropWhile P := by
  induction l₁ with
  | nil => rfl
  | cons c l ih =>
    rw [List.cons_append, List.dropWhile_cons_of_pos (h c (by simp))]
    exact ih (fun x hx => h x (by simp [hx]))

theorem dropWhile_head_false {P : Char → Bool} : ∀ {l : Str} {c : Char} {w : Str},
    l.dropWhile P = c :: w → P c = false := by
  intro l
  induction l with
  | nil => intro c w h; simp [List.dropWhile] at h
  | cons a l ih =>
    intro c w h
    by_cases ha : P a = true
    · rw [List.dropWhile_cons_of_pos ha] at h; exact ih h
    · rw [List.dropWhile_cons_of_neg (by simp [ha])] at h
      injection h with h1 h2
      subst h1
      simpa using ha

theorem reverse_dropWhile_reverse_prefix {P : Char → Bool} (u : Str) :
    ((u.reverse.dropWhile P).reverse) <+: u := by
  have h : (u.reverse.dropWhile P).reverse <+: u.reverse.reverse :=
    (List.reverse_prefix).mpr (List.dropWhile_suffix P)
  rwa [List.reverse_reverse] at h

theorem jsTrim_prefix (s : Str) : jsTrim s <+: s.dropWhile jsIsSpace :=
  reverse_dropWhile_reverse_prefix _

theorem jsTrim_head_not_space {s : Str} {c : Char} {w : Str} (h : jsTrim s = c :: w) :
    jsIsSpace c = false := by
  have hpre := jsTrim_prefix s
  rw [h] at hpre
  obtain ⟨r, hr⟩ := hpre
  exact dropWhile_head_false hr.symm

theorem jsTrim_idem (s : Str) : jsTrim (jsTrim s) = jsTrim s := by
  have h1 : (jsTrim s).dropWhile jsIsSpace = jsTrim s := by
    cases ht : jsTrim s with
    | nil => rfl
    | cons c w =>
      rw [List.dropWhile_cons_of_neg (by simp [jsTrim_head_not_space ht])]
  have h2 : (jsTrim s).reverse = (s.dropWhile jsIsSpace).reverse.dropWhile jsIsSpace := by
    simp only [jsTrim, List.reverse_reverse]
  show (((jsTrim s).dropWhile jsIsSpace).reverse.dropWhile jsIsSpace).reverse = jsTrim s
  rw [h1, h2, dropWhile_idem]
  simp only [jsTrim]

theorem jsTrim_append_ws_left {pre s : Str} (h : ∀ x ∈ pre, jsIsSpace x = true) :
    jsTrim (pre ++ s) = jsTrim s := by
  simp only [jsTrim, dropWhile_append_all h]

theorem jsTrim_cons_space (v : Str) : jsTrim (' ' :: v) = jsTrim v :=
  @jsTrim_append_ws_left [' '] v (by intro x hx; simp at hx; subst hx; rfl)

theorem findOccur_single_none {l : Str} {c : Char} (h : c ∉ l) : findOccur l [c] = none := by
  induction l with
  | nil => rfl
  | cons a l ih =>
    have hac : ¬ (c = a) := fun he => h (by simp [he])
    have hc : c ∉ l := fun hm => h (List.mem_cons_of_mem _ hm)
    unfold findOccur
    have hp : ([c].isPrefixOf (a :: l)) = false := by
      simp [List.isPrefixOf, hac]
    rw [hp]
    simp [ih hc]

theorem jsIndexOf_single_none {l : Str} {c : Char} (h : c ∉ l) : jsIndexOf l [c] = -1 := by
  unfold jsIndexOf jsIndexOfFrom
  simp [findOccur_single_none h]

theorem getIndentLevel_ser {k r : Str} {lvl : Nat} (hk : jsTrim k = k) :
    getIndentLevel (indentOf lvl ++ (k ++ ':' :: r)) = 2 * lvl := by
  have hrep : ∀ x ∈ indentOf lvl, jsIsSpace x = true := by
    intro x hx
    rw [List.eq_of_mem_replicate hx]; rfl
  cases k with
  | nil =>
    unfold getIndentLevel
    rw [List.nil_append, takeWhile_append_all hrep, takeWhile_cons_false (by decide)]
    simp [indentOf]
  | cons c k' =>
    have hc : jsIsSpace c = false := jsTrim_head_not_space hk
    unfold getIndentLevel
    rw [List.cons_append, takeWhile_append_all hrep, takeWhile_cons_false hc]
    simp [indentOf]

theorem jsTrim_ser_ne_nil {k r : Str} {lvl : Nat} :
    jsTrim (indentOf lvl ++ (k ++ ':' :: r)) ≠ [] :=
  jsTrim_ne_nil_of_mem (x := ':') (by simp) (by decide)

theorem cleanStr_spec {s : Str} (h : cleanStr s = true) :
    ∀ c ∈ s, c ≠ ':' ∧ c ≠ '[' ∧ c ≠ ']' ∧ c ≠ '{' ∧ c ≠ '}' ∧ c ≠ '\n' := by
  intro c hc
  have h2 := List.all_eq_true.mp h c hc
  simp at h2
  exact ⟨h2.1.1.1.1.1, h2.1.1.1.1.2, h2.1.1.1.2, h2.1.1.2, h2.1.2, h2.2⟩

theorem serNodeLinesOpt_ne_nil {n : ASTNode} {lvl : Nat} {ls : List Str}
    (h : serNodeLinesOpt n lvl = some ls) : ls ≠ [] := by
  cases n <;> simp [serNodeLinesOpt] at h <;> (try subst h) <;> simp

theorem take_left_eq {l₁ l₂ : Str} : (l₁ ++ l₂).take l₁.length = l₁ := by
  simp

theorem drop_left_succ {l₁ l₂ : Str} {c : Char} :
    ((l₁ ++ c :: l₂).drop (l₁.length + 1)) = l₂ := by
  rw [show l₁ ++ c :: l₂ = (l₁ ++ [c]) ++ l₂ from by simp,
    show l₁.length + 1 = (l₁ ++ [c]).length from by simp]
  exact List.drop_left _ _

theorem one_le_treeNodeCount (n : ASTNode) : 1 ≤ treeNodeCount n := by
  cases n <;> simp only [treeNodeCount] <;> omega

theorem joinWith_cons_ne_nil {sep : Char} {x : Str} {A : List Str} (h : A ≠ []) :
    joinWith sep (x :: A) = x ++ sep :: joinWith sep A := by
  cases A with
  | nil => exact absurd rfl h
  | cons a A' => rfl

theorem joinWith_append {sep : Char} {ls ms : List Str} (hls : ls ≠ []) (hms : ms ≠ []) :
    joinWith sep (ls ++ ms) = joinWith sep ls ++ sep :: joinWith sep ms := by
  induction ls with
  | nil => exact absurd rfl hls
  | cons a ls ih =>
    cases ls with
    | nil =>
      cases ms with
      | nil => exact absurd rfl hms
      | cons m ms' => rfl
    | cons b ls' =>
      have h1 : joinWith sep ((a :: b :: ls') ++ ms) =
          a ++ sep :: joinWith sep ((b :: ls') ++ ms) := rfl
      rw [h1, ih (by simp)]
      simp [joinWith_cons_ne_nil (A := b :: ls') (by simp)]

theorem serializeNodeF_none_iff {n : ASTNode} {lvl : Nat} :
    serializeNodeF n lvl = none ↔ serNodeLinesOpt n lvl = none := by
  cases n
  case keyValuePair =>
    simp only [serializeNodeF, serNodeLinesOpt]
    split <;> simp
  all_goals simp [serializeNodeF, serNodeLinesOpt]

theorem serializeListF_eq_nil_iff {cs : List ASTNode} {lvl : Nat} :
    serializeListF cs lvl = [] ↔ serLinesList cs lvl = [] := by
  induction cs with
  | nil => simp [serializeListF, serLinesList]
  | cons c cs ih =>
    simp only [serializeListF, serLinesList]
    cases hn : serNodeLinesOpt c lvl with
    | none =>
      have hs : serializeNodeF c lvl = none := serializeNodeF_none_iff.mpr hn
      rw [hs]
      simpa using ih
    | some ls =>
      have hls : ls ≠ [] := serNodeLinesOpt_ne_nil hn
      cases hsv : serializeNodeF c lvl with
      | none => exact absurd (serializeNodeF_none_iff.mp hsv) (by simp [hn])
      | some chunk =>
        constructor
        · intro h; simp at h
        · intro h
          exact absurd (List.append_eq_nil.mp h).1 hls

theorem ser_eq_lines : ∀ N : Nat,
    (∀ n : ASTNode, treeNodeCount n ≤ N → ∀ lvl,
      serializeNodeF n lvl = (serNodeLinesOpt n lvl).map (joinWith '\n')) ∧
    (∀ cs : List ASTNode, treeNodeCountList cs ≤ N → ∀ lvl,
      joinWith '\n' (serializeListF cs lvl) = joinWith '\n' (serLinesList cs lvl)) := by
  intro N
  induction N using Nat.strong_induction_on with
  | _ N IH =>
    have hnode : ∀ n : ASTNode, treeNodeCount n ≤ N → ∀ lvl,
        serializeNodeF n lvl = (serNodeLinesOpt n lvl).map (joinWith '\n') := by
      intro n hc lvl
      cases n with
      | block k kr ci cs rg =>
        have hc' : treeNodeCountList cs ≤ N - 1 := by
          simp [treeNodeCount] at hc; omega
        have hN : N - 1 < N := by
          have := one_le_treeNodeCount (.block k kr ci cs rg); omega
        have hl := (IH (N - 1) hN).2 cs hc' (lvl + 1)
        simp only [serializeNodeF, serNodeLinesOpt, serHeaderLine, Option.map]
        congr 1
        by_cases hnil : serializeListF cs (lvl + 1) = []
        · rw [hnil, serializeListF_eq_nil_iff.mp hnil]
        · have hnil2 : serLinesList cs (lvl + 1) ≠ [] := by
            intro h2; exact hnil (serializeListF_eq_nil_iff.mpr h2)
          rw [joinWith_cons_ne_nil hnil, joinWith_cons_ne_nil hnil2, hl]
      | keyValuePair k kr v vr ci rg =>
        simp only [serializeNodeF, serNodeLinesOpt, serKVLine, Option.map, joinWith]
        split <;> rfl
      | simpleArray d => rfl
      | structuredArray d => rfl
      | empty rg => rfl
      | document cs rg => rfl
      | field f => rfl
      | dataRow r => rfl
      | value v => rfl
    refine ⟨hnode, ?_⟩
    intro cs hcs lvl
    induction cs with
    | nil => rfl
    | cons c cs' ihl =>
      have hcn : treeNodeCount c ≤ N := by
        simp [treeNodeCountList] at hcs; omega
      have hcs' : treeNodeCountList cs' ≤ N := by
        simp [treeNodeCountList] at hcs
        have := one_le_treeNodeCount c; omega
      have hn := hnode c hcn lvl
      simp only [serializeListF, serLinesList]
      cases hop : serNodeLinesOpt c lvl with
      | none =>
        rw [hop] at hn
        simp only [Option.map] at hn
        rw [hn]
        simpa using ihl hcs'
      | some ls =>
        rw [hop] at hn
        simp only [Option.map] at hn
        rw [hn]
        have hls : ls ≠ [] := serNodeLinesOpt_ne_nil hop
        by_cases hnil : serializeListF cs' lvl = []
        · rw [hnil, serializeListF_eq_nil_iff.mp hnil]
          simp [joinWith]
        · have hnil2 : serLinesList cs' lvl ≠ [] := by
            intro h2; exact hnil (serializeListF_eq_nil_iff.mpr h2)
          rw [joinWith_cons_ne_nil hnil, joinWith_append hls hnil2, ihl hcs']

theorem serialize_eq_lines {cs : List ASTNode} {rg : Range} :
    serialize (.document cs rg) = joinWith '\n' (serLinesList cs 0) :=
  (ser_eq_lines (treeNodeCountList cs)).2 cs (le_refl _) 0

theorem jsSplitAux_no_sep {sep : Char} : ∀ {l : Str}, sep ∉ l → ∀ s acc,
    jsSplitAux sep (l ++ s) acc = jsSplitAux sep s (l.reverse ++ acc) := by
  intro l
  induction l with
  | nil => intro _ s acc; simp
  | cons c l ih =>
    intro h s acc
    have hc : ¬ (c = sep) := fun he => h (by simp [he])
    rw [List.cons_append]
    show jsSplitAux sep (c :: (l ++ s)) acc = _
    simp only [jsSplitAux, if_neg hc]
    rw [ih (fun hm => h (by simp [hm])) s (c :: acc)]
    simp

theorem jsSplitAux_cons_sep {sep : Char} {s : Str} {acc : Str} :
    jsSplitAux sep (sep :: s) acc = acc.reverse :: jsSplitAux sep s [] := by
  simp [jsSplitAux]

theorem jsSplit_joinWith : ∀ ls : List Str, ls ≠ [] → (∀ l ∈ ls, '\n' ∉ l) →
    jsSplit '\n' (joinWith '\n' ls) = ls := by
  intro ls
  induction ls with
  | nil => intro h _; exact absurd rfl h
  | cons a ls ih =>
    intro _ hnl
    cases ls with
    | nil =>
      show jsSplitAux '\n' (joinWith '\n' [a]) [] = [a]
      have h2 := jsSplitAux_no_sep (l := a) (hnl a (by simp)) [] []
      rw [List.append_nil] at h2
      rw [show joinWith '\n' [a] = a from rfl, h2]
      simp [jsSplitAux]
    | cons b ls' =>
      show jsSplitAux '\n' (joinWith '\n' (a :: b :: ls')) [] = a :: b :: ls'
      rw [joinWith_cons_ne_nil (by simp)]
      rw [jsSplitAux_no_sep (hnl a (by simp))]
      rw [jsSplitAux_cons_sep, List.append_nil, List.reverse_reverse]
      rw [show jsSplitAux '\n' (joinWith '\n' (b :: ls')) [] =
        jsSplit '\n' (joinWith '\n' (b :: ls')) from rfl]
      rw [ih (by simp) (fun l hl => hnl l (by simp [hl]))]

theorem serLines_no_newline : ∀ N : Nat,
    (∀ n : ASTNode, treeNodeCount n ≤ N → onlyKVBlocks n = true →
      ∀ lvl ls, serNodeLinesOpt n lvl = some ls → ∀ l ∈ ls, '\n' ∉ l) ∧
    (∀ cs : List ASTNode, treeNodeCountList cs ≤ N → onlyKVBlocksList cs = true →
      ∀ lvl l, l ∈ serLinesList cs lvl → '\n' ∉ l) := by
  intro N
  induction N using Nat.strong_induction_on with
  | _ N IH =>
    have hnode : ∀ n : ASTNode, treeNodeCount n ≤ N → onlyKVBlocks n = true →
        ∀ lvl ls, serNodeLinesOpt n lvl = some ls → ∀ l ∈ ls, '\n' ∉ l := by
      intro n hc hk lvl ls hls l hl hmem
      cases n with
      | keyValuePair k kr v vr ci rg =>
        simp only [serNodeLinesOpt, Option.some_inj] at hls
        subst hls
        simp only [List.mem_singleton] at hl
        subst hl
        simp only [onlyKVBlocks, Bool.and_eq_true] at hk
        have hkc := cleanStr_spec hk.1
        have hvc := cleanStr_spec hk.2
        unfold serKVLine at hmem
        split at hmem
        · rcases List.mem_append.mp hmem with h | h
          · rcases List.mem_append.mp h with h2 | h2
            · exact absurd (List.eq_of_mem_replicate h2) (by decide)
            · exact (hkc _ h2).2.2.2.2.2 rfl
          · rcases List.mem_cons.mp h with h2 | h2
            · exact absurd h2 (by decide)
            · rcases List.mem_cons.mp h2 with h3 | h3
              · exact absurd h3 (by decide)
              · exact (hvc _ h3).2.2.2.2.2 rfl
        · rcases List.mem_append.mp hmem with h | h
          · rcases List.mem_append.mp h with h2 | h2
            · exact absurd (List.eq_of_mem_replicate h2) (by decide)
            · exact (hkc _ h2).2.2.2.2.2 rfl
          · rcases List.mem_cons.mp h with h2 | h2
            · exact absurd h2 (by decide)
            · simp at h2
      | block k kr ci cs rg =>
        simp only [serNodeLinesOpt, Option.some_inj] at hls
        subst hls
        simp only [onlyKVBlocks, Bool.and_eq_true] at hk
        have hkc := cleanStr_spec hk.1
        rcases List.mem_cons.mp hl with h | h
        · subst h
          unfold serHeaderLine at hmem
          rcases List.mem_append.mp hmem with h | h
          · rcases List.mem_append.mp h with h2 | h2
            · exact absurd (List.eq_of_mem_replicate h2) (by decide)
            · exact (hkc _ h2).2.2.2.2.2 rfl
          · rcases List.mem_cons.mp h with h2 | h2
            · exact absurd h2 (by decide)
            · simp at h2
        · have hc' : treeNodeCountList cs ≤ N - 1 := by
            simp [treeNodeCount] at hc; omega
          have hN : N - 1 < N := by
            have := one_le_treeNodeCount (.block k kr ci cs rg); omega
          exact (IH (N - 1) hN).2 cs hc' hk.2 (lvl + 1) l h hmem
      | empty rg =>
        simp only [serNodeLinesOpt, Option.some_inj] at hls
        subst hls
        simp at hl
        subst hl
        simp at hmem
      | document cs rg => simp [serNodeLinesOpt] at hls
      | simpleArray d => simp [onlyKVBlocks] at hk
      | structuredArray d => simp [onlyKVBlocks] at hk
      | field f => simp [onlyKVBlocks] at hk
      | dataRow r => simp [onlyKVBlocks] at hk
      | value v => simp [onlyKVBlocks] at hk
    refine ⟨hnode, ?_⟩
    intro cs hcs hk lvl l hl
    induction cs with
    | nil => simp [serLinesList] at hl
    | cons c cs' ihl =>
      have hcn : treeNodeCount c ≤ N := by
        simp [treeNodeCountList] at hcs; omega
      have hcs' : treeNodeCountList cs' ≤ N := by
        simp [treeNodeCountList] at hcs
        have := one_le_treeNodeCount c; omega
      simp only [onlyKVBlocksList, Bool.and_eq_true] at hk
      simp only [serLinesList] at hl
      rcases List.mem_append.mp hl with h | h
      · cases hop : serNodeLinesOpt c lvl with
        | none => rw [hop] at h; simp at h
        | some ls =>
          rw [hop] at h
          exact hnode c hcn hk.1 lvl ls hop l h
      · exact ihl hcs' hk.2 h

theorem mem_indentOf {x : Char} {lvl : Nat} (h : x ∈ indentOf lvl) : x = ' ' :=
  List.eq_of_mem_replicate h

theorem indentOf_all_space {lvl : Nat} : ∀ x ∈ indentOf lvl, jsIsSpace x = true := by
  intro x hx
  rw [mem_indentOf hx]; rfl

theorem matchStructuredHeader_some_bracket {line : Str} {m : StructuredHeaderMatch}
    (h : matchStructuredHeader line = some m) : '[' ∈ line := by
  simp only [matchStructuredHeader] at h
  split at h
  · simp at h
  · split at h
    · rename_i r3 hdrop
      have h1 : '[' ∈ ('[' :: r3 : Str) := by simp
      rw [← hdrop] at h1
      exact List.mem_of_mem_drop (List.mem_of_mem_drop h1)
    · simp at h

theorem matchSimpleHeader_some_bracket {line : Str} {m : SimpleHeaderMatch}
    (h : matchSimpleHeader line = some m) : '[' ∈ line := by
  obtain ⟨r, hline, -⟩ := matchSimpleHeader_inv h
  rw [hline]; simp

theorem tryParseStructuredArray_none_of_no_bracket {line : Str} {n : Nat}
    {allLines : List Str} (h : '[' ∉ line) :
    tryParseStructuredArray line n allLines = none := by
  cases hm : matchStructuredHeader line with
  | none => simp [tryParseStructuredArray, hm]
  | some m => exact absurd (matchStructuredHeader_some_bracket hm) h

theorem tryParseSimpleArray_none_of_no_bracket {line : Str} {n : Nat} (h : '[' ∉ line) :
    tryParseSimpleArray line n = none := by
  cases hm : matchSimpleHeader line with
  | none => simp [tryParseSimpleArray, hm]
  | some m => exact absurd (matchSimpleHeader_some_bracket hm) h

theorem tryParseBlockStructureF_eq_nested {fuel : Nat} {line : Str} {n : Nat}
    {allLines : List Str} {w : Nat} :
    tryParseBlockStructureF fuel line n allLines =
      tryParseNestedBlockStructureF (fuel + 1) line n allLines w := rfl

theorem serHeaderLine_eq_kv {k : Str} {lvl : Nat} : serHeaderLine k lvl = serKVLine k [] lvl := by
  simp [serKVLine, serHeaderLine]

theorem kvline_core (k v : Str) (lvl : Nat)
    (hkt : jsTrim k = k) (hvt : jsTrim v = v)
    (hkc : cleanStr k = true) (hvc : cleanStr v = true) :
    ∃ tail,
      serKVLine k v lvl = (indentOf lvl ++ k) ++ ':' :: tail ∧
      jsIndexOf (serKVLine k v lvl) [':'] = ((indentOf lvl ++ k).length : Int) ∧
      jsIndexOf (serKVLine k v lvl) ['['] = -1 ∧
      jsTrim ((serKVLine k v lvl).take (indentOf lvl ++ k).length) = k ∧
      jsTrim ((serKVLine k v lvl).drop ((indentOf lvl ++ k).length + 1)) = v ∧
      getIndentLevel (serKVLine k v lvl) = 2 * lvl ∧
      jsTrim (serKVLine k v lvl) ≠ [] := by
  have hkspec := cleanStr_spec hkc
  have hvspec := cleanStr_spec hvc
  obtain ⟨tail, hline, htail, htmem⟩ :
      ∃ tail, serKVLine k v lvl = (indentOf lvl ++ k) ++ ':' :: tail ∧ jsTrim tail = v ∧
        ∀ x ∈ tail, x = ' ' ∨ x ∈ v := by
    unfold serKVLine
    by_cases hv : 0 < v.length
    · refine ⟨' ' :: v, ?_, ?_, ?_⟩
      · rw [if_pos hv]
      · rw [jsTrim_cons_space, hvt]
      · intro x hx
        rcases List.mem_cons.mp hx with h | h
        · exact Or.inl h
        · exact Or.inr h
    · have hv0 : v = [] := by
        cases v with
        | nil => rfl
        | cons a w => simp at hv
      subst hv0
      refine ⟨[], ?_, rfl, by simp⟩
      rw [if_neg hv]
  have hcolon_pre : ∀ x ∈ indentOf lvl ++ k, x ≠ ':' := by
    intro x hx
    rcases List.mem_append.mp hx with h | h
    · rw [mem_indentOf h]; decide
    · exact (hkspec x h).1
  have hbr : '[' ∉ (indentOf lvl ++ k) ++ ':' :: tail := by
    intro hx
    rcases List.mem_append.mp hx with h | h
    · rcases List.mem_append.mp h with h2 | h2
      · exact absurd (mem_indentOf h2) (by decide)
      · exact (hkspec _ h2).2.1 rfl
    · rcases List.mem_cons.mp h with h2 | h2
      · exact absurd h2 (by decide)
      · rcases htmem _ h2 with h3 | h3
        · exact absurd h3 (by decide)
        · exact (hvspec _ h3).2.1 rfl
  refine ⟨tail, hline, ?_, ?_, ?_, ?_, ?_, ?_⟩
  · rw [hline]; exact jsIndexOf_single_append hcolon_pre
  · rw [hline]; exact jsIndexOf_single_none hbr
  · rw [hline, List.take_left]
    rw [jsTrim_append_ws_left indentOf_all_space, hkt]
  · rw [hline, drop_left_succ, htail]
  · rw [hline, List.append_assoc]
    exact getIndentLevel_ser hkt
  · rw [hline, List.append_assoc]
    exact jsTrim_ser_ne_nil

end Toon

namespace Toon

theorem tryParseKVP_serialized {k v : Str} (lvl n : Nat)
    (hkt : jsTrim k = k) (hvt : jsTrim v = v)
    (hkc : cleanStr k = true) (hvc : cleanStr v = true) :
    ∃ r : ASTNode × Nat, tryParseKeyValuePair (serKVLine k v lvl) n = some r ∧
      r.2 = 1 ∧ shapeOf r.1 = some (.kv k v) ∧ r.1.nodeType = .keyValuePair := by
  obtain ⟨tail, hline, hci, hbr, hkey, hval, hind, hnb⟩ :=
    kvline_core k v lvl hkt hvt hkc hvc
  simp only [tryParseKeyValuePair, hci, hbr]
  rw [if_neg (by omega)]
  rw [if_neg (by simp)]
  rw [Int.toNat_natCast, hkey, hval]
  exact ⟨_, rfl, rfl, rfl, rfl⟩

theorem nested_none_kv {k v : Str} (lvl n fuel w : Nat) (allLines : List Str)
    (hkt : jsTrim k = k) (hvt : jsTrim v = v)
    (hkc : cleanStr k = true) (hvc : cleanStr v = true)
    (hnx : ∀ nx, allLines.get? (n + 1) = some nx →
      jsTrim nx = [] ∨ getIndentLevel nx ≤ 2 * lvl) :
    tryParseNestedBlockStructureF (fuel + 1) (serKVLine k v lvl) n allLines w = none := by
  obtain ⟨tail, hline, hci, hbr, hkey, hval, hind, hnb⟩ :=
    kvline_core k v lvl hkt hvt hkc hvc
  simp only [tryParseNestedBlockStructureF, hci, hbr]
  rw [if_neg (by omega), if_neg (by simp)]
  rw [Int.toNat_natCast, hval]
  by_cases hv : 0 < v.length
  · rw [if_pos hv]
  · rw [if_neg hv]
    cases hg : allLines.get? (n + 1) with
    | none => rfl
    | some nx =>
      dsimp only
      rcases hnx nx hg with hcase | hcase
      · rw [if_pos (by simp [hcase])]
      · rw [if_pos (by simp [hind, hcase])]

theorem get?_append_cons {pre rest : List Str} {l : Str} :
    (pre ++ l :: rest).get? pre.length = some l := by
  induction pre with
  | nil => rfl
  | cons a t ih => simpa using ih

theorem get?_append_cons_succ {pre rest : List Str} {l : Str} :
    (pre ++ l :: rest).get? (pre.length + 1) = rest.head? := by
  induction pre with
  | nil => cases rest <;> rfl
  | cons a t ih => simpa using ih

theorem serLines_head (c : ASTNode) (lvl : Nat)
    (hkb : isKVOrBlock c = true) (hcan : canonical c = true) :
    ∃ l0 ls, serNodeLinesOpt c lvl = some (l0 :: ls) ∧
      jsTrim l0 ≠ [] ∧ getIndentLevel l0 = 2 * lvl := by
  cases c with
  | keyValuePair k kr v vr ci rg =>
    have hkt : jsTrim k = k := by
      simp only [canonical, Bool.and_eq_true, decide_eq_true_eq] at hcan
      exact hcan.1
    refine ⟨serKVLine k v lvl, [], rfl, ?_, ?_⟩
    · unfold serKVLine
      split
      · rw [List.append_assoc]
        exact jsTrim_ser_ne_nil (r := ' ' :: v)
      · rw [List.append_assoc]
        exact jsTrim_ser_ne_nil (r := [])
    · unfold serKVLine
      split
      · rw [List.append_assoc]
        exact getIndentLevel_ser hkt
      · rw [List.append_assoc]
        exact getIndentLevel_ser hkt
  | block k kr ci cs rg =>
    have hkt : jsTrim k = k := by
      simp only [canonical, Bool.and_eq_true, decide_eq_true_eq] at hcan
      exact hcan.1.1.1
    refine ⟨serHeaderLine k lvl, serLinesList cs (lvl + 1), rfl, ?_, ?_⟩
    · unfold serHeaderLine
      rw [List.append_assoc]
      exact jsTrim_ser_ne_nil (r := [])
    · unfold serHeaderLine
      rw [List.append_assoc]
      exact getIndentLevel_ser hkt
  | document cs rg => simp [isKVOrBlock] at hkb
  | simpleArray d => simp [isKVOrBlock] at hkb
  | structuredArray d => simp [isKVOrBlock] at hkb
  | field f => simp [isKVOrBlock] at hkb
  | dataRow r => simp [isKVOrBlock] at hkb
  | value v => simp [isKVOrBlock] at hkb
  | empty rg => simp [isKVOrBlock] at hkb

theorem serLinesList_head (c : ASTNode) (cs' : List ASTNode) (lvl : Nat)
    (hkb : isKVOrBlock c = true) (hcan : canonical c = true) :
    ∃ l0 tailL, serLinesList (c :: cs') lvl = l0 :: tailL ∧ jsTrim l0 ≠ [] ∧
      getIndentLevel l0 = 2 * lvl := by
  obtain ⟨l0, ls, hop, hnb, hind⟩ := serLines_head c lvl hkb hcan
  refine ⟨l0, ls ++ serLinesList cs' lvl, ?_, hnb, hind⟩
  simp [serLinesList, hop]

theorem stopCond_mono {rest : List Str} {w w' : Nat} (h : w ≤ w') (hs : stopCond rest w) :
    stopCond rest w' := by
  unfold stopCond at hs ⊢
  cases hd : rest.dropWhile isBlankLine with
  | nil => trivial
  | cons l t =>
    rw [hd] at hs
    omega

theorem stopCond_serLines_cons {c : ASTNode} {cs' : List ASTNode} {lvl : Nat}
    {rest : List Str} {w : Nat}
    (hkb : isKVOrBlock c = true) (hcan : canonical c = true) (h : 2 * lvl < w) :
    stopCond (serLinesList (c :: cs') lvl ++ rest) w := by
  obtain ⟨l0, tailL, heq, hnb, hind⟩ := serLinesList_head c cs' lvl hkb hcan
  unfold stopCond
  rw [heq, List.cons_append, List.dropWhile_cons_of_neg (by simp [isBlankLine, hnb])]
  dsimp only
  omega

theorem serLinesList_empty_cons {rg : Range} {cs' : List ASTNode} {lvl : Nat} :
    serLinesList (.empty rg :: cs') lvl = [] :: serLinesList cs' lvl := by
  simp [serLinesList, serNodeLinesOpt]

theorem isBlankLine_nil : isBlankLine [] = true := rfl

theorem stopCond_serLines_top : ∀ cs : List ASTNode, onlyKVBlocksList cs = true →
    canonicalList cs = true → ∀ rest : List Str, stopCond rest 0 →
    stopCond (serLinesList cs 0 ++ rest) 2 := by
  intro cs
  induction cs with
  | nil =>
    intro _ _ rest hr
    simpa [serLinesList] using stopCond_mono (by omega) hr
  | cons c cs' ih =>
    intro hk hcan rest hr
    simp only [onlyKVBlocksList, Bool.and_eq_true] at hk
    simp only [canonicalList, Bool.and_eq_true] at hcan
    cases c with
    | empty rg =>
      unfold stopCond
      rw [serLinesList_empty_cons, List.cons_append,
        List.dropWhile_cons_of_pos (by rfl)]
      exact ih hk.2 hcan.2 rest hr
    | keyValuePair k kr v vr ci rg =>
      exact stopCond_serLines_cons rfl hcan.1 (by omega)
    | block k kr ci cs rg =>
      exact stopCond_serLines_cons rfl hcan.1 (by omega)
    | document cs rg => simp [onlyKVBlocks] at hk
    | simpleArray d => simp [onlyKVBlocks] at hk
    | structuredArray d => simp [onlyKVBlocks] at hk
    | field f => simp [onlyKVBlocks] at hk
    | dataRow r => simp [onlyKVBlocks] at hk
    | value v => simp [onlyKVBlocks] at hk

theorem skip_empties : ∀ cs : List ASTNode, onlyKVBlocksList cs = true →
    canonicalList cs = true →
    ∃ (kk : Nat) (cs'' : List ASTNode),
      shapeList cs'' = shapeList cs ∧ onlyKVBlocksList cs'' = true ∧
      canonicalList cs'' = true ∧ cs''.length ≤ cs.length ∧
      serLinesList cs 0 = List.replicate kk [] ++ serLinesList cs'' 0 ∧
      (serLinesList cs 0).takeWhile isBlankLine = List.replicate kk [] := by
  intro cs
  induction cs with
  | nil =>
    intro _ _
    exact ⟨0, [], rfl, rfl, rfl, le_refl _, rfl, rfl⟩
  | cons c cs' ih =>
    intro hk hcan
    simp only [onlyKVBlocksList, Bool.and_eq_true] at hk
    simp only [canonicalList, Bool.and_eq_true] at hcan
    cases c with
    | empty rg =>
      obtain ⟨kk, cs'', h1, h2, h3, h4, h5, h6⟩ := ih hk.2 hcan.2
      refine ⟨kk + 1, cs'', ?_, h2, h3, ?_, ?_, ?_⟩
      · rw [show shapeList (ASTNode.empty rg :: cs') = shapeList cs' from rfl]
        exact h1
      · simpa using Nat.le_succ_of_le h4
      · rw [serLinesList_empty_cons, h5, List.replicate_succ, List.cons_append]
      · rw [serLinesList_empty_cons, List.takeWhile_cons_of_pos (by rfl), h6,
          List.replicate_succ]
    | keyValuePair k kr v vr ci rg =>
      refine ⟨0, .keyValuePair k kr v vr ci rg :: cs', rfl, ?_, ?_, le_refl _, by simp, ?_⟩
      · simp [onlyKVBlocksList, hk.1, hk.2]
      · simp [canonicalList, hcan.1, hcan.2]
      · obtain ⟨l0, tailL, heq, hnb, hind⟩ :=
          serLinesList_head (.keyValuePair k kr v vr ci rg) cs' 0 rfl hcan.1
        rw [heq, List.takeWhile_cons_of_neg (by simp [isBlankLine, hnb])]
        rfl
    | block k kr ci bs rg =>
      refine ⟨0, .block k kr ci bs rg :: cs', rfl, ?_, ?_, le_refl _, by simp, ?_⟩
      · simp [onlyKVBlocksList, hk.1, hk.2]
      · simp [canonicalList, hcan.1, hcan.2]
      · obtain ⟨l0, tailL, heq, hnb, hind⟩ :=
          serLinesList_head (.block k kr ci bs rg) cs' 0 rfl hcan.1
        rw [heq, List.takeWhile_cons_of_neg (by simp [isBlankLine, hnb])]
        rfl
    | document cs rg => simp [onlyKVBlocks] at hk
    | simpleArray d => simp [onlyKVBlocks] at hk
    | structuredArray d => simp [onlyKVBlocks] at hk
    | field f => simp [onlyKVBlocks] at hk
    | dataRow r => simp [onlyKVBlocks] at hk
    | value v => simp [onlyKVBlocks] at hk

theorem tryParseKeyValuePair_canonical {line : Str} {n : Nat} {r : ASTNode × Nat}
    (h : tryParseKeyValuePair line n = some r) :
    canonical r.1 = true ∧ isKVOrBlock r.1 = true ∧ r.2 = 1 := by
  simp only [tryParseKeyValuePair] at h
  split at h
  · simp at h
  · split at h
    · simp at h
    · obtain rfl := (Option.some_inj.mp h).symm
      refine ⟨?_, rfl, rfl⟩
      simp only [canonical, Bool.and_eq_true, decide_eq_true_eq]
      exact ⟨jsTrim_idem _, jsTrim_idem _⟩

theorem tryParseStructuredArray_canonical {line : Str} {n : Nat} {allLines : List Str}
    {r : ASTNode × Nat} (h : tryParseStructuredArray line n allLines = some r) :
    canonical r.1 = true := by
  simp only [tryParseStructuredArray] at h
  split at h
  · simp at h
  · obtain rfl := (Option.some_inj.mp h).symm
    rfl

theorem tryParseSimpleArray_canonical {line : Str} {n : Nat} {r : ASTNode × Nat}
    (h : tryParseSimpleArray line n = some r) : canonical r.1 = true := by
  simp only [tryParseSimpleArray] at h
  split at h
  · simp at h
  · split at h
    · simp at h
    · obtain rfl := (Option.some_inj.mp h).symm
      rfl

theorem blockParse_canonical : ∀ fuel : Nat,
    (∀ allLines idx lvl,
      canonicalList (blockChildrenLoopF fuel allLines idx lvl).1 = true ∧
      (blockChildrenLoopF fuel allLines idx lvl).1.all isKVOrBlock = true) ∧
    (∀ line n allLines lvl node,
      (parseBlockChildF fuel line n allLines lvl).1 = some node →
        canonical node = true ∧
        (node.nodeType = NodeType.empty ∨ isKVOrBlock node = true)) ∧
    (∀ line n allLines lvl r,
      tryParseNestedBlockStructureF fuel line n allLines lvl = some r →
        canonical r.1 = true ∧ isKVOrBlock r.1 = true) := by
  intro fuel
  induction fuel with
  | zero =>
    refine ⟨fun _ _ _ => ⟨rfl, rfl⟩, ?_, ?_⟩
    · intro line n allLines lvl node h
      simp only [parseBlockChildF] at h
      obtain rfl := Option.some_inj.mp h
      exact ⟨rfl, Or.inl rfl⟩
    · intro _ _ _ _ _ h
      simp [tryParseNestedBlockStructureF] at h
  | succ f ih =>
    obtain ⟨ih1, ih2, ih3⟩ := ih
    have hnested : ∀ line n allLines lvl r,
        tryParseNestedBlockStructureF (f + 1) line n allLines lvl = some r →
          canonical r.1 = true ∧ isKVOrBlock r.1 = true := by
      intro line n allLines lvl r h
      simp only [tryParseNestedBlockStructureF] at h
      split at h
      · simp at h
      · split at h
        · simp at h
        · split at h
          · simp at h
          · split at h
            · simp at h
            · split at h
              · simp at h
              · split at h
                · simp at h
                · rename_i lastChild hlast
                  obtain rfl := (Option.some_inj.mp h).symm
                  refine ⟨?_, rfl⟩
                  simp only [canonical, Bool.and_eq_true, Bool.not_eq_true',
                    decide_eq_true_eq]
                  exact ⟨⟨⟨jsTrim_idem _, isEmpty_eq_false_of_getLast hlast⟩,
                    (ih1 allLines (n + 1) _).2⟩, (ih1 allLines (n + 1) _).1⟩
    have hchild : ∀ line n allLines lvl node,
        (parseBlockChildF (f + 1) line n allLines lvl).1 = some node →
          canonical node = true ∧
          (node.nodeType = NodeType.empty ∨ isKVOrBlock node = true) := by
      intro line n allLines lvl node h
      simp only [parseBlockChildF] at h
      split at h
      · obtain rfl := Option.some_inj.mp h
        exact ⟨rfl, Or.inl rfl⟩
      · split at h
        · rename_i r hr
          obtain rfl := Option.some_inj.mp h
          obtain ⟨hc, hkb⟩ := ih3 _ _ _ _ _ hr
          exact ⟨hc, Or.inr hkb⟩
        · split at h
          · rename_i r hr
            obtain rfl := Option.some_inj.mp h
            obtain ⟨hc, hkb, -⟩ := tryParseKeyValuePair_canonical hr
            exact ⟨hc, Or.inr hkb⟩
          · obtain rfl := Option.some_inj.mp h
            exact ⟨rfl, Or.inl rfl⟩
    have hloop : ∀ allLines idx lvl,
        canonicalList (blockChildrenLoopF (f + 1) allLines idx lvl).1 = true ∧
        (blockChildrenLoopF (f + 1) allLines idx lvl).1.all isKVOrBlock = true := by
      intro allLines idx lvl
      unfold blockChildrenLoopF
      cases hget : allLines.get? idx with
      | none => exact ⟨rfl, rfl⟩
      | some childLine =>
        dsimp only
        by_cases hblank : jsTrim childLine = []
        · rw [if_pos hblank]
          exact ih1 allLines (idx + 1) lvl
        · rw [if_neg hblank]
          by_cases hind : getIndentLevel childLine < lvl
          · rw [if_pos hind]
            exact ⟨rfl, rfl⟩
          · rw [if_neg hind]
            simp only
            cases hres : (parseBlockChildF f childLine idx allLines lvl).1 with
            | none =>
              simp only [hres]
              exact ih1 allLines _ lvl
            | some node =>
              simp only [hres]
              by_cases hemp : node.nodeType = NodeType.empty
              · rw [if_neg (by simp [hemp])]
                exact ih1 allLines _ lvl
              · rw [if_pos (by simp [hemp])]
                obtain ⟨hc, hdis⟩ := ih2 _ _ _ _ _ hres
                have hkb : isKVOrBlock node = true := by
                  rcases hdis with hd | hd
                  · exact absurd hd hemp
                  · exact hd
                constructor
                · simp only [canonicalList, Bool.and_eq_true]
                  exact ⟨hc, (ih1 allLines _ lvl).1⟩
                · simp only [List.all_cons, Bool.and_eq_true]
                  exact ⟨hkb, (ih1 allLines _ lvl).2⟩
    exact ⟨hloop, hchild, hnested⟩

theorem tryParseBlockStructureF_canonical {fuel : Nat} {line : Str} {n : Nat}
    {allLines : List Str} {r : ASTNode × Nat}
    (h : tryParseBlockStructureF fuel line n allLines = some r) :
    canonical r.1 = true := by
  rw [tryParseBlockStructureF_eq_nested (w := 0)] at h
  exact ((blockParse_canonical (fuel + 1)).2.2 _ _ _ _ _ h).1

theorem parseLineF_canonical {fuel : Nat} {line : Str} {n : Nat} {allLines : List Str}
    {node : ASTNode} (h : (parseLineF fuel line n allLines).1 = some node) :
    canonical node = true := by
  simp only [parseLineF] at h
  split at h
  · obtain rfl := Option.some_inj.mp h
    rfl
  · split at h
    · rename_i r hr
      obtain rfl := Option.some_inj.mp h
      exact tryParseStructuredArray_canonical hr
    · split at h
      · rename_i r hr
        obtain rfl := Option.some_inj.mp h
        exact tryParseSimpleArray_canonical hr
      · split at h
        · rename_i r hr
          obtain rfl := Option.some_inj.mp h
          exact tryParseBlockStructureF_canonical hr
        · split at h
          · rename_i r hr
            obtain rfl := Option.some_inj.mp h
            exact (tryParseKeyValuePair_canonical hr).1
          · obtain rfl := Option.some_inj.mp h
            rfl

theorem parseTopLoopF_canonical : ∀ (fuel : Nat) (allLines : List Str) (idx : Nat),
    canonicalList (parseTopLoopF fuel allLines idx) = true := by
  intro fuel
  induction fuel with
  | zero => intro _ _; rfl
  | succ f ih =>
    intro allLines idx
    unfold parseTopLoopF
    cases hget : allLines.get? idx with
    | none => rfl
    | some line =>
      dsimp only
      cases hres : (parseLineF f line idx allLines).1 with
      | none =>
        simp only [hres]
        exact ih allLines _
      | some node =>
        simp only [hres, canonicalList, Bool.and_eq_true]
        exact ⟨parseLineF_canonical hres, ih allLines _⟩

theorem parse_canonical (text : Str) : canonical (parse text) = true :=
  parseTopLoopF_canonical _ _ 0

theorem loop_stops : ∀ (rest : List Str) (fuel : Nat) (pre : List Str) (w : Nat),
    stopCond rest w → rest.length + 1 ≤ fuel →
    blockChildrenLoopF fuel (pre ++ rest) pre.length w =
      ([], pre.length + (rest.takeWhile isBlankLine).length) := by
  intro rest
  induction rest with
  | nil =>
    intro fuel pre w _ hf
    cases fuel with
    | zero => omega
    | succ f =>
      unfold blockChildrenLoopF
      rw [show (pre ++ ([] : List Str)).get? pre.length = none from by
        rw [List.append_nil]; exact List.get?_eq_none.mpr (le_refl _)]
      simp [List.takeWhile]
  | cons r rest' ih =>
    intro fuel pre w hs hf
    cases fuel with
    | zero => simp at hf
    | succ f =>
      unfold blockChildrenLoopF
      rw [get?_append_cons]
      dsimp only
      by_cases hb : jsTrim r = []
      · rw [if_pos hb]
        have hbl : isBlankLine r = true := by simp [isBlankLine, hb]
        have hpre : pre ++ r :: rest' = (pre ++ [r]) ++ rest' := by simp
        have hlen : pre.length + 1 = (pre ++ [r]).length := by simp
        rw [hpre, hlen]
        rw [ih f (pre ++ [r]) w ?_ (by simp only [List.length_cons] at hf; omega)]
        · rw [List.takeWhile_cons_of_pos hbl]
          simp only [Prod.mk.injEq]
          exact ⟨trivial, by simp; omega⟩
        · unfold stopCond at hs ⊢
          rwa [List.dropWhile_cons_of_pos hbl] at hs
      · rw [if_neg hb]
        have hbl : isBlankLine r = false := by simp [isBlankLine, hb]
        have hind : getIndentLevel r < w := by
          unfold stopCond at hs
          rw [List.dropWhile_cons_of_neg (by simp [hbl])] at hs
          exact hs
        rw [if_pos hind]
        rw [List.takeWhile_cons_of_neg (by simp [hbl])]
        simp

theorem blockChildrenLoopF_succ (f : Nat) (A : List Str) (i w : Nat) :
    blockChildrenLoopF (f + 1) A i w =
      match A.get? i with
      | none => ([], i)
      | some childLine =>
        if jsTrim childLine = [] then blockChildrenLoopF f A (i + 1) w
        else if getIndentLevel childLine < w then ([], i)
        else
          let res := parseBlockChildF f childLine i A w
          let rest := blockChildrenLoopF f A (i + res.2) w
          (match res.1 with
           | some node => if node.nodeType ≠ NodeType.empty then node :: rest.1 else rest.1
           | none => rest.1,
           rest.2) := rfl

theorem loop_step_kv {k v : Str} (lvl : Nat) {pre : List Str}
    (tailLines : List Str) (H : Nat)
    (hkt : jsTrim k = k) (hvt : jsTrim v = v)
    (hkcl : cleanStr k = true) (hvcl : cleanStr v = true)
    (hnx : ∀ nx, (pre ++ serKVLine k v lvl :: tailLines).get? (pre.length + 1) = some nx →
      jsTrim nx = [] ∨ getIndentLevel nx ≤ 2 * lvl) :
    ∃ node,
      blockChildrenLoopF (H + 3) (pre ++ serKVLine k v lvl :: tailLines) pre.length (2 * lvl) =
        (node :: (blockChildrenLoopF (H + 2) (pre ++ serKVLine k v lvl :: tailLines)
            (pre.length + 1) (2 * lvl)).1,
         (blockChildrenLoopF (H + 2) (pre ++ serKVLine k v lvl :: tailLines)
            (pre.length + 1) (2 * lvl)).2) ∧
      shapeOf node = some (.kv k v) := by
  obtain ⟨tail, hline, hci, hbr, hkey, hval, hind, hnb⟩ :=
    kvline_core k v lvl hkt hvt hkcl hvcl
  obtain ⟨rkv, hrkv, hr2, hshape, hnt⟩ :=
    tryParseKVP_serialized lvl pre.length hkt hvt hkcl hvcl
  have hnested := nested_none_kv lvl pre.length H (2 * lvl)
    (pre ++ serKVLine k v lvl :: tailLines) hkt hvt hkcl hvcl hnx
  have hpb : parseBlockChildF (H + 1 + 1) (serKVLine k v lvl) pre.length
      (pre ++ serKVLine k v lvl :: tailLines) (2 * lvl) = (some rkv.1, rkv.2) := by
    simp only [parseBlockChildF]
    rw [if_neg hnb, hnested]
    dsimp only
    rw [hrkv]
  refine ⟨rkv.1, ?_, hshape⟩
  obtain ⟨F, hF⟩ : ∃ F, F = H + 2 := ⟨H + 2, rfl⟩
  rw [show H + 1 + 1 = F from by omega] at hpb
  rw [show H + 3 = F + 1 from by omega, show H + 2 = F from hF.symm]
  rw [blockChildrenLoopF_succ]
  rw [get?_append_cons]
  dsimp only
  rw [if_neg hnb, if_neg (by rw [hind]; omega)]
  rw [hpb]
  dsimp only
  rw [hr2]
  rw [if_pos (by simp [hnt])]

theorem parseBlockChildF_succ (f : Nat) (line : Str) (n : Nat) (A : List Str) (w : Nat) :
    parseBlockChildF (f + 1) line n A w =
      (if jsTrim line = [] then (some (createEmptyNode n line.length), 1)
       else
        match tryParseNestedBlockStructureF f line n A w with
        | some r => (some r.1, r.2)
        | none =>
          match tryParseKeyValuePair line n with
          | some r => (some r.1, r.2)
          | none => (some (createEmptyNode n line.length), 1)) := rfl

theorem nestedF_succ (f : Nat) (line : Str) (n : Nat) (A : List Str) (p : Nat) :
    tryParseNestedBlockStructureF (f + 1) line n A p =
      (let colonIndex := jsIndexOf line [':']
       if colonIndex = -1 then none
       else
        let bracketIndex := jsIndexOf line ['[']
        if bracketIndex ≠ -1 && bracketIndex < colonIndex then none
        else
          let key := jsTrim (line.take colonIndex.toNat)
          let valueAfterColon := jsTrim (line.drop (colonIndex.toNat + 1))
          if valueAfterColon.length > 0 then none
          else
            match A.get? (n + 1) with
            | none => none
            | some nextLine =>
              let currentIndent := getIndentLevel line
              let nextIndent := getIndentLevel nextLine
              if jsTrim nextLine = [] || nextIndent ≤ currentIndent then none
              else
                let lp := blockChildrenLoopF f A (n + 1) nextIndent
                match lp.1.getLast? with
                | none => none
                | some lastChild =>
                  let keyStartChar := jsIndexOf line key
                  some (.block key
                    (createRange n keyStartChar n (keyStartChar + key.length))
                    colonIndex lp.1
                    (createRange n 0 lastChild.range.stop.line
                      lastChild.range.stop.character),
                    lp.2 - n)) := rfl

theorem loop_step_block {kB : Str} (lvl : Nat) {pre : List Str}
    (tailLines : List Str) (H : Nat)
    (hkt : jsTrim kB = kB) (hkcl : cleanStr kB = true)
    (hnext : ∃ l0, (pre ++ serHeaderLine kB lvl :: tailLines).get? (pre.length + 1) =
        some l0 ∧ jsTrim l0 ≠ [] ∧ getIndentLevel l0 = 2 * (lvl + 1))
    (hne : (blockChildrenLoopF H (pre ++ serHeaderLine kB lvl :: tailLines)
        (pre.length + 1) (2 * (lvl + 1))).1 ≠ [])
    (hlp2 : pre.length + 1 ≤ (blockChildrenLoopF H (pre ++ serHeaderLine kB lvl :: tailLines)
        (pre.length + 1) (2 * (lvl + 1))).2) :
    ∃ node,
      blockChildrenLoopF (H + 3) (pre ++ serHeaderLine kB lvl :: tailLines)
          pre.length (2 * lvl) =
        (node :: (blockChildrenLoopF (H + 2) (pre ++ serHeaderLine kB lvl :: tailLines)
            (blockChildrenLoopF H (pre ++ serHeaderLine kB lvl :: tailLines)
              (pre.length + 1) (2 * (lvl + 1))).2 (2 * lvl)).1,
         (blockChildrenLoopF (H + 2) (pre ++ serHeaderLine kB lvl :: tailLines)
            (blockChildrenLoopF H (pre ++ serHeaderLine kB lvl :: tailLines)
              (pre.length + 1) (2 * (lvl + 1))).2 (2 * lvl)).2) ∧
      shapeOf node = some (.blk kB (shapeList
        (blockChildrenLoopF H (pre ++ serHeaderLine kB lvl :: tailLines)
          (pre.length + 1) (2 * (lvl + 1))).1)) := by
  obtain ⟨l0, hget1, hnb0, hind0⟩ := hnext
  obtain ⟨tail, hline, hci, hbr, hkey, hval, hind, hnb⟩ :=
    kvline_core kB [] lvl hkt rfl hkcl rfl
  rw [← serHeaderLine_eq_kv] at hline hci hbr hkey hval hind hnb
  obtain ⟨last, hlast⟩ : ∃ last,
      (blockChildrenLoopF H (pre ++ serHeaderLine kB lvl :: tailLines)
        (pre.length + 1) (2 * (lvl + 1))).1.getLast? = some last := by
    cases hl : (blockChildrenLoopF H (pre ++ serHeaderLine kB lvl :: tailLines)
        (pre.length + 1) (2 * (lvl + 1))).1.getLast? with
    | none => exact absurd (List.getLast?_eq_none_iff.mp hl) hne
    | some x => exact ⟨x, rfl⟩
  have hnested : tryParseNestedBlockStructureF (H + 1) (serHeaderLine kB lvl) pre.length
      (pre ++ serHeaderLine kB lvl :: tailLines) (2 * lvl) =
      some (.block kB
        (createRange pre.length (jsIndexOf (serHeaderLine kB lvl) kB) pre.length
          (jsIndexOf (serHeaderLine kB lvl) kB + kB.length))
        ((indentOf lvl ++ kB).length : Int)
        (blockChildrenLoopF H (pre ++ serHeaderLine kB lvl :: tailLines)
          (pre.length + 1) (2 * (lvl + 1))).1
        (createRange pre.length 0 last.range.stop.line last.range.stop.character),
        (blockChildrenLoopF H (pre ++ serHeaderLine kB lvl :: tailLines)
          (pre.length + 1) (2 * (lvl + 1))).2 - pre.length) := by
    rw [nestedF_succ]
    simp only [hci, hbr]
    rw [if_neg (by omega)]
    rw [if_neg (by simp)]
    rw [Int.toNat_natCast, hval]
    rw [if_neg (by simp)]
    rw [hget1]
    dsimp only
    rw [hind, hind0]
    rw [if_neg (by simp [hnb0])]
    rw [hlast]
    dsimp only
    rw [hkey]
  have hpb : parseBlockChildF (H + 2) (serHeaderLine kB lvl) pre.length
      (pre ++ serHeaderLine kB lvl :: tailLines) (2 * lvl) =
      (some (.block kB
        (createRange pre.length (jsIndexOf (serHeaderLine kB lvl) kB) pre.length
          (jsIndexOf (serHeaderLine kB lvl) kB + kB.length))
        ((indentOf lvl ++ kB).length : Int)
        (blockChildrenLoopF H (pre ++ serHeaderLine kB lvl :: tailLines)
          (pre.length + 1) (2 * (lvl + 1))).1
        (createRange pre.length 0 last.range.stop.line last.range.stop.character)),
        (blockChildrenLoopF H (pre ++ serHeaderLine kB lvl :: tailLines)
          (pre.length + 1) (2 * (lvl + 1))).2 - pre.length) := by
    rw [show H + 2 = (H + 1) + 1 from rfl, parseBlockChildF_succ]
    rw [if_neg hnb, hnested]
  refine ⟨.block kB
    (createRange pre.length (jsIndexOf (serHeaderLine kB lvl) kB) pre.length
      (jsIndexOf (serHeaderLine kB lvl) kB + kB.length))
    ((indentOf lvl ++ kB).length : Int)
    (blockChildrenLoopF H (pre ++ serHeaderLine kB lvl :: tailLines)
      (pre.length + 1) (2 * (lvl + 1))).1
    (createRange pre.length 0 last.range.stop.line last.range.stop.character), ?_, rfl⟩
  obtain ⟨F, hF⟩ : ∃ F, F = H + 2 := ⟨H + 2, rfl⟩
  rw [show H + 2 = F from hF.symm] at hpb
  rw [show H + 3 = F + 1 from by omega, show H + 2 = F from hF.symm]
  rw [blockChildrenLoopF_succ]
  rw [get?_append_cons]
  dsimp only
  rw [if_neg hnb, if_neg (by rw [hind]; omega)]
  rw [hpb]
  dsimp only
  rw [show pre.length + ((blockChildrenLoopF H (pre ++ serHeaderLine kB lvl :: tailLines)
      (pre.length + 1) (2 * (lvl + 1))).2 - pre.length) =
    (blockChildrenLoopF H (pre ++ serHeaderLine kB lvl :: tailLines)
      (pre.length + 1) (2 * (lvl + 1))).2 from by omega]
  rw [if_pos (by simp [ASTNode.nodeType])]

theorem dropWhile_idem_g {α : Type} {P : α → Bool} (l : List α) :
    (l.dropWhile P).dropWhile P = l.dropWhile P := by
  induction l with
  | nil => rfl
  | cons c l ih =>
    by_cases h : P c = true
    · rw [List.dropWhile_cons_of_pos h]; exact ih
    · rw [List.dropWhile_cons_of_neg (by simp [h]), List.dropWhile_cons_of_neg (by simp [h])]

theorem takeWhile_dropWhile_nil {α : Type} {P : α → Bool} (l : List α) :
    (l.dropWhile P).takeWhile P = [] := by
  induction l with
  | nil => rfl
  | cons c l ih =>
    by_cases h : P c = true
    · rw [List.dropWhile_cons_of_pos h]; exact ih
    · rw [List.dropWhile_cons_of_neg (by simp [h]), List.takeWhile_cons_of_neg h]

theorem stopCond_cons_false {r : Str} {t : List Str} {w : Nat}
    (hb : isBlankLine r = false) (hs : stopCond (r :: t) w) : getIndentLevel r < w := by
  unfold stopCond at hs
  rw [List.dropWhile_cons_of_neg (by simp [hb])] at hs
  exact hs

theorem stopCond_dropWhile {rest : List Str} {w : Nat} (hs : stopCond rest w) :
    stopCond (rest.dropWhile isBlankLine) w := by
  unfold stopCond at hs ⊢
  rw [dropWhile_idem_g]
  exact hs

theorem ne_nil_of_isEmpty_false {l : List ASTNode} (h : l.isEmpty = false) : l ≠ [] := by
  cases l with
  | nil => simp at h
  | cons a t => simp

theorem shapeList_cons_some {n : ASTNode} {ns : List ASTNode} {s : Shape}
    (h : shapeOf n = some s) : shapeList (n :: ns) = s :: shapeList ns := by
  simp [shapeList, h]

theorem shapeList_ne_nil_of_kvb {bs : List ASTNode} (hne : bs ≠ [])
    (hall : bs.all isKVOrBlock = true) : shapeList bs ≠ [] := by
  cases bs with
  | nil => exact absurd rfl hne
  | cons b bs' =>
    simp only [List.all_cons, Bool.and_eq_true] at hall
    have : ∃ s, shapeOf b = some s := by
      cases b <;> simp [isKVOrBlock] at hall <;> simp [shapeOf]
    obtain ⟨s, hs⟩ := this
    rw [shapeList_cons_some hs]
    simp

theorem reparse_children_loop : ∀ N : Nat, ∀ cs : List ASTNode, treeNodeCountList cs ≤ N →
    ∀ (lvl : Nat) (pre rest : List Str) (fuel : Nat),
    1 ≤ lvl →
    cs.all isKVOrBlock = true →
    canonicalList cs = true →
    onlyKVBlocksList cs = true →
    stopCond rest (2 * lvl) →
    3 * ((serLinesList cs lvl).length + rest.length) + 3 ≤ fuel →
    shapeList (blockChildrenLoopF fuel (pre ++ (serLinesList cs lvl ++ rest))
        pre.length (2 * lvl)).1 = shapeList cs ∧
    (blockChildrenLoopF fuel (pre ++ (serLinesList cs lvl ++ rest)) pre.length (2 * lvl)).2
      = pre.length + (serLinesList cs lvl).length + (rest.takeWhile isBlankLine).length := by
  intro N
  induction N using Nat.strong_induction_on with
  | _ N IHN =>
    intro cs hcount lvl pre rest fuel hlvl hkb hcan hkc hstop hfuel
    cases cs with
    | nil =>
      have hs := loop_stops rest fuel pre (2 * lvl) hstop
        (by simp [serLinesList] at hfuel; omega)
      constructor
      · simp only [serLinesList, List.nil_append]
        rw [hs]
      · simp only [serLinesList, List.nil_append]
        rw [hs]
        simp [serLinesList]
    | cons c cs' =>
      simp only [List.all_cons, Bool.and_eq_true] at hkb
      simp only [canonicalList, Bool.and_eq_true] at hcan
      simp only [onlyKVBlocksList, Bool.and_eq_true] at hkc
      obtain ⟨hkb1, hkb2⟩ := hkb
      obtain ⟨hcan1, hcan2⟩ := hcan
      obtain ⟨hkc1, hkc2⟩ := hkc
      have hc1 := one_le_treeNodeCount c
      have hcount' : treeNodeCountList cs' ≤ N - 1 := by
        simp only [treeNodeCountList] at hcount; omega
      have hNpos : 1 ≤ N := by
        simp only [treeNodeCountList] at hcount; omega
      cases c with
      | keyValuePair k kr v vr ci rg =>
        simp only [canonical, Bool.and_eq_true, decide_eq_true_eq] at hcan1
        simp only [onlyKVBlocks, Bool.and_eq_true] at hkc1
        have hsl : serLinesList (ASTNode.keyValuePair k kr v vr ci rg :: cs') lvl =
            serKVLine k v lvl :: serLinesList cs' lvl := by
          simp [serLinesList, serNodeLinesOpt]
        have hf6 : 6 ≤ fuel := by
          rw [hsl] at hfuel
          simp only [List.length_cons] at hfuel
          omega
        obtain ⟨H, rfl⟩ : ∃ H, fuel = H + 3 := ⟨fuel - 3, by omega⟩
        have hnx : ∀ nx, (pre ++ serKVLine k v lvl :: (serLinesList cs' lvl ++ rest)).get?
            (pre.length + 1) = some nx →
            jsTrim nx = [] ∨ getIndentLevel nx ≤ 2 * lvl := by
          intro nx hget
          rw [get?_append_cons_succ] at hget
          cases cs' with
          | nil =>
            simp only [serLinesList, List.nil_append] at hget
            cases rest with
            | nil => simp at hget
            | cons r rest' =>
              have hrx : r = nx := by simpa using hget
              by_cases hbl : isBlankLine r = true
              · exact Or.inl (by rw [← hrx]; simpa [isBlankLine] using hbl)
              · right
                rw [← hrx]
                have := stopCond_cons_false (by simpa using hbl) hstop
                omega
          | cons c₂ cs'' =>
            simp only [List.all_cons, Bool.and_eq_true] at hkb2
            simp only [canonicalList, Bool.and_eq_true] at hcan2
            obtain ⟨l0, tailL, heq, hnb0, hind0⟩ :=
              serLinesList_head c₂ cs'' lvl hkb2.1 hcan2.1
            rw [heq] at hget
            simp only [List.cons_append, List.head?_cons, Option.some_inj] at hget
            subst hget
            right
            omega
        obtain ⟨node, hstep, hshape⟩ := loop_step_kv lvl
          (serLinesList cs' lvl ++ rest) H hcan1.1 hcan1.2 hkc1.1 hkc1.2 hnx
        rw [hsl]
        rw [show pre ++ ((serKVLine k v lvl :: serLinesList cs' lvl) ++ rest) =
          pre ++ serKVLine k v lvl :: (serLinesList cs' lvl ++ rest) from by simp]
        rw [hstep]
        have hrec := IHN (N - 1) (by omega) cs' hcount' lvl
          (pre ++ [serKVLine k v lvl]) rest (H + 2) hlvl hkb2 hcan2 hkc2 hstop
          (by rw [hsl] at hfuel; simp only [List.length_cons] at hfuel; omega)
        rw [show (pre ++ [serKVLine k v lvl]) ++ (serLinesList cs' lvl ++ rest) =
            pre ++ serKVLine k v lvl :: (serLinesList cs' lvl ++ rest) from by simp,
          show (pre ++ [serKVLine k v lvl]).length = pre.length + 1 from by simp] at hrec
        obtain ⟨hrec1, hrec2⟩ := hrec
        constructor
        · rw [shapeList_cons_some hshape, hrec1,
            shapeList_cons_some (n := ASTNode.keyValuePair k kr v vr ci rg) rfl]
        · rw [hrec2]
          simp only [List.length_cons]
          omega
      | block kB kr ci bs rg =>
        simp only [canonical, Bool.and_eq_true, Bool.not_eq_true', decide_eq_true_eq] at hcan1
        obtain ⟨⟨⟨hkt, hbempty⟩, hbsall⟩, hbscan⟩ := hcan1
        simp only [onlyKVBlocks, Bool.and_eq_true] at hkc1
        obtain ⟨hkcl, hbskc⟩ := hkc1
        have hbne : bs ≠ [] := ne_nil_of_isEmpty_false hbempty
        have hsl : serLinesList (ASTNode.block kB kr ci bs rg :: cs') lvl =
            serHeaderLine kB lvl :: (serLinesList bs (lvl + 1) ++ serLinesList cs' lvl) := by
          simp [serLinesList, serNodeLinesOpt]
        have hf6 : 6 ≤ fuel := by
          rw [hsl] at hfuel
          simp only [List.length_cons] at hfuel
          omega
        obtain ⟨H, rfl⟩ : ∃ H, fuel = H + 3 := ⟨fuel - 3, by omega⟩
        have hcountbs : treeNodeCountList bs ≤ N - 1 := by
          simp only [treeNodeCountList, treeNodeCount] at hcount hc1 ⊢
          omega
        have hstopInner : stopCond (serLinesList cs' lvl ++ rest) (2 * (lvl + 1)) := by
          cases cs' with
          | nil =>
            simpa [serLinesList] using stopCond_mono (by omega) hstop
          | cons c₂ cs'' =>
            simp only [List.all_cons, Bool.and_eq_true] at hkb2
            simp only [canonicalList, Bool.and_eq_true] at hcan2
            exact stopCond_serLines_cons hkb2.1 hcan2.1 (by omega)
        have hrecB := IHN (N - 1) (by omega) bs hcountbs (lvl + 1)
          (pre ++ [serHeaderLine kB lvl]) (serLinesList cs' lvl ++ rest) H
          (by omega) hbsall hbscan hbskc hstopInner
          (by
            rw [hsl] at hfuel
            simp only [List.length_cons, List.length_append] at hfuel ⊢
            omega)
        rw [show (pre ++ [serHeaderLine kB lvl]) ++
              (serLinesList bs (lvl + 1) ++ (serLinesList cs' lvl ++ rest)) =
            pre ++ serHeaderLine kB lvl ::
              (serLinesList bs (lvl + 1) ++ (serLinesList cs' lvl ++ rest)) from by simp,
          show (pre ++ [serHeaderLine kB lvl]).length = pre.length + 1 from by simp] at hrecB
        obtain ⟨hrecB1, hrecB2⟩ := hrecB
        have hne : (blockChildrenLoopF H
            (pre ++ serHeaderLine kB lvl ::
              (serLinesList bs (lvl + 1) ++ (serLinesList cs' lvl ++ rest)))
            (pre.length + 1) (2 * (lvl + 1))).1 ≠ [] := by
          intro h0
          rw [h0] at hrecB1
          exact shapeList_ne_nil_of_kvb hbne hbsall hrecB1.symm
        have hlp2 : pre.length + 1 ≤ (blockChildrenLoopF H
            (pre ++ serHeaderLine kB lvl ::
              (serLinesList bs (lvl + 1) ++ (serLinesList cs' lvl ++ rest)))
            (pre.length + 1) (2 * (lvl + 1))).2 := by
          rw [hrecB2]; omega
        have hnext : ∃ l0, (pre ++ serHeaderLine kB lvl ::
            (serLinesList bs (lvl + 1) ++ (serLinesList cs' lvl ++ rest))).get?
            (pre.length + 1) = some l0 ∧ jsTrim l0 ≠ [] ∧
            getIndentLevel l0 = 2 * (lvl + 1) := by
          cases bs with
          | nil => exact absurd rfl hbne
          | cons b bs'' =>
            simp only [List.all_cons, Bool.and_eq_true] at hbsall
            simp only [canonicalList, Bool.and_eq_true] at hbscan
            obtain ⟨l0, tailL, heq, hnb0, hind0⟩ :=
              serLinesList_head b bs'' (lvl + 1) hbsall.1 hbscan.1
            refine ⟨l0, ?_, hnb0, hind0⟩
            rw [get?_append_cons_succ, heq]
            rfl
        obtain ⟨node, hstep, hshape⟩ := loop_step_block lvl
          (serLinesList bs (lvl + 1) ++ (serLinesList cs' lvl ++ rest)) H
          hkt hkcl hnext hne hlp2
        rw [hsl]
        rw [show pre ++ ((serHeaderLine kB lvl ::
              (serLinesList bs (lvl + 1) ++ serLinesList cs' lvl)) ++ rest) =
          pre ++ serHeaderLine kB lvl ::
            (serLinesList bs (lvl + 1) ++ (serLinesList cs' lvl ++ rest)) from by simp]
        rw [hstep]
        cases cs' with
        | nil =>
          rw [show serLinesList ([] : List ASTNode) lvl = [] from rfl,
            List.nil_append] at hrecB2 ⊢
          have hsplit : pre ++ serHeaderLine kB lvl :: (serLinesList bs (lvl + 1) ++ rest) =
              (pre ++ serHeaderLine kB lvl ::
                (serLinesList bs (lvl + 1) ++ rest.takeWhile isBlankLine)) ++
                rest.dropWhile isBlankLine := by
            conv_lhs => rw [show rest = rest.takeWhile isBlankLine ++
              rest.dropWhile isBlankLine from (List.takeWhile_append_dropWhile _ _).symm]
            simp
          have hstops := loop_stops (rest.dropWhile isBlankLine) (H + 2)
            (pre ++ serHeaderLine kB lvl ::
              (serLinesList bs (lvl + 1) ++ rest.takeWhile isBlankLine))
            (2 * lvl) (stopCond_dropWhile hstop)
            (by
              have hle : (rest.dropWhile isBlankLine).length ≤ rest.length :=
                (List.dropWhile_suffix isBlankLine).length_le
              rw [hsl] at hfuel
              simp only [List.length_cons, List.length_append] at hfuel
              omega)
          rw [takeWhile_dropWhile_nil] at hstops
          have hidx : (pre ++ serHeaderLine kB lvl ::
              (serLinesList bs (lvl + 1) ++ rest.takeWhile isBlankLine)).length =
              (blockChildrenLoopF H
                (pre ++ serHeaderLine kB lvl :: (serLinesList bs (lvl + 1) ++ rest))
                (pre.length + 1) (2 * (lvl + 1))).2 := by
            rw [hrecB2]
            simp
            omega
          rw [← hsplit] at hstops
          rw [hidx] at hstops
          rw [hstops]
          constructor
          · rw [shapeList_cons_some hshape, hrecB1,
              shapeList_cons_some (n := ASTNode.block kB kr ci bs rg) rfl]
          · rw [hrecB2]
            simp only [List.length_cons, List.length_append, List.length_nil]
            omega
        | cons c₂ cs'' =>
          simp only [List.all_cons, Bool.and_eq_true] at hkb2
          simp only [canonicalList, Bool.and_eq_true] at hcan2
          simp only [onlyKVBlocksList, Bool.and_eq_true] at hkc2
          obtain ⟨l0₂, tailL₂, heq₂, hnb₂, hind₂⟩ :=
            serLinesList_head c₂ cs'' lvl hkb2.1 hcan2.1
          have htw2 : ((serLinesList (c₂ :: cs'') lvl ++ rest).takeWhile isBlankLine) = [] := by
            rw [heq₂, List.cons_append,
              List.takeWhile_cons_of_neg (by simp [isBlankLine, hnb₂])]
          have hrec2B2 : (blockChildrenLoopF H
              (pre ++ serHeaderLine kB lvl ::
                (serLinesList bs (lvl + 1) ++ (serLinesList (c₂ :: cs'') lvl ++ rest)))
              (pre.length + 1) (2 * (lvl + 1))).2 =
              pre.length + 1 + (serLinesList bs (lvl + 1)).length := by
            rw [hrecB2, htw2]
            simp
          have hrecC := IHN (N - 1) (by omega) (c₂ :: cs'')
            (by simp only [treeNodeCountList, treeNodeCount] at hcount hc1 ⊢; omega) lvl
            (pre ++ serHeaderLine kB lvl :: serLinesList bs (lvl + 1)) rest (H + 2)
            hlvl (by simp [hkb2.1, hkb2.2])
            (by simp only [canonicalList, Bool.and_eq_true]; exact hcan2)
            (by simp only [onlyKVBlocksList, Bool.and_eq_true]; exact hkc2)
            hstop
            (by
              rw [hsl] at hfuel
              simp only [List.length_cons, List.length_append] at hfuel ⊢
              omega)
          rw [show (pre ++ serHeaderLine kB lvl :: serLinesList bs (lvl + 1)) ++
                (serLinesList (c₂ :: cs'') lvl ++ rest) =
              pre ++ serHeaderLine kB lvl ::
                (serLinesList bs (lvl + 1) ++ (serLinesList (c₂ :: cs'') lvl ++ rest))
              from by simp,
            show (pre ++ serHeaderLine kB lvl :: serLinesList bs (lvl + 1)).length =
              pre.length + 1 + (serLinesList bs (lvl + 1)).length from by
                simp only [List.length_append, List.length_cons]; omega] at hrecC
          rw [← hrec2B2] at hrecC
          obtain ⟨hrecC1, hrecC2⟩ := hrecC
          constructor
          · rw [shapeList_cons_some hshape, hrecB1, hrecC1,
              shapeList_cons_some (n := ASTNode.block kB kr ci bs rg) rfl]
          · rw [hrecC2, hrec2B2]
            simp only [List.length_cons, List.length_append]
            omega
      | document cs rg => exact absurd hkb1 (by simp [isKVOrBlock])
      | simpleArray d => exact absurd hkb1 (by simp [isKVOrBlock])
      | structuredArray d => exact absurd hkb1 (by simp [isKVOrBlock])
      | field f => exact absurd hkb1 (by simp [isKVOrBlock])
      | dataRow r => exact absurd hkb1 (by simp [isKVOrBlock])
      | value v => exact absurd hkb1 (by simp [isKVOrBlock])
      | empty rg => exact absurd hkb1 (by simp [isKVOrBlock])

theorem parseTopLoopF_succ (f : Nat) (A : List Str) (i : Nat) :
    parseTopLoopF (f + 1) A i =
      match A.get? i with
      | none => []
      | some line =>
        match (parseLineF f line i A).1 with
        | some node => node :: parseTopLoopF f A (i + (parseLineF f line i A).2)
        | none => parseTopLoopF f A (i + (parseLineF f line i A).2) := rfl

theorem serKVLine_no_bracket {k v : Str} {lvl : Nat}
    (hkcl : cleanStr k = true) (hvcl : cleanStr v = true) :
    '[' ∉ serKVLine k v lvl := by
  have hkspec := cleanStr_spec hkcl
  have hvspec := cleanStr_spec hvcl
  intro hmem
  unfold serKVLine at hmem
  split at hmem
  · rcases List.mem_append.mp hmem with h | h
    · rcases List.mem_append.mp h with h2 | h2
      · exact absurd (mem_indentOf h2) (by decide)
      · exact (hkspec _ h2).2.1 rfl
    · rcases List.mem_cons.mp h with h2 | h2
      · exact absurd h2 (by decide)
      · rcases List.mem_cons.mp h2 with h3 | h3
        · exact absurd h3 (by decide)
        · exact (hvspec _ h3).2.1 rfl
  · rcases List.mem_append.mp hmem with h | h
    · rcases List.mem_append.mp h with h2 | h2
      · exact absurd (mem_indentOf h2) (by decide)
      · exact (hkspec _ h2).2.1 rfl
    · rcases List.mem_cons.mp h with h2 | h2
      · exact absurd h2 (by decide)
      · simp at h2

theorem serHeaderLine_no_bracket {k : Str} {lvl : Nat} (hkcl : cleanStr k = true) :
    '[' ∉ serHeaderLine k lvl := by
  rw [serHeaderLine_eq_kv]
  exact serKVLine_no_bracket hkcl rfl

theorem serLines_top_head {cs : List ASTNode} (hk : onlyKVBlocksList cs = true)
    (hc : canonicalList cs = true) :
    ∀ nx, (serLinesList cs 0).head? = some nx →
      jsTrim nx = [] ∨ getIndentLevel nx = 0 := by
  intro nx hget
  cases cs with
  | nil => simp [serLinesList] at hget
  | cons c₂ cs'' =>
    simp only [onlyKVBlocksList, Bool.and_eq_true] at hk
    simp only [canonicalList, Bool.and_eq_true] at hc
    cases c₂ with
    | empty rg =>
      rw [serLinesList_empty_cons] at hget
      simp only [List.head?_cons, Option.some_inj] at hget
      subst hget
      exact Or.inl rfl
    | keyValuePair k kr v vr ci rg =>
      obtain ⟨l0, tailL, heq, hnb0, hind0⟩ :=
        serLinesList_head (.keyValuePair k kr v vr ci rg) cs'' 0 rfl hc.1
      rw [heq] at hget
      simp only [List.head?_cons, Option.some_inj] at hget
      subst hget
      right
      omega
    | block kB kr ci bs rg =>
      obtain ⟨l0, tailL, heq, hnb0, hind0⟩ :=
        serLinesList_head (.block kB kr ci bs rg) cs'' 0 rfl hc.1
      rw [heq] at hget
      simp only [List.head?_cons, Option.some_inj] at hget
      subst hget
      right
      omega
    | document cs rg => simp [onlyKVBlocks] at hk
    | simpleArray d => simp [onlyKVBlocks] at hk
    | structuredArray d => simp [onlyKVBlocks] at hk
    | field f => simp [onlyKVBlocks] at hk
    | dataRow r => simp [onlyKVBlocks] at hk
    | value v => simp [onlyKVBlocks] at hk

theorem nested_header_some {kB : Str} (lvl : Nat) {pre : List Str}
    (tailLines : List Str) (G : Nat) {last : ASTNode}
    (hkt : jsTrim kB = kB) (hkcl : cleanStr kB = true)
    (hnext : ∃ l0, (pre ++ serHeaderLine kB lvl :: tailLines).get? (pre.length + 1) =
        some l0 ∧ jsTrim l0 ≠ [] ∧ getIndentLevel l0 = 2 * (lvl + 1))
    (hlast : (blockChildrenLoopF G (pre ++ serHeaderLine kB lvl :: tailLines)
        (pre.length + 1) (2 * (lvl + 1))).1.getLast? = some last)
    (w : Nat) :
    tryParseNestedBlockStructureF (G + 1) (serHeaderLine kB lvl) pre.length
      (pre ++ serHeaderLine kB lvl :: tailLines) w =
      some (.block kB
        (createRange pre.length (jsIndexOf (serHeaderLine kB lvl) kB) pre.length
          (jsIndexOf (serHeaderLine kB lvl) kB + kB.length))
        ((indentOf lvl ++ kB).length : Int)
        (blockChildrenLoopF G (pre ++ serHeaderLine kB lvl :: tailLines)
          (pre.length + 1) (2 * (lvl + 1))).1
        (createRange pre.length 0 last.range.stop.line last.range.stop.character),
        (blockChildrenLoopF G (pre ++ serHeaderLine kB lvl :: tailLines)
          (pre.length + 1) (2 * (lvl + 1))).2 - pre.length) := by
  obtain ⟨l0, hget1, hnb0, hind0⟩ := hnext
  obtain ⟨tail, hline, hci, hbr, hkey, hval, hind, hnb⟩ :=
    kvline_core kB [] lvl hkt rfl hkcl rfl
  rw [← serHeaderLine_eq_kv] at hline hci hbr hkey hval hind hnb
  rw [nestedF_succ]
  simp only [hci, hbr]
  rw [if_neg (by omega)]
  rw [if_neg (by simp)]
  rw [Int.toNat_natCast, hval]
  rw [if_neg (by simp)]
  rw [hget1]
  dsimp only
  rw [hind, hind0]
  rw [if_neg (by simp [hnb0])]
  rw [hlast]
  dsimp only
  rw [hkey]

end Toon

namespace Toon

theorem parseLineF_blank (F n : Nat) (A : List Str) :
    parseLineF F [] n A = (some (createEmptyNode n 0), 1) := rfl

theorem parseLineF_kv_top {k v : Str} (n F : Nat) (A : List Str)
    (hkt : jsTrim k = k) (hvt : jsTrim v = v)
    (hkcl : cleanStr k = true) (hvcl : cleanStr v = true)
    (hnx : ∀ nx, A.get? (n + 1) = some nx → jsTrim nx = [] ∨ getIndentLevel nx ≤ 0) :
    ∃ node, parseLineF F (serKVLine k v 0) n A = (some node, 1) ∧
      shapeOf node = some (.kv k v) := by
  obtain ⟨tail, hline, hci, hbr, hkey, hval, hind, hnb⟩ :=
    kvline_core k v 0 hkt hvt hkcl hvcl
  obtain ⟨rkv, hrkv, hr2, hshape, hnt⟩ := tryParseKVP_serialized 0 n hkt hvt hkcl hvcl
  have hnobr : '[' ∉ serKVLine k v 0 := serKVLine_no_bracket hkcl hvcl
  have hnested := nested_none_kv 0 n F 0 A hkt hvt hkcl hvcl
    (fun nx h => by simpa using hnx nx h)
  refine ⟨rkv.1, ?_, hshape⟩
  simp only [parseLineF]
  rw [if_neg hnb]
  rw [tryParseStructuredArray_none_of_no_bracket hnobr]
  dsimp only
  rw [tryParseSimpleArray_none_of_no_bracket hnobr]
  dsimp only
  rw [show tryParseBlockStructureF F (serKVLine k v 0) n A =
    tryParseNestedBlockStructureF (F + 1) (serKVLine k v 0) n A 0 from rfl]
  rw [hnested]
  dsimp only
  rw [hrkv]
  dsimp only
  rw [hr2]

theorem serLines_nil_imp {cs : List ASTNode} (hk : onlyKVBlocksList cs = true)
    (h : serLinesList cs 0 = []) : cs = [] := by
  cases cs with
  | nil => rfl
  | cons c cs' =>
    simp only [onlyKVBlocksList, Bool.and_eq_true] at hk
    cases c with
    | keyValuePair k kr v vr ci rg =>
      rw [show serLinesList (ASTNode.keyValuePair k kr v vr ci rg :: cs') 0 =
        serKVLine k v 0 :: serLinesList cs' 0 from by simp [serLinesList, serNodeLinesOpt]] at h
      simp at h
    | block kB kr ci bs rg =>
      rw [show serLinesList (ASTNode.block kB kr ci bs rg :: cs') 0 =
        serHeaderLine kB 0 :: (serLinesList bs 1 ++ serLinesList cs' 0) from by
          simp [serLinesList, serNodeLinesOpt]] at h
      simp at h
    | empty rg =>
      rw [serLinesList_empty_cons] at h
      simp at h
    | document cs rg => simp [onlyKVBlocks] at hk
    | simpleArray d => simp [onlyKVBlocks] at hk
    | structuredArray d => simp [onlyKVBlocks] at hk
    | field f => simp [onlyKVBlocks] at hk
    | dataRow r => simp [onlyKVBlocks] at hk
    | value v => simp [onlyKVBlocks] at hk

end Toon

namespace Toon

theorem reparse_top : ∀ N : Nat, ∀ cs : List ASTNode, cs.length ≤ N →
    ∀ (pre : List Str) (fuel : Nat),
    onlyKVBlocksList cs = true →
    canonicalList cs = true →
    3 * (serLinesList cs 0).length + 4 ≤ fuel →
    shapeList (parseTopLoopF fuel (pre ++ serLinesList cs 0) pre.length) = shapeList cs := by
  intro N
  induction N using Nat.strong_induction_on with
  | _ N IHN =>
    intro cs hlen pre fuel hk hcan hfuel
    cases cs with
    | nil =>
      simp only [serLinesList, List.append_nil]
      cases fuel with
      | zero => rfl
      | succ f =>
        rw [parseTopLoopF_succ]
        rw [show (pre : List Str).get? pre.length = none from
          List.get?_eq_none.mpr (le_refl _)]
    | cons c cs' =>
      simp only [onlyKVBlocksList, Bool.and_eq_true] at hk
      simp only [canonicalList, Bool.and_eq_true] at hcan
      obtain ⟨hk1, hk2⟩ := hk
      obtain ⟨hcan1, hcan2⟩ := hcan
      have hN1 : 1 ≤ N := by simp only [List.length_cons] at hlen; omega
      have hlen' : cs'.length ≤ N - 1 := by simp only [List.length_cons] at hlen; omega
      cases c with
      | empty rg =>
        rw [serLinesList_empty_cons] at hfuel ⊢
        obtain ⟨F, rfl⟩ : ∃ F, fuel = F + 1 :=
          ⟨fuel - 1, by simp only [List.length_cons] at hfuel; omega⟩
        rw [parseTopLoopF_succ, get?_append_cons]
        dsimp only
        rw [parseLineF_blank]
        dsimp only
        have hrec := IHN (N - 1) (by omega) cs' hlen' (pre ++ [[]]) F hk2 hcan2
          (by simp only [List.length_cons] at hfuel; omega)
        rw [show ((pre ++ [[]]) ++ serLinesList cs' 0 : List Str) =
            pre ++ [] :: serLinesList cs' 0 from by simp,
          show (pre ++ [([] : Str)]).length = pre.length + 1 from by simp] at hrec
        exact hrec
      | keyValuePair k kr v vr ci rg =>
        simp only [canonical, Bool.and_eq_true, decide_eq_true_eq] at hcan1
        simp only [onlyKVBlocks, Bool.and_eq_true] at hk1
        have hsl : serLinesList (ASTNode.keyValuePair k kr v vr ci rg :: cs') 0 =
            serKVLine k v 0 :: serLinesList cs' 0 := by
          simp [serLinesList, serNodeLinesOpt]
        rw [hsl] at hfuel ⊢
        obtain ⟨F, rfl⟩ : ∃ F, fuel = F + 1 :=
          ⟨fuel - 1, by simp only [List.length_cons] at hfuel; omega⟩
        have hnx : ∀ nx, (pre ++ serKVLine k v 0 :: serLinesList cs' 0).get?
            (pre.length + 1) = some nx → jsTrim nx = [] ∨ getIndentLevel nx ≤ 0 := by
          intro nx hget
          rw [get?_append_cons_succ] at hget
          rcases serLines_top_head hk2 hcan2 nx hget with h | h
          · exact Or.inl h
          · exact Or.inr (by omega)
        obtain ⟨node, hpl, hshape⟩ := parseLineF_kv_top pre.length F
          (pre ++ serKVLine k v 0 :: serLinesList cs' 0) hcan1.1 hcan1.2 hk1.1 hk1.2 hnx
        rw [parseTopLoopF_succ, get?_append_cons]
        dsimp only
        rw [hpl]
        dsimp only
        have hrec := IHN (N - 1) (by omega) cs' hlen' (pre ++ [serKVLine k v 0]) F hk2 hcan2
          (by simp only [List.length_cons] at hfuel; omega)
        rw [show ((pre ++ [serKVLine k v 0]) ++ serLinesList cs' 0 : List Str) =
            pre ++ serKVLine k v 0 :: serLinesList cs' 0 from by simp,
          show (pre ++ [serKVLine k v 0]).length = pre.length + 1 from by simp] at hrec
        rw [shapeList_cons_some hshape, hrec,
          shapeList_cons_some (n := ASTNode.keyValuePair k kr v vr ci rg) rfl]
      | block kB kr ci bs rg =>
        simp only [canonical, Bool.and_eq_true, Bool.not_eq_true', decide_eq_true_eq] at hcan1
        obtain ⟨⟨⟨hkt, hbempty⟩, hbsall⟩, hbscan⟩ := hcan1
        simp only [onlyKVBlocks, Bool.and_eq_true] at hk1
        obtain ⟨hkcl, hbskc⟩ := hk1
        have hbne : bs ≠ [] := ne_nil_of_isEmpty_false hbempty
        have hsl : serLinesList (ASTNode.block kB kr ci bs rg :: cs') 0 =
            serHeaderLine kB 0 :: (serLinesList bs 1 ++ serLinesList cs' 0) := by
          simp [serLinesList, serNodeLinesOpt]
        rw [hsl] at hfuel ⊢
        obtain ⟨F, rfl⟩ : ∃ F, fuel = F + 1 :=
          ⟨fuel - 1, by simp only [List.length_cons] at hfuel; omega⟩
        have hstopI : stopCond (serLinesList cs' 0) 2 := by
          have h2 := stopCond_serLines_top cs' hk2 hcan2 [] trivial
          simpa using h2
        have hloop := reparse_children_loop (treeNodeCountList bs) bs (le_refl _) 1
          (pre ++ [serHeaderLine kB 0]) (serLinesList cs' 0) F (le_refl 1)
          hbsall hbscan hbskc hstopI
          (by
            simp only [List.length_cons, List.length_append] at hfuel
            omega)
        rw [show ((pre ++ [serHeaderLine kB 0]) ++
              (serLinesList bs 1 ++ serLinesList cs' 0) : List Str) =
            pre ++ serHeaderLine kB 0 :: (serLinesList bs 1 ++ serLinesList cs' 0)
            from by simp,
          show (pre ++ [serHeaderLine kB 0]).length = pre.length + 1 from by simp] at hloop
        obtain ⟨hloop1, hloop2⟩ := hloop
        have hne' : (blockChildrenLoopF F
            (pre ++ serHeaderLine kB 0 :: (serLinesList bs 1 ++ serLinesList cs' 0))
            (pre.length + 1) (2 * 1)).1 ≠ [] := by
          intro h0
          rw [h0] at hloop1
          exact shapeList_ne_nil_of_kvb hbne hbsall hloop1.symm
        obtain ⟨last, hlast⟩ : ∃ last, (blockChildrenLoopF F
            (pre ++ serHeaderLine kB 0 :: (serLinesList bs 1 ++ serLinesList cs' 0))
            (pre.length + 1) (2 * 1)).1.getLast? = some last := by
          cases hl : (blockChildrenLoopF F
              (pre ++ serHeaderLine kB 0 :: (serLinesList bs 1 ++ serLinesList cs' 0))
              (pre.length + 1) (2 * 1)).1.getLast? with
          | none => exact absurd (List.getLast?_eq_none_iff.mp hl) hne'
          | some x => exact ⟨x, rfl⟩
        have hnext : ∃ l0, (pre ++ serHeaderLine kB 0 ::
            (serLinesList bs 1 ++ serLinesList cs' 0)).get? (pre.length + 1) =
            some l0 ∧ jsTrim l0 ≠ [] ∧ getIndentLevel l0 = 2 * (0 + 1) := by
          cases bs with
          | nil => exact absurd rfl hbne
          | cons b bs'' =>
            simp only [List.all_cons, Bool.and_eq_true] at hbsall
            simp only [canonicalList, Bool.and_eq_true] at hbscan
            obtain ⟨l0, tailL, heq, hnb0, hind0⟩ :=
              serLinesList_head b bs'' 1 hbsall.1 hbscan.1
            refine ⟨l0, ?_, hnb0, by omega⟩
            rw [get?_append_cons_succ, heq]
            rfl
        have hnested := nested_header_some 0
          (serLinesList bs 1 ++ serLinesList cs' 0) F hkt hkcl hnext
          (by simpa using hlast) 0
        simp only [Nat.zero_add] at hnested
        have hnbH : jsTrim (serHeaderLine kB 0) ≠ [] := by
          unfold serHeaderLine
          rw [List.append_assoc]
          exact jsTrim_ser_ne_nil (r := [])
        have hplF : parseLineF F (serHeaderLine kB 0) pre.length
            (pre ++ serHeaderLine kB 0 :: (serLinesList bs 1 ++ serLinesList cs' 0)) =
            (some (.block kB
              (createRange pre.length (jsIndexOf (serHeaderLine kB 0) kB) pre.length
                (jsIndexOf (serHeaderLine kB 0) kB + kB.length))
              ((indentOf 0 ++ kB).length : Int)
              (blockChildrenLoopF F
                (pre ++ serHeaderLine kB 0 :: (serLinesList bs 1 ++ serLinesList cs' 0))
                (pre.length + 1) (2 * 1)).1
              (createRange pre.length 0 last.range.stop.line last.range.stop.character)),
              (blockChildrenLoopF F
                (pre ++ serHeaderLine kB 0 :: (serLinesList bs 1 ++ serLinesList cs' 0))
                (pre.length + 1) (2 * 1)).2 - pre.length) := by
          simp only [parseLineF]
          rw [if_neg hnbH]
          rw [tryParseStructuredArray_none_of_no_bracket (serHeaderLine_no_bracket hkcl)]
          dsimp only
          rw [tryParseSimpleArray_none_of_no_bracket (serHeaderLine_no_bracket hkcl)]
          dsimp only
          rw [show tryParseBlockStructureF F (serHeaderLine kB 0) pre.length
              (pre ++ serHeaderLine kB 0 :: (serLinesList bs 1 ++ serLinesList cs' 0)) =
            tryParseNestedBlockStructureF (F + 1) (serHeaderLine kB 0) pre.length
              (pre ++ serHeaderLine kB 0 :: (serLinesList bs 1 ++ serLinesList cs' 0)) 0
            from rfl]
          rw [hnested]
        rw [parseTopLoopF_succ, get?_append_cons]
        dsimp only
        rw [hplF]
        dsimp only
        rw [show pre.length + ((blockChildrenLoopF F
            (pre ++ serHeaderLine kB 0 :: (serLinesList bs 1 ++ serLinesList cs' 0))
            (pre.length + 1) (2 * 1)).2 - pre.length) =
          (blockChildrenLoopF F
            (pre ++ serHeaderLine kB 0 :: (serLinesList bs 1 ++ serLinesList cs' 0))
            (pre.length + 1) (2 * 1)).2 from by rw [hloop2]; omega]
        obtain ⟨kk, cs'', hsh, hk'', hcan'', hlen'', hserEq, htwEq⟩ :=
          skip_empties cs' hk2 hcan2
        have hrec := IHN (N - 1) (by omega) cs'' (by omega)
          (pre ++ serHeaderLine kB 0 :: (serLinesList bs 1 ++ List.replicate kk [])) F
          hk'' hcan''
          (by
            have hlenEq : (serLinesList cs' 0).length =
                kk + (serLinesList cs'' 0).length := by
              rw [hserEq]
              simp
            simp only [List.length_cons, List.length_append] at hfuel
            omega)
        rw [show ((pre ++ serHeaderLine kB 0 ::
              (serLinesList bs 1 ++ List.replicate kk [])) ++ serLinesList cs'' 0 : List Str) =
            pre ++ serHeaderLine kB 0 ::
              (serLinesList bs 1 ++ serLinesList cs' 0) from by
            rw [hserEq]; simp,
          show (pre ++ serHeaderLine kB 0 ::
              (serLinesList bs 1 ++ List.replicate kk [])).length =
            pre.length + 1 + (serLinesList bs 1).length + kk from by
            simp only [List.length_append, List.length_cons, List.length_replicate]
            omega] at hrec
        rw [show (blockChildrenLoopF F
            (pre ++ serHeaderLine kB 0 :: (serLinesList bs 1 ++ serLinesList cs' 0))
            (pre.length + 1) (2 * 1)).2 =
          pre.length + 1 + (serLinesList bs 1).length + kk from by
            rw [hloop2, htwEq]
            simp only [List.length_replicate]]
        dsimp only [shapeList, shapeOf]
        rw [hloop1, hrec, hsh]
      | document cs rg => simp [onlyKVBlocks] at hk1
      | simpleArray d => simp [onlyKVBlocks] at hk1
      | structuredArray d => simp [onlyKVBlocks] at hk1
      | field f => simp [onlyKVBlocks] at hk1
      | dataRow r => simp [onlyKVBlocks] at hk1
      | value v => simp [onlyKVBlocks] at hk1

/-- C3: round trip — for every input text whose parse yields a Document
containing only KeyValuePair and Block nodes (besides Empty), with keys and
values free of the structural characters `:`, `[`, `]`, `{`, `}` and
newline, `parse (serialize (parse text))` yields a Document with identical
key, value and structural nesting (the range-free shape) to `parse text`
for every non-Empty node. -/
theorem C3_round_trip (text : Str)
    (h : docOnlyKVBlocks (parse text) = true) :
    docShape (parse (serialize (parse text))) = docShape (parse text) := by
  have hcanon := parse_canonical text
  cases hp : parse text with
  | document cs rg =>
    rw [hp] at hcanon h
    simp only [docOnlyKVBlocks] at h
    simp only [canonical] at hcanon
    by_cases hnil : serLinesList cs 0 = []
    · obtain rfl : cs = [] := serLines_nil_imp h hnil
      rw [show serialize (ASTNode.document [] rg) = [] from rfl]
      rfl
    · have hnl : ∀ l ∈ serLinesList cs 0, '\n' ∉ l :=
        (serLines_no_newline (treeNodeCountList cs)).2 cs (le_refl _) h 0
      have hsplit : jsSplit '\n' (serialize (ASTNode.document cs rg)) =
          serLinesList cs 0 := by
        rw [serialize_eq_lines]
        exact jsSplit_joinWith _ hnil hnl
      simp only [parse, hsplit, docShape]
      have hr := reparse_top cs.length cs (le_refl _) []
        (4 * (serLinesList cs 0).length + 4) h hcanon (by omega)
      simpa using hr
  | keyValuePair k kr v vr ci rg => simp [parse] at hp
  | block k kr ci bs rg => simp [parse] at hp
  | simpleArray d => simp [parse] at hp
  | structuredArray d => simp [parse] at hp
  | field f => simp [parse] at hp
  | dataRow r => simp [parse] at hp
  | value v => simp [parse] at hp
  | empty rg => simp [parse] at hp

/-- C3 witness: the theorem applied at a concrete document with a nested
block, a blank line and two key-value pairs. -/
theorem C3_witness :
    docOnlyKVBlocks (parse "b:\n  a: 1\n\nk: v".toList) = true ∧
    docShape (parse (serialize (parse "b:\n  a: 1\n\nk: v".toList))) =
      docShape (parse "b:\n  a: 1\n\nk: v".toList) :=
  ⟨by decide, C3_round_trip _ (by decide)⟩

end Toon
